import Mathlib

/-! minitar: a shallow embedding of the archive codec and its four operations

The development follows `proj01-code/minitar.c` and `minitar_main.c`.

Modelling conventions

* A byte is a natural number (`Nat`); every byte the program itself produces is below 256.
* A C string is the list of its bytes without the terminating NUL.
* The file system is the working directory, a single directory of regular files: it maps
  a file name to the bytes stored under it. Metadata other than the size comes from an
  environment that is fixed during an operation. The paths the caller passes (the archive
  and the members to add) are taken as file names in that directory. A path read from an
  archive header is resolved by `path_entry`: `.` components and repeated slashes are
  dropped, and a path that leads through any other directory cannot be opened.
* Streams are unbuffered: a write reaches the file at once and a read sees the file as it
  is at that moment. For a run in which no member path is the archive path itself this is
  indistinguishable from buffered stdio; the theorems that depend on it state that side
  condition.
* Opening the archive for writing, and writing to an open file, always succeed. Opening
  an extracted member for writing fails when its name does not resolve to a file name
  of the working directory.
* Every `while` loop of the source takes a `fuel` bound on its number of iterations and
  reports `Outcome.running` when the bound is used up.
* Behaviour the C standard leaves undefined (reading an object that was never written,
  signed overflow, a read that overruns its buffer, a null stream passed to `fwrite`) is
  reported as `Outcome.undefined`.
  The one exception is the store `buf[nbytes] = 0` with `nbytes = 512` in the copy
  loops, one byte past the buffer: the model leaves the buffer as it is.
-/

namespace Minitar

/-! ## Bytes, strings and results -/

/-- A C string: its bytes up to, and without, the terminating NUL. -/
abbrev CStr := List Nat

/-- Result of running a piece of the program with a bound on loop iterations. -/
inductive Outcome (α : Type) where
  | returned (a : α)
  | undefined
  | running
  deriving DecidableEq, Repr

/-- Size of `tar_header` and of every archive block. -/
def BLOCK : Nat := 512

/-- `#define MAX_MSG_LEN 512`, also the size of the copy buffers. -/
def MAX_MSG_LEN : Nat := 512

/-- `#define NUM_TRAILING_BLOCKS 2`. -/
def NUM_TRAILING_BLOCKS : Nat := 2

/-- `memset(p, c, n)`: the `n` bytes stored. -/
def memset (c : Nat) (n : Nat) : List Nat := List.replicate n c

/-- Overwrite the bytes of `obj` from offset `off` on with `v`. -/
def store (obj : List Nat) (off : Nat) (v : List Nat) : List Nat :=
  obj.take off ++ v ++ obj.drop (off + v.length)

/-- `strncpy(dst, src, n)`: the `n` bytes stored at `dst`; a source of `n` or more bytes
leaves no terminator. -/
def strncpy (src : CStr) (n : Nat) : List Nat :=
  src.take n ++ List.replicate (n - src.length) 0

/-- The C string that starts at offset `off` of the object `mem`, when a terminator
lies inside the object. -/
def cstr_at (mem : List Nat) (off : Nat) : Option CStr :=
  if 0 ∈ mem.drop off then some ((mem.drop off).takeWhile (fun b => b ≠ 0)) else none

/-- The value of an `unsigned` bit pattern read through an `int`. -/
def to_int32 (v : Nat) : Int :=
  if v % 2 ^ 32 < 2 ^ 31 then ((v % 2 ^ 32 : Nat) : Int) else ((v % 2 ^ 32 : Nat) : Int) - 2 ^ 32

/-- The value of a byte read through plain `char`, which is signed on the x86-64 Linux
ABI the program is built for. -/
def char_val (b : Nat) : Int :=
  if b % 256 < 128 then ((b % 256 : Nat) : Int) else ((b % 256 : Nat) : Int) - 256

/-! ## Octal text -/

/-- The `n` low octal digits of `v` as ASCII, most significant first. -/
def octal_fixed : Nat → Nat → List Nat
  | 0, _ => []
  | n + 1, v => octal_fixed n (v / 8) ++ [48 + v % 8]

/-- The text `printf("%0<w>o", v)` produces for an `unsigned` argument: at least `w`
digits, and as many as the value needs (at most 11 for 32 bits). -/
def printf_octal (w : Nat) (v : Nat) : List Nat :=
  let d := octal_fixed 11 (v % 2 ^ 32)
  (d.take (11 - w)).dropWhile (fun b => b = 48) ++ d.drop (11 - w)

/-- `snprintf(dst, size, "%0<w>o", v)`: the bytes stored at `dst`, the text cut to
`size - 1` characters and a terminator. -/
def snprintf_octal (size w : Nat) (v : Nat) : List Nat :=
  (printf_octal w v).take (size - 1) ++ [0]

/-- The white space `sscanf` skips: space, tab, line feed, vertical tab, form feed and
carriage return. -/
def is_space (b : Nat) : Bool :=
  b = 32 || (9 ≤ b && b ≤ 13)

/-- The characters 0 to 7. -/
def is_octal_digit (b : Nat) : Bool :=
  48 ≤ b && b ≤ 55

/-- Value of a run of octal digits, most significant first. -/
def octal_value (ds : List Nat) : Nat :=
  ds.foldl (fun acc d => 8 * acc + (d - 48)) 0

/-- `sscanf(s, "%o", &size)` with `int size`: white space is skipped, a sign is accepted,
then the longest run of octal digits is converted as by `strtoul` and its low 32 bits are
stored. `none` when no digit is found, in which case `size` is not assigned. -/
def sscanf_octal (s : CStr) : Option Int :=
  let s1 := s.dropWhile is_space
  let neg := s1.head? = some 45
  let s2 := if s1.head? = some 45 ∨ s1.head? = some 43 then s1.tail else s1
  let ds := s2.takeWhile is_octal_digit
  if ds = [] then none
  else
    let v := octal_value ds
    let u := if 2 ^ 64 ≤ v then 2 ^ 64 - 1 else if neg then (2 ^ 64 - v) % 2 ^ 64 else v
    some (to_int32 u)

/-! ## The header block

`minitar.h` is absent from the sources of the repository. -/

/-- A field of `tar_header`: its offset in the block and its width in bytes. -/
structure Field where
  off : Nat
  width : Nat
  deriving DecidableEq, Repr

/-- Modelled from the spec: `minitar.h`, which declares `tar_header`, is absent. The
widths of the fields are those of the table in section 3 of the specification, in its
order; `linkname` and the name extension after `devminor`, which the program never
writes, belong to what the specification calls the zero-filled remainder and sit where
the ustar layout puts them, the layout the specification says the format is
byte-compatible with. This is the field `name`. -/
def f_name : Field := ⟨0, 100⟩

/-- Modelled from the spec: field `mode` of the absent `tar_header` declaration. -/
def f_mode : Field := ⟨100, 8⟩

/-- Modelled from the spec: field `uid` of the absent `tar_header` declaration. -/
def f_uid : Field := ⟨108, 8⟩

/-- Modelled from the spec: field `gid` of the absent `tar_header` declaration. -/
def f_gid : Field := ⟨116, 8⟩

/-- Modelled from the spec: field `size` of the absent `tar_header` declaration. -/
def f_size : Field := ⟨124, 12⟩

/-- Modelled from the spec: field `mtime` of the absent `tar_header` declaration. -/
def f_mtime : Field := ⟨136, 12⟩

/-- Modelled from the spec: field `chksum` of the absent `tar_header` declaration. -/
def f_chksum : Field := ⟨148, 8⟩

/-- Modelled from the spec: field `typeflag` of the absent `tar_header` declaration. -/
def f_typeflag : Field := ⟨156, 1⟩

/-- Modelled from the spec: field `linkname` of the ustar layout, never written. -/
def f_linkname : Field := ⟨157, 100⟩

/-- Modelled from the spec: field `magic` of the absent `tar_header` declaration. -/
def f_magic : Field := ⟨257, 6⟩

/-- Modelled from the spec: field `version` of the absent `tar_header` declaration. -/
def f_version : Field := ⟨263, 2⟩

/-- Modelled from the spec: field `uname` of the absent `tar_header` declaration. -/
def f_uname : Field := ⟨265, 32⟩

/-- Modelled from the spec: field `gname` of the absent `tar_header` declaration. -/
def f_gname : Field := ⟨297, 32⟩

/-- Modelled from the spec: field `devmajor` of the absent `tar_header` declaration. -/
def f_devmajor : Field := ⟨329, 8⟩

/-- Modelled from the spec: field `devminor` of the absent `tar_header` declaration. -/
def f_devminor : Field := ⟨337, 8⟩

/-- Modelled from the spec: `REGTYPE` of the absent `minitar.h`, the type flag of a
regular file, the character 0. -/
def REGTYPE : Nat := 48

/-- Modelled from the spec: `MAGIC` of the absent `minitar.h`, the format-identifying
string "ustar". -/
def MAGIC : CStr := [117, 115, 116, 97, 114]

/-- The bytes of one field of a header. -/
def get_field (h : List Nat) (f : Field) : List Nat :=
  (h.drop f.off).take f.width

/-! ## The environment and the file system -/

/-- The members of `struct stat` the program reads besides `st_size`; the device
numbers are what `major(st_dev)` and `minor(st_dev)` return. -/
structure Stat where
  st_mode : Nat
  st_uid : Nat
  st_gid : Nat
  st_mtime : Nat
  dev_major : Nat
  dev_minor : Nat
  deriving DecidableEq, Repr

/-- What the operating system answers to metadata queries. -/
structure Env where
  stat : CStr → Stat
  getpwuid : Nat → Option CStr
  getgrgid : Nat → Option CStr

/-- The file system: the working directory, a single directory of regular files. Each
file name has the bytes stored under it, or none; distinct names are distinct files. -/
abbrev FS := CStr → Option (List Nat)

/-- The file system with the bytes under `name` replaced. -/
def FS.put (fs : FS) (name : CStr) (data : List Nat) : FS :=
  fun n => if n = name then some data else fs n

/-- An open stream: the path it was opened on and the current position. -/
structure FILE where
  path : CStr
  pos : Nat
  deriving DecidableEq, Repr

/-- `fopen(name, "r")`. -/
def fopen_r (fs : FS) (name : CStr) : Option FILE :=
  match fs name with
  | none => none
  | some _ => some ⟨name, 0⟩

/-- A successful `fopen(name, "w")` or `fopen(name, "w+")` on a file name of the working
directory: the file is created or emptied. -/
def fopen_w (fs : FS) (name : CStr) : FS :=
  fs.put name []

/-- `fopen(name, "a")`: the file is created when absent and kept otherwise. -/
def fopen_a (fs : FS) (name : CStr) : FS :=
  match fs name with
  | none => fs.put name []
  | some _ => fs

/-- A write at the end of the file, which is where a stream that is only written to,
or that was opened for appending, puts its data. -/
def fwrite (fs : FS) (name : CStr) (bytes : List Nat) : FS :=
  fs.put name ((fs name).getD [] ++ bytes)

/-- The bytes a read of up to `n` bytes at the position of `f` obtains. -/
def read_bytes (fs : FS) (f : FILE) (n : Nat) : List Nat :=
  (((fs f.path).getD []).drop f.pos).take n

/-- `fread` of up to `n` bytes into the object `buf`: the stream advanced, and the
object with its first bytes replaced by what was read. -/
def fread (fs : FS) (f : FILE) (buf : List Nat) (n : Nat) : FILE × List Nat × Nat :=
  let got := read_bytes fs f n
  (⟨f.path, f.pos + got.length⟩, got ++ buf.drop got.length, got.length)

/-- `fseek(f, off, SEEK_CUR)`: a target before the start of the file is refused and
leaves the position unchanged; a target past the end is accepted. -/
def fseek_cur (f : FILE) (off : Int) : FILE :=
  if 0 ≤ (f.pos : Int) + off then ⟨f.path, ((f.pos : Int) + off).toNat⟩ else f

/-! ## Header codec -/

/-- The function `compute_checksum`: the checksum field is blanked, the 512 bytes are
added up through a `char` pointer into an `unsigned`, and the sum is printed into the
field with `snprintf(header->chksum, 8, "%07o", sum)`. -/
def compute_checksum (header : List Nat) : List Nat :=
  let h1 := store header f_chksum.off (memset 32 8)
  let sum : Nat := (h1.take BLOCK).foldl
    (fun (sum : Nat) (b : Nat) => (((sum : Int) + char_val b) % 2 ^ 32).toNat) 0
  store h1 f_chksum.off (snprintf_octal 8 7 sum)

/-- The function `fill_tar_header`: the return value and the header object as the call
leaves it. `stat` fails exactly when nothing is stored under the path. -/
def fill_tar_header (env : Env) (fs : FS) (file_name : CStr) : Int × List Nat :=
  let h0 := memset 0 BLOCK
  match fs file_name with
  | none => (-1, h0)
  | some data =>
    let st := env.stat file_name
    let h1 := store h0 f_name.off (strncpy file_name 100)
    let h2 := store h1 f_mode.off (snprintf_octal 8 7 (st.st_mode % 4096))
    let h3 := store h2 f_uid.off (snprintf_octal 8 7 st.st_uid)
    match env.getpwuid st.st_uid with
    | none => (-1, h3)
    | some pw_name =>
      let h4 := store h3 f_uname.off (strncpy pw_name 32)
      let h5 := store h4 f_gid.off (snprintf_octal 8 7 st.st_gid)
      match env.getgrgid st.st_gid with
      | none => (-1, h5)
      | some gr_name =>
        let h6 := store h5 f_gname.off (strncpy gr_name 32)
        let h7 := store h6 f_size.off (snprintf_octal 12 11 data.length)
        let h8 := store h7 f_mtime.off (snprintf_octal 12 11 st.st_mtime)
        let h9 := store h8 f_typeflag.off [REGTYPE]
        let h10 := store h9 f_magic.off (strncpy MAGIC 6)
        let h11 := store h10 f_version.off [48, 48]
        let h12 := store h11 f_devmajor.off (snprintf_octal 8 7 st.dev_major)
        let h13 := store h12 f_devminor.off (snprintf_octal 8 7 st.dev_minor)
        (0, compute_checksum h13)

/-! ## Create and append -/

/-- The function `remove_trailing_bytes`: `open` fails on a missing file, `lseek` to
`nbytes` before the end fails when the file is shorter than that, and otherwise the
file is cut at the position reached. -/
def remove_trailing_bytes (fs : FS) (file_name : CStr) (nbytes : Nat) : Int × FS :=
  match fs file_name with
  | none => (-1, fs)
  | some data =>
    let current_pos : Int := (data.length : Int) - (nbytes : Int)
    if current_pos < 0 then (-1, fs)
    else (0, fs.put file_name (data.take current_pos.toNat))

/-- The content loop shared by `create_archive` and `append_files_to_archive`:
`while ((nbytes = fread(&buf, 1, MAX_MSG_LEN, read_file)) > 0)`, each round storing a
terminator at `buf[nbytes]`, writing the whole buffer and clearing it. -/
def copy_contents : Nat → FS → CStr → FILE → List Nat → Outcome FS
  | 0, _, _, _, _ => Outcome.running
  | fuel + 1, fs, archive_name, read_file, buf =>
    match fread fs read_file buf MAX_MSG_LEN with
    | (read_file1, buf1, nbytes) =>
      if 0 < nbytes then
        let buf2 := buf1.set nbytes 0
        let fs1 := fwrite fs archive_name buf2
        copy_contents fuel fs1 archive_name read_file1 (memset 0 MAX_MSG_LEN)
      else Outcome.returned fs

/-- The content loop `copy_contents` once more, reporting besides the file system the
values of `nbytes` at which `buf[nbytes]` was set to the terminator, one per chunk (a
record the program itself does not keep). -/
def copy_contents_run : Nat → FS → CStr → FILE → List Nat → List Nat → Outcome (FS × List Nat)
  | 0, _, _, _, _, _ => Outcome.running
  | fuel + 1, fs, archive_name, read_file, buf, stored =>
    match fread fs read_file buf MAX_MSG_LEN with
    | (read_file1, buf1, nbytes) =>
      if 0 < nbytes then
        let buf2 := buf1.set nbytes 0
        let fs1 := fwrite fs archive_name buf2
        copy_contents_run fuel fs1 archive_name read_file1 (memset 0 MAX_MSG_LEN)
          (stored ++ [nbytes])
      else Outcome.returned (fs, stored)

/-- The `for` loop of `create_archive` over the file list, ending with the footer. -/
def create_archive_loop (fuel : Nat) (env : Env) (archive_name : CStr) :
    FS → List CStr → Outcome (Int × FS)
  | fs, [] => Outcome.returned (0, fwrite fs archive_name (memset 0 1024))
  | fs, curr_file :: rest =>
    match fopen_r fs curr_file with
    | none => Outcome.returned (-1, fs)
    | some read_file =>
      let curr_h := (fill_tar_header env fs curr_file).2
      let fs1 := fwrite fs archive_name curr_h
      match copy_contents fuel fs1 archive_name read_file (memset 0 MAX_MSG_LEN) with
      | Outcome.returned fs2 => create_archive_loop fuel env archive_name fs2 rest
      | Outcome.undefined => Outcome.undefined
      | Outcome.running => Outcome.running

/-- The function `create_archive`: the return value and the file system it leaves. -/
def create_archive (fuel : Nat) (env : Env) (fs : FS) (archive_name : CStr)
    (files : List CStr) : Outcome (Int × FS) :=
  create_archive_loop fuel env archive_name (fopen_w fs archive_name) files

/-- The `for` loop of `append_files_to_archive`: the code of the loop of
`create_archive`, without the `fclose` on the error path. -/
def append_loop (fuel : Nat) (env : Env) (archive_name : CStr) :
    FS → List CStr → Outcome (Int × FS)
  | fs, [] => Outcome.returned (0, fwrite fs archive_name (memset 0 1024))
  | fs, curr_file :: rest =>
    match fopen_r fs curr_file with
    | none => Outcome.returned (-1, fs)
    | some read_file =>
      let curr_h := (fill_tar_header env fs curr_file).2
      let fs1 := fwrite fs archive_name curr_h
      match copy_contents fuel fs1 archive_name read_file (memset 0 MAX_MSG_LEN) with
      | Outcome.returned fs2 => append_loop fuel env archive_name fs2 rest
      | Outcome.undefined => Outcome.undefined
      | Outcome.running => Outcome.running

/-- The function `append_files_to_archive`: the archive must open for reading; it is
then opened for appending, `remove_trailing_bytes(archive_name, 1024)` is called and
its return value dropped, and the members and a footer are written. -/
def append_files_to_archive (fuel : Nat) (env : Env) (fs : FS) (archive_name : CStr)
    (files : List CStr) : Outcome (Int × FS) :=
  match fopen_r fs archive_name with
  | none => Outcome.returned (-1, fs)
  | some _ =>
    let fs1 := fopen_a fs archive_name
    let fs2 := (remove_trailing_bytes fs1 archive_name 1024).2
    append_loop fuel env archive_name fs2 files

/-! ## The member-name list

`file_list.h` and `file_list.c` are absent from the sources of the repository. -/

/-- Modelled from the spec: `file_list_add` of the absent `file_list.c`, which appends
one name to the ordered collection. -/
def file_list_add (files : List CStr) (name : CStr) : List CStr :=
  files ++ [name]

/-- Modelled from the spec: `file_list_contains` of the absent `file_list.c`, the
single-name membership test, nonzero when the name is in the collection. -/
def file_list_contains (files : List CStr) (name : CStr) : Int :=
  if name ∈ files then 1 else 0

/-- Modelled from the spec: `file_list_is_subset` of the absent `file_list.c`, the
subset test, nonzero when every entry of the first collection is in the second. -/
def file_list_is_subset (files : List CStr) (other : List CStr) : Int :=
  if ∀ name ∈ files, name ∈ other then 1 else 0

/-! ## List

The header object `curr_h` is represented by its initialised bytes: it starts out
empty and a read replaces its first bytes. -/

/-- The number of blocks `get_archive_file_list` computes for a member of the given size,
with the division and remainder of C, which truncate towards zero. -/
def block_count (size : Int) : Int :=
  if size.tmod 512 = 0 then size.tdiv 512 else size.tdiv 512 + 1

/-- The `while (strcmp(curr_h.name, "") != 0)` loop of `get_archive_file_list`; `size`
is declared before the loop and keeps its value when `sscanf` converts nothing. Besides
the list, the loop reports the archive offsets at which it read a header (`visited`, which
the program itself does not keep). -/
def get_archive_file_list_loop :
    Nat → FS → FILE → List Nat → Option Int → List CStr → List Nat →
      Outcome (List CStr × List Nat)
  | 0, _, _, _, _, _, _ => Outcome.running
  | fuel + 1, fs, f, curr_h, size, files, visited =>
    match (curr_h.drop f_name.off).head? with
    | none => Outcome.undefined
    | some c =>
      if c = 0 then Outcome.returned (files, visited)
      else
        match cstr_at curr_h f_size.off with
        | none => Outcome.undefined
        | some text =>
          match (match sscanf_octal text with
                 | some v => some v
                 | none => size) with
          | none => Outcome.undefined
          | some size1 =>
            let blocks := block_count size1
            match cstr_at curr_h f_name.off with
            | none => Outcome.undefined
            | some name =>
              let files1 :=
                if file_list_contains files name = 0 then file_list_add files name else files
              if blocks * 512 < -(2 ^ 31) ∨ 2 ^ 31 ≤ blocks * 512 then Outcome.undefined
              else
                let f1 := fseek_cur f (blocks * 512)
                match fread fs f1 curr_h BLOCK with
                | (f2, curr_h2, _) =>
                  get_archive_file_list_loop fuel fs f2 curr_h2 (some size1) files1
                    (visited ++ [f1.pos])

/-- The function `get_archive_file_list` together with the offsets of the headers it
read: the return value, the list `files` as the call leaves it, and the offsets. -/
def get_archive_file_list_run (fuel : Nat) (fs : FS) (archive_name : CStr)
    (files : List CStr) : Outcome (Int × List CStr × List Nat) :=
  match fopen_r fs archive_name with
  | none => Outcome.returned (-1, files, [])
  | some f =>
    match fread fs f [] BLOCK with
    | (f1, curr_h, _) =>
      match get_archive_file_list_loop fuel fs f1 curr_h none files [f.pos] with
      | Outcome.returned (files1, visited) => Outcome.returned (0, files1, visited)
      | Outcome.undefined => Outcome.undefined
      | Outcome.running => Outcome.running

/-- The function `get_archive_file_list`: the return value and the list `files` as the
call leaves it. -/
def get_archive_file_list (fuel : Nat) (fs : FS) (archive_name : CStr)
    (files : List CStr) : Outcome (Int × List CStr) :=
  match get_archive_file_list_run fuel fs archive_name files with
  | Outcome.returned (r, files1, _) => Outcome.returned (r, files1)
  | Outcome.undefined => Outcome.undefined
  | Outcome.running => Outcome.running

/-! ## Extract -/

/-- The components of a path: the runs of bytes between slashes. -/
def path_components : CStr → List CStr
  | [] => [[]]
  | b :: rest =>
    if b = 47 then [] :: path_components rest
    else
      match path_components rest with
      | [] => [[b]]
      | c :: cs => (b :: c) :: cs

/-- A plain file name: not empty, without a slash, and neither `.` nor `..`. -/
def plain_name (name : CStr) : Bool :=
  decide (name ≠ []) && decide (47 ∉ name) && decide (name ≠ [46]) && decide (name ≠ [46, 46])

/-- The file name under which `fopen` finds or creates the file a relative path names, in
a working directory without subdirectories: the last component, when it is a plain file
name and the components before it are `.` or empty (a repeated slash), the first of them
not empty (the path is not absolute). For every other path (`d/f`, `f/`, `../f`, `/f`)
`fopen` fails. -/
def path_entry (name : CStr) : Option CStr :=
  let comps := path_components name
  match comps.getLast? with
  | none => none
  | some last =>
    if plain_name last = true ∧ comps.dropLast.head? ≠ some [] ∧
        ∀ c ∈ comps.dropLast, c = [46] ∨ c = [] then some last
    else none

/-- The loop `for (int i = 0; i < (blocks-1); i++)` of `extract_files_from_archive`:
each round reads 512 bytes of the archive into `buf` and writes `buf` to the new file. -/
def extract_full_blocks : Nat → FS → FILE → CStr → List Nat → FS × FILE × List Nat
  | 0, fs, f, _, buf => (fs, f, buf)
  | n + 1, fs, f, new_file, buf =>
    match fread fs f buf 512 with
    | (f1, buf1, _) => extract_full_blocks n (fwrite fs new_file (buf1.take 512)) f1 new_file buf1

/-- The `while (strcmp(curr_h.name, "") != 0)` loop of `extract_files_from_archive`;
here `size` is declared inside the loop body, a new object every round. The result of
`fopen(curr_h.name, "w")` is not checked: when the open fails, the null stream goes to
`fwrite` and `fclose`, which is undefined. As for List, the loop also reports the archive
offsets at which it read a header. -/
def extract_loop : Nat → FS → FILE → List Nat → List Nat → Outcome (FS × List Nat)
  | 0, _, _, _, _ => Outcome.running
  | fuel + 1, fs, f, curr_h, visited =>
    match (curr_h.drop f_name.off).head? with
    | none => Outcome.undefined
    | some c =>
      if c = 0 then Outcome.returned (fs, visited)
      else
        match cstr_at curr_h f_size.off with
        | none => Outcome.undefined
        | some text =>
          match sscanf_octal text with
          | none => Outcome.undefined
          | some size =>
            let last_block := size.tmod 512
            let buf := memset 0 MAX_MSG_LEN
            let blocks := if last_block = 0 then size.tdiv 512 else size.tdiv 512 + 1
            match cstr_at curr_h f_name.off with
            | none => Outcome.undefined
            | some name =>
              match path_entry name with
              | none => Outcome.undefined
              | some new_file =>
                let fs1 := fopen_w fs new_file
                match extract_full_blocks (blocks - 1).toNat fs1 f new_file buf with
                | (fs2, f1, buf1) =>
                  if last_block < 0 then Outcome.undefined
                  else
                    match fread fs2 f1 buf1 last_block.toNat with
                    | (f2, buf2, _) =>
                      let fs3 := fwrite fs2 new_file (buf2.take last_block.toNat)
                      let f3 := fseek_cur f2 (512 - last_block)
                      match fread fs3 f3 curr_h BLOCK with
                      | (f4, curr_h4, _) =>
                        extract_loop fuel fs3 f4 curr_h4 (visited ++ [f3.pos])

/-- The function `extract_files_from_archive` together with the offsets of the headers
it read: the return value, the file system it leaves, and the offsets. -/
def extract_files_from_archive_run (fuel : Nat) (fs : FS) (archive_name : CStr) :
    Outcome (Int × FS × List Nat) :=
  match fopen_r fs archive_name with
  | none => Outcome.returned (-1, fs, [])
  | some f =>
    match fread fs f [] BLOCK with
    | (f1, curr_h, _) =>
      match extract_loop fuel fs f1 curr_h [f.pos] with
      | Outcome.returned (fs1, visited) => Outcome.returned (0, fs1, visited)
      | Outcome.undefined => Outcome.undefined
      | Outcome.running => Outcome.running

/-- The function `extract_files_from_archive`: the return value and the file system
it leaves. -/
def extract_files_from_archive (fuel : Nat) (fs : FS) (archive_name : CStr) :
    Outcome (Int × FS) :=
  match extract_files_from_archive_run fuel fs archive_name with
  | Outcome.returned (r, fs1, _) => Outcome.returned (r, fs1)
  | Outcome.undefined => Outcome.undefined
  | Outcome.running => Outcome.running

/-! ## The command line (`minitar_main.c`) -/

/-- What `main` prints on standard output, one constructor per `printf` call. -/
inductive Printed where
  | usage (prog : CStr)
  | invalid_argument (arg : CStr)
  | name (file : CStr)
  | not_present
  deriving DecidableEq, Repr

/-- The archive operations `main` can call. -/
inductive Call where
  | create
  | append
  | list
  | extract
  deriving DecidableEq, Repr

/-- What a run of `main` leaves: the exit status, the output, the file system, and the
archive operations it called in order (which the program itself does not record). -/
structure Run where
  status : Int
  stdout : List Printed
  fs : FS
  calls : List Call

/-- The function `main`. `argv[1]` selects the operation, `argv[3]` is the archive and
the arguments from `argv[4]` on are added to the list `files`. -/
def main (fuel : Nat) (env : Env) (fs : FS) (argv : List CStr) : Outcome Run :=
  if argv.length < 4 then
    Outcome.returned ⟨0, [Printed.usage (argv.headD [])], fs, []⟩
  else
    let archive := argv.getD 3 []
    let arg := argv.getD 1 []
    let files := (argv.drop 4).foldl file_list_add []
    if arg = [45, 99] then
      match create_archive fuel env fs archive files with
      | Outcome.returned (r, fs1) =>
        Outcome.returned ⟨if r = -1 then 1 else 0, [], fs1, [Call.create]⟩
      | Outcome.undefined => Outcome.undefined
      | Outcome.running => Outcome.running
    else if arg = [45, 97] then
      match append_files_to_archive fuel env fs archive files with
      | Outcome.returned (r, fs1) =>
        Outcome.returned ⟨if r = -1 then 1 else 0, [], fs1, [Call.append]⟩
      | Outcome.undefined => Outcome.undefined
      | Outcome.running => Outcome.running
    else if arg = [45, 116] then
      match get_archive_file_list fuel fs archive files with
      | Outcome.returned (r, files1) =>
        if r = -1 then Outcome.returned ⟨1, [], fs, [Call.list]⟩
        else Outcome.returned ⟨0, files1.map Printed.name, fs, [Call.list]⟩
      | Outcome.undefined => Outcome.undefined
      | Outcome.running => Outcome.running
    else if arg = [45, 117] then
      match get_archive_file_list fuel fs archive [] with
      | Outcome.returned (_, archive_list) =>
        if file_list_is_subset files archive_list = 0 then
          Outcome.returned ⟨1, [Printed.not_present], fs, [Call.list]⟩
        else
          match append_files_to_archive fuel env fs archive files with
          | Outcome.returned (r, fs1) =>
            Outcome.returned ⟨if r = -1 then 1 else 0, [], fs1, [Call.list, Call.append]⟩
          | Outcome.undefined => Outcome.undefined
          | Outcome.running => Outcome.running
      | Outcome.undefined => Outcome.undefined
      | Outcome.running => Outcome.running
    else if arg = [45, 120] then
      match extract_files_from_archive fuel fs archive with
      | Outcome.returned (r, fs1) =>
        Outcome.returned ⟨if r = -1 then 1 else 0, [], fs1, [Call.extract]⟩
      | Outcome.undefined => Outcome.undefined
      | Outcome.running => Outcome.running
    else
      Outcome.returned
        ⟨1, [Printed.invalid_argument arg, Printed.usage (argv.headD [])], fs, []⟩

/-! ## Specification-level layout -/

/-- Content zero-padded up to the next multiple of 512. -/
def pad_to_block (data : List Nat) : List Nat :=
  data ++ List.replicate ((512 - data.length % 512) % 512) 0

/-- Header and padded content of one member, as the layout of the container. -/
def member_blocks (env : Env) (fs : FS) (m : CStr) : List Nat :=
  (fill_tar_header env fs m).2 ++ pad_to_block ((fs m).getD [])

/-- The members of an archive one after the other, in list order. -/
def archive_body (env : Env) (fs : FS) : List CStr → List Nat
  | [] => []
  | m :: rest => member_blocks env fs m ++ archive_body env fs rest

/-- One stored member of an archive: the name its header carries, the header block and
the content the header precedes. -/
structure Member where
  name : CStr
  header : List Nat
  content : List Nat

/-- A member whose header is a full block that carries a non-empty terminated name and a
size field from which `sscanf` reads the length of the content. -/
def Member.ok (m : Member) : Prop :=
  m.header.length = 512 ∧ m.name ≠ [] ∧ cstr_at m.header f_name.off = some m.name ∧
  ∃ text, cstr_at m.header f_size.off = some text ∧
    sscanf_octal text = some (m.content.length : Int)

/-- The bytes of a sequence of members: each header followed by its padded content. -/
def members_bytes : List Member → List Nat
  | [] => []
  | m :: rest => m.header ++ pad_to_block m.content ++ members_bytes rest

/-- The list `get_archive_file_list` builds from the names of the headers it visits. -/
def collect_names (files : List CStr) (names : List CStr) : List CStr :=
  names.foldl
    (fun acc n => if file_list_contains acc n = 0 then file_list_add acc n else acc) files

/-- The distinct names of a list, each at the place of its first occurrence. -/
def first_occurrences : List CStr → List CStr
  | [] => []
  | n :: rest => n :: (first_occurrences rest).filter (fun x => x ≠ n)

/-- The offsets of the headers that follow a header at `start`, for members of the given
sizes: each lies `512 + 512 * ceil(size / 512)` bytes after the one before. -/
def next_offsets (start : Nat) : List Nat → List Nat
  | [] => []
  | size :: rest =>
    (start + 512 + 512 * ((size + 511) / 512))
      :: next_offsets (start + 512 + 512 * ((size + 511) / 512)) rest

/-- The offsets of the headers of an archive whose members have the given sizes, the
offset of the first footer block last. -/
def header_offsets (sizes : List Nat) : List Nat :=
  0 :: next_offsets 0 sizes

/-- What `remove_trailing_bytes(archive_name, 1024)` leaves of an archive: the last 1024
bytes go when there are that many, and nothing changes otherwise. -/
def without_footer (old : List Nat) : List Nat :=
  if 1024 ≤ old.length then old.take (old.length - 1024) else old

/-- The file system `other` with the file under `name` taken from `fs1`. -/
def FS.graft (other : FS) (name : CStr) (fs1 : FS) : FS :=
  fun p => if p = name then fs1 p else other p

/-- Sum of the 512 header bytes, each as an unsigned value, with the 8 bytes of the
checksum field taken as spaces. -/
def unsigned_checksum (h : List Nat) : Nat :=
  (((store h f_chksum.off (memset 32 8)).take BLOCK).map (fun b => b % 256)).sum

/-- The checksum field of a header parsed as octal text. -/
def stored_checksum (h : List Nat) : Option Nat :=
  (cstr_at h f_chksum.off).map octal_value

/-- An empty directory into which the file under `name` of `fs1` has been put. -/
def empty_dir_with (name : CStr) (fs1 : FS) : FS :=
  FS.graft (fun _ => none) name fs1

/-- The return value of an operation and the bytes it leaves under one path. -/
def status_and_file (o : Outcome (Int × FS)) (p : CStr) : Outcome (Int × Option (List Nat)) :=
  match o with
  | Outcome.returned (r, fs) => Outcome.returned (r, fs p)
  | Outcome.undefined => Outcome.undefined
  | Outcome.running => Outcome.running

/-- Create an archive from `files`, then extract it in an empty directory. -/
def create_then_extract (fuel : Nat) (env : Env) (fs : FS) (archive_name : CStr)
    (files : List CStr) : Outcome (Int × FS) :=
  match create_archive fuel env fs archive_name files with
  | Outcome.returned (r, fs1) =>
    if r = 0 then extract_files_from_archive fuel (empty_dir_with archive_name fs1) archive_name
    else Outcome.returned (r, fs1)
  | Outcome.undefined => Outcome.undefined
  | Outcome.running => Outcome.running

/-- What Extract writes out of a member's content: all of it, except that a content
whose length is a multiple of 512 loses its last 512 bytes. -/
def written_content (c : List Nat) : List Nat :=
  if c.length % 512 = 0 then c.take (c.length - 512) else c

/-- The file system after each member of a sequence has been written out under its name,
in order, a later member replacing an earlier one of the same name. -/
def extract_result (fs : FS) (ms : List Member) : FS :=
  ms.foldl (fun acc m => acc.put m.name (written_content m.content)) fs

/-- The member `create_archive` stores for a path: its header and its content. -/
def stored_member (env : Env) (fs : FS) (m : CStr) : Member :=
  ⟨m, (fill_tar_header env fs m).2, (fs m).getD []⟩

/-- A sequence of stores into a header. -/
def store_all (h : List Nat) (stores : List (Nat × List Nat)) : List Nat :=
  stores.foldl (fun acc p => store acc p.1 p.2) h

/-- The stores a successful `fill_tar_header` makes between the name and the size. -/
def stores_before_size (env : Env) (m pw gr : CStr) : List (Nat × List Nat) :=
  [(f_mode.off, snprintf_octal 8 7 ((env.stat m).st_mode % 4096)),
   (f_uid.off, snprintf_octal 8 7 (env.stat m).st_uid),
   (f_uname.off, strncpy pw 32),
   (f_gid.off, snprintf_octal 8 7 (env.stat m).st_gid),
   (f_gname.off, strncpy gr 32)]

/-- The stores a successful `fill_tar_header` makes after the size field is written. -/
def stores_after_size (env : Env) (m : CStr) (chk : List Nat) : List (Nat × List Nat) :=
  [(f_mtime.off, snprintf_octal 12 11 (env.stat m).st_mtime),
   (f_typeflag.off, [REGTYPE]),
   (f_magic.off, strncpy MAGIC 6),
   (f_version.off, [48, 48]),
   (f_devmajor.off, snprintf_octal 8 7 (env.stat m).dev_major),
   (f_devminor.off, snprintf_octal 8 7 (env.stat m).dev_minor),
   (f_chksum.off, memset 32 8),
   (f_chksum.off, chk)]


/-- The sum `compute_checksum` forms over a header: the checksum field is taken as
spaces and the 512 bytes are added up as `char` values in an `unsigned`. -/
def char_sum (h : List Nat) : Nat :=
  ((store h f_chksum.off (memset 32 8)).take BLOCK).foldl
    (fun (sum : Nat) (b : Nat) => (((sum : Int) + char_val b) % 2 ^ 32).toNat) 0

/-- The sizes of the chunks in which a file of `n` bytes is read 512 bytes at a time:
full chunks, then what is left. -/
def chunk_sizes (n : Nat) : List Nat :=
  List.replicate (n / 512) 512 ++ (if n % 512 = 0 then [] else [n % 512])

/-- The file system an instrumented loop leaves, without its record. -/
def without_record (o : Outcome (FS × List Nat)) : Outcome FS :=
  match o with
  | Outcome.returned (fs, _) => Outcome.returned fs
  | Outcome.undefined => Outcome.undefined
  | Outcome.running => Outcome.running

/-! ## Concrete inputs -/

/-- An environment in which every path has mode 0644, owner 1000 named "u", group 1000
named "g". -/
def env_ok : Env :=
  ⟨fun _ => ⟨0o100644, 1000, 1000, 1700000000, 8, 1⟩, fun _ => some [117], fun _ => some [103]⟩

/-- A file system that holds one file "x" of 600 bytes. -/
def fs_x600 : FS :=
  fun p => if p = [120] then some (List.replicate 600 65) else none

/-- A file system that holds "x" of 600 bytes and "y" of 2 bytes. -/
def fs_xy : FS :=
  fun p => if p = [120] then some (List.replicate 600 65)
    else if p = [121] then some [66, 67] else none

/-- A file system in which the archive "a" is a file of 3 bytes, next to "y" of 2 bytes. -/
def fs_short : FS :=
  fun p => if p = [97] then some [1, 2, 3] else if p = [121] then some [66, 67] else none

/-- A file system in which the archive "a" is a file of 1025 bytes. -/
def fs_odd : FS :=
  fun p => if p = [97] then some (List.replicate 1025 7) else none

/-- A file system that holds one file "x" of 512 bytes. -/
def fs_x512 : FS :=
  fun p => if p = [120] then some (List.replicate 512 65) else none

/-- A file system that holds one file named by the two bytes 0xC3 0xA9 (the UTF-8
encoding of e with acute accent), with 2 bytes of content. -/
def fs_accent : FS :=
  fun p => if p = [195, 169] then some [104, 105] else none

/-- The name "a.txt". -/
def a_txt : CStr := [97, 46, 116, 120, 116]

/-- The name "arc". -/
def arc : CStr := [97, 114, 99]

/-- A block that starts with the byte "b" and is zero otherwise. -/
def block_b : List Nat := 98 :: List.replicate 511 0

/-- Content of `1024 + k` bytes: the block `block_b`, then zero bytes. -/
def content_b (k : Nat) : List Nat :=
  block_b ++ (List.replicate 512 0 ++ List.replicate k 0)

/-- A file system that holds one file "x" of 2^31 bytes, the first of them "b" and the
others zero. -/
def fs_2GiB : FS :=
  fun p => if p = [120] then some (content_b (2 ^ 31 - 1024)) else none

/-- The member that `create_archive` stores for "a.txt" when it holds "one". -/
def member_one : Member :=
  stored_member env_ok (FS.put (fun _ => none) a_txt [111, 110, 101]) a_txt

/-- The member that `create_archive` stores for "a.txt" when it holds "two!". -/
def member_two : Member :=
  stored_member env_ok (FS.put (fun _ => none) a_txt [116, 119, 111, 33]) a_txt

/-- A directory that holds only the archive "arc", made of `member_one`, `member_two`
and a footer. -/
def fs_dup : FS :=
  fun p => if p = arc then some (members_bytes [member_one, member_two] ++ List.replicate 1024 0)
    else none

/-- The environment `env_ok`, except that no user id has a name: `getpwuid` returns
`NULL`. -/
def env_no_owner : Env :=
  ⟨fun _ => ⟨0o100644, 1000, 1000, 1700000000, 8, 1⟩, fun _ => none, fun _ => some [103]⟩

/-- A file system in which the archive "a" holds a footer only, next to "y" of 2 bytes. -/
def fs_footer_only : FS :=
  fun p => if p = [97] then some (List.replicate 1024 0)
    else if p = [121] then some [66, 67] else none

/-- The member that `create_archive` stores for "x" when it holds 512 bytes. -/
def member_x512 : Member :=
  stored_member env_ok fs_x512 [120]

/-- A directory that holds only the archive "arc", made of `member_x512` and a footer. -/
def fs_arc_x512 : FS :=
  fun p => if p = arc then some (members_bytes [member_x512] ++ List.replicate 1024 0)
    else none

/-- A file system that holds one file "x" of 2^32 bytes, the first of them "b" and the
others zero. -/
def fs_4GiB : FS :=
  fun p => if p = [120] then some (content_b (2 ^ 32 - 1024)) else none

/-- A file system that holds one file "x" of 2^31 zero bytes. -/
def fs_2GiB_zeros : FS :=
  fun p => if p = [120] then some (List.replicate (2 ^ 31) 0) else none

/-- A directory that holds only the archive "arc", made of `member_one` and `member_two`
and no footer. -/
def fs_footerless : FS :=
  fun p => if p = arc then some (members_bytes [member_one, member_two]) else none

theorem pad_to_block_nil : pad_to_block [] = [] := by
  simp [pad_to_block]

theorem pad_to_block_length (data : List Nat) :
    (pad_to_block data).length = 512 * ((data.length + 511) / 512) := by
  simp only [pad_to_block, List.length_append, List.length_replicate]
  omega

theorem pad_to_block_short (r : List Nat) (h0 : 0 < r.length) (h : r.length < 512) :
    pad_to_block r = r ++ List.replicate (512 - r.length) 0 := by
  have e : (512 - r.length % 512) % 512 = 512 - r.length := by omega
  simp only [pad_to_block, e]

theorem pad_to_block_long (r : List Nat) (h : 512 ≤ r.length) :
    r.take 512 ++ pad_to_block (r.drop 512) = pad_to_block r := by
  have e : (512 - (r.length - 512) % 512) % 512 = (512 - r.length % 512) % 512 := by omega
  simp only [pad_to_block, List.length_drop, e, ← List.append_assoc, List.take_append_drop]

theorem set_zero_in_padding (got : List Nat) (k : Nat) :
    (got ++ List.replicate k 0).set got.length 0 = got ++ List.replicate k 0 := by
  apply List.ext_getElem
  · simp
  · intro i h1 h2
    rw [List.getElem_set]
    split
    · next h =>
      subst h
      rw [List.getElem_append_right (le_refl _)]
      simp
    · rfl

theorem put_same (fs : FS) (p : CStr) (d : List Nat) : (fs.put p d) p = some d := by
  simp [FS.put]

theorem put_other (fs : FS) (p q : CStr) (d : List Nat) (h : q ≠ p) : (fs.put p d) q = fs q := by
  simp [FS.put, h]

theorem fwrite_same (fs : FS) (p : CStr) (a b : List Nat) (h : fs p = some a) :
    (fwrite fs p b) p = some (a ++ b) := by
  simp [fwrite, FS.put, h]

theorem fwrite_other (fs : FS) (p q : CStr) (b : List Nat) (h : q ≠ p) :
    (fwrite fs p b) q = fs q := by
  simp [fwrite, FS.put, h]

/-- The content loop appends the rest of the source, padded to a block boundary. -/
theorem copy_contents_spec (fuel : Nat) : ∀ (fs : FS) (archive_name src : CStr) (pos : Nat)
    (d a : List Nat), src ≠ archive_name → fs src = some d → fs archive_name = some a →
    (d.length - pos + 511) / 512 + 1 ≤ fuel →
    ∃ fs1, copy_contents fuel fs archive_name ⟨src, pos⟩ (memset 0 MAX_MSG_LEN)
        = Outcome.returned fs1 ∧
      fs1 archive_name = some (a ++ pad_to_block (d.drop pos)) ∧
      ∀ p, p ≠ archive_name → fs1 p = fs p := by
  induction fuel with
  | zero => intro fs archive_name src pos d a _ _ _ h; omega
  | succ n ih =>
    intro fs archive_name src pos d a hne hsrc harch hfuel
    have hread : read_bytes fs ⟨src, pos⟩ MAX_MSG_LEN = (d.drop pos).take 512 := by
      simp [read_bytes, hsrc, MAX_MSG_LEN]
    simp only [copy_contents, fread, hread]
    by_cases hz : 0 < ((d.drop pos).take 512).length
    · simp only [hz, if_true]
      have hbuf : ((d.drop pos).take 512 ++ (memset 0 MAX_MSG_LEN).drop ((d.drop pos).take 512).length)
          = (d.drop pos).take 512 ++ List.replicate (512 - ((d.drop pos).take 512).length) 0 := by
        rw [memset, MAX_MSG_LEN, List.drop_replicate]
      rw [hbuf, set_zero_in_padding]
      set blk := (d.drop pos).take 512 ++ List.replicate (512 - ((d.drop pos).take 512).length) 0 with hblk
      have h1 : (fwrite fs archive_name blk) src = some d := by
        rw [fwrite_other _ _ _ _ hne]; exact hsrc
      have h2 : (fwrite fs archive_name blk) archive_name = some (a ++ blk) :=
        fwrite_same _ _ _ _ harch
      have hlen : ((d.drop pos).take 512).length = min 512 (d.length - pos) := by simp
      have hf : (d.length - (pos + ((d.drop pos).take 512).length) + 511) / 512 + 1 ≤ n := by
        rw [hlen]; rw [hlen] at hz
        omega
      obtain ⟨fs1, e1, e2, e3⟩ := ih (fwrite fs archive_name blk) archive_name src
        (pos + ((d.drop pos).take 512).length) d (a ++ blk) hne h1 h2 hf
      refine ⟨fs1, e1, ?_, ?_⟩
      · rw [e2, List.append_assoc]
        congr 2
        rw [hblk]
        by_cases hlong : 512 ≤ (d.drop pos).length
        · have e512 : ((d.drop pos).take 512).length = 512 := by
            rw [List.length_take]; omega
          rw [e512, ← pad_to_block_long _ hlong]
          simp [List.drop_drop, Nat.add_comm]
        · have hshort : (d.drop pos).take 512 = d.drop pos := List.take_of_length_le (by omega)
          rw [hshort]
          have hnil : d.drop (pos + (d.drop pos).length) = [] := by
            apply List.drop_of_length_le
            simp; omega
          rw [hnil, pad_to_block_nil, List.append_nil, pad_to_block_short]
          · rw [hshort] at hz; exact hz
          · omega
      · intro p hp
        rw [e3 p hp, fwrite_other _ _ _ _ hp]
    · simp only [hz, if_false]
      refine ⟨fs, rfl, ?_, fun _ _ => rfl⟩
      have hnil : d.drop pos = [] := by
        have : ((d.drop pos).take 512).length = 0 := by omega
        rw [List.length_take] at this
        apply List.eq_nil_of_length_eq_zero
        omega
      rw [hnil, pad_to_block_nil, List.append_nil]; exact harch

theorem octal_fixed_length (n v : Nat) : (octal_fixed n v).length = n := by
  induction n generalizing v with
  | zero => rfl
  | succ k ih => simp [octal_fixed, ih]

theorem store_length (obj v : List Nat) (off : Nat) (h : off + v.length ≤ obj.length) :
    (store obj off v).length = obj.length := by
  simp only [store, List.length_append, List.length_take, List.length_drop]
  omega

theorem strncpy_length (src : CStr) (n : Nat) : (strncpy src n).length = n := by
  simp only [strncpy, List.length_append, List.length_take, List.length_replicate]
  omega

theorem snprintf_octal_length_7 (v : Nat) : (snprintf_octal 8 7 v).length = 8 := by
  have h : 7 ≤ (printf_octal 7 v).length := by
    simp only [printf_octal, List.length_append, List.length_drop, octal_fixed_length]
    omega
  simp only [snprintf_octal, List.length_append, List.length_take, List.length_singleton]
  omega

theorem printf_octal_11 (v : Nat) : printf_octal 11 v = octal_fixed 11 (v % 2 ^ 32) := by
  simp [printf_octal]

theorem snprintf_octal_length_11 (v : Nat) : (snprintf_octal 12 11 v).length = 12 := by
  simp only [snprintf_octal, printf_octal_11, List.length_append, List.length_take,
    List.length_singleton, octal_fixed_length]
  omega

theorem compute_checksum_length (h : List Nat) (hl : h.length = 512) :
    (compute_checksum h).length = 512 := by
  have h1 : (store h f_chksum.off (memset 32 8)).length = 512 := by
    rw [store_length] <;> simp only [memset, f_chksum, hl, List.length_replicate]; omega
  simp only [compute_checksum]
  rw [store_length, h1]
  rw [h1, snprintf_octal_length_7]; simp [f_chksum]

theorem store_length_block (obj v : List Nat) (off : Nat) (h : obj.length = 512)
    (hv : off + v.length ≤ 512) : (store obj off v).length = 512 := by
  rw [store_length _ _ _ (by omega), h]

/-- The header object is 512 bytes however `fill_tar_header` returns. -/
theorem fill_tar_header_length (env : Env) (fs : FS) (m : CStr) :
    (fill_tar_header env fs m).2.length = 512 := by
  have z : (memset 0 BLOCK).length = 512 := by rw [memset, BLOCK, List.length_replicate]
  have s7 := snprintf_octal_length_7
  have s11 := snprintf_octal_length_11
  have sc := strncpy_length
  unfold fill_tar_header
  simp only
  split
  · exact z
  · split
    · repeat' (first | apply store_length_block | exact z)
      all_goals simp [s7, s11, sc, f_name, f_mode, f_uid]
    · split
      · repeat' (first | apply store_length_block | exact z)
        all_goals simp [s7, s11, sc, f_name, f_mode, f_uid, f_gid, f_uname]
      · apply compute_checksum_length
        repeat' (first | apply store_length_block | exact z)
        all_goals simp [s7, s11, sc, f_name, f_mode, f_uid, f_gid, f_uname, f_gname, f_size,
          f_mtime, f_typeflag, f_magic, f_version, f_devmajor, f_devminor]

theorem fill_tar_header_congr (env : Env) (fs1 fs2 : FS) (m : CStr) (h : fs1 m = fs2 m) :
    fill_tar_header env fs1 m = fill_tar_header env fs2 m := by
  simp only [fill_tar_header, h]

theorem member_blocks_congr (env : Env) (fs1 fs2 : FS) (m : CStr) (h : fs1 m = fs2 m) :
    member_blocks env fs1 m = member_blocks env fs2 m := by
  simp only [member_blocks, fill_tar_header_congr env fs1 fs2 m h, h]

theorem archive_body_congr (env : Env) (fs1 fs2 : FS) (files : List CStr)
    (h : ∀ m ∈ files, fs1 m = fs2 m) : archive_body env fs1 files = archive_body env fs2 files := by
  induction files with
  | nil => rfl
  | cons m rest ih =>
    simp only [archive_body]
    rw [member_blocks_congr env fs1 fs2 m (h m (List.mem_cons_self _ _)),
      ih (fun x hx => h x (List.mem_cons_of_mem _ hx))]

theorem member_blocks_length (env : Env) (fs : FS) (m : CStr) :
    (member_blocks env fs m).length = 512 + 512 * ((((fs m).getD []).length + 511) / 512) := by
  simp only [member_blocks, List.length_append, fill_tar_header_length, pad_to_block_length]

theorem archive_body_length (env : Env) (fs : FS) (files : List CStr) :
    (archive_body env fs files).length
      = (files.map (fun m => 512 + 512 * ((((fs m).getD []).length + 511) / 512))).sum := by
  induction files with
  | nil => rfl
  | cons m rest ih =>
    simp only [archive_body, List.length_append, member_blocks_length, ih, List.map_cons,
      List.sum_cons]

theorem append_loop_eq (fuel : Nat) (env : Env) (archive_name : CStr) (files : List CStr) :
    ∀ fs, append_loop fuel env archive_name fs files
      = create_archive_loop fuel env archive_name fs files := by
  induction files with
  | nil => intro fs; rfl
  | cons m rest ih =>
    intro fs
    simp only [append_loop, create_archive_loop]
    split
    · rfl
    · split
      · rw [ih]
      · rfl
      · rfl

/-- When every member opens, the member loop appends the members and the footer. -/
theorem create_archive_loop_spec (fuel : Nat) (env : Env) (archive_name : CStr)
    (files : List CStr) : ∀ (fs : FS) (a : List Nat), fs archive_name = some a →
    (∀ m ∈ files, fs m ≠ none) → archive_name ∉ files →
    (∀ m ∈ files, ((fs m).getD []).length / 512 + 2 ≤ fuel) →
    ∃ fs1, create_archive_loop fuel env archive_name fs files = Outcome.returned (0, fs1) ∧
      fs1 archive_name = some (a ++ archive_body env fs files ++ List.replicate 1024 0) ∧
      ∀ p, p ≠ archive_name → fs1 p = fs p := by
  induction files with
  | nil =>
    intro fs a ha _ _ _
    refine ⟨fwrite fs archive_name (memset 0 1024), rfl, ?_, ?_⟩
    · rw [fwrite_same _ _ _ _ ha]; simp only [archive_body, memset, List.append_nil]
    · intro p hp; exact fwrite_other _ _ _ _ hp
  | cons m rest ih =>
    intro fs a ha hopen hself hfuel
    have hm : m ≠ archive_name := fun e => hself (e ▸ List.mem_cons_self _ _)
    obtain ⟨d, hd⟩ := Option.ne_none_iff_exists'.mp (hopen m (List.mem_cons_self _ _))
    have hopen_r : fopen_r fs m = some ⟨m, 0⟩ := by simp [fopen_r, hd]
    simp only [create_archive_loop, hopen_r]
    set hdr := (fill_tar_header env fs m).2 with hhdr
    have h1 : (fwrite fs archive_name hdr) m = some d := by
      rw [fwrite_other _ _ _ _ hm]; exact hd
    have h2 : (fwrite fs archive_name hdr) archive_name = some (a ++ hdr) :=
      fwrite_same _ _ _ _ ha
    have hf : (d.length - 0 + 511) / 512 + 1 ≤ fuel := by
      have := hfuel m (List.mem_cons_self _ _)
      rw [hd] at this
      simp only [Option.getD_some] at this
      omega
    obtain ⟨fs2, e1, e2, e3⟩ := copy_contents_spec fuel (fwrite fs archive_name hdr)
      archive_name m 0 d (a ++ hdr) hm h1 h2 hf
    rw [e1]
    simp only
    have same : ∀ x ∈ rest, fs2 x = fs x := by
      intro x hx
      have hx2 : x ≠ archive_name := fun e => hself (e ▸ List.mem_cons_of_mem _ hx)
      rw [e3 x hx2, fwrite_other _ _ _ _ hx2]
    obtain ⟨fs3, g1, g2, g3⟩ := ih fs2 _ e2
      (fun x hx => by rw [same x hx]; exact hopen x (List.mem_cons_of_mem _ hx))
      (fun hx => hself (List.mem_cons_of_mem _ hx))
      (fun x hx => by rw [same x hx]; exact hfuel x (List.mem_cons_of_mem _ hx))
    refine ⟨fs3, g1, ?_, ?_⟩
    · rw [g2, archive_body_congr env fs2 fs rest same]
      simp only [archive_body, member_blocks, hd, Option.getD_some, List.drop_zero,
        List.append_assoc, hhdr]
    · intro p hp
      rw [g3 p hp, e3 p hp, fwrite_other _ _ _ _ hp]

/-! ## Lemmas: what a scan reads back from a header written by `fill_tar_header` -/

theorem get_field_store_same (obj v : List Nat) (off : Nat) (h : off ≤ obj.length) :
    get_field (store obj off v) ⟨off, v.length⟩ = v := by
  have hl : (obj.take off).length = off := by rw [List.length_take]; omega
  simp only [get_field, store, List.append_assoc]
  rw [List.drop_left' hl, List.take_left]

theorem get_field_store_keeps (f : Field) (obj v : List Nat) (off : Nat)
    (hd : f.off + f.width ≤ off) (h : off ≤ obj.length) :
    get_field (store obj off v) f = get_field obj f := by
  have hl : (obj.take off).length = off := by rw [List.length_take]; omega
  simp only [get_field, store, List.append_assoc, List.take_drop]
  congr 1
  rw [List.take_append_of_le_length (by omega), List.take_take]
  congr 1
  omega

theorem store_all_length (stores : List (Nat × List Nat)) : ∀ (h : List Nat),
    h.length = 512 → (∀ p ∈ stores, p.1 + p.2.length ≤ 512) →
    (store_all h stores).length = 512 := by
  induction stores with
  | nil => intro h hl _; exact hl
  | cons p rest ih =>
    intro h hl hall
    simp only [store_all, List.foldl_cons]
    exact ih _ (store_length_block _ _ _ hl (hall p (List.mem_cons_self _ _)))
      (fun q hq => hall q (List.mem_cons_of_mem _ hq))

theorem store_all_keeps (f : Field) (stores : List (Nat × List Nat)) : ∀ (h : List Nat),
    h.length = 512 → (∀ p ∈ stores, p.1 + p.2.length ≤ 512 ∧ f.off + f.width ≤ p.1) →
    get_field (store_all h stores) f = get_field h f := by
  induction stores with
  | nil => intro h _ _; rfl
  | cons p rest ih =>
    intro h hl hall
    have hp := hall p (List.mem_cons_self _ _)
    simp only [store_all, List.foldl_cons]
    have := ih (store h p.1 p.2) (store_length_block _ _ _ hl hp.1)
      (fun q hq => hall q (List.mem_cons_of_mem _ hq))
    simp only [store_all] at this
    rw [this, get_field_store_keeps f h p.2 p.1 hp.2 (by omega)]

theorem cstr_at_of_drop (mem s t : List Nat) (off : Nat) (h : mem.drop off = s ++ 0 :: t)
    (hs : ∀ b ∈ s, b ≠ 0) : cstr_at mem off = some s := by
  have hmem : (0 : Nat) ∈ mem.drop off := by rw [h]; simp
  have htw : (s ++ 0 :: t).takeWhile (fun b => decide (b ≠ 0)) = s := by
    rw [List.takeWhile_append_of_pos (fun a ha => by simpa using hs a ha)]
    simp
  have hmem2 : (0 : Nat) ∈ s ++ 0 :: t := by simp
  simp only [cstr_at, h, hmem2, if_true, htw]

theorem cstr_at_of_field (mem s t : List Nat) (f : Field)
    (h : get_field mem f = s ++ 0 :: t) (hs : ∀ b ∈ s, b ≠ 0) : cstr_at mem f.off = some s := by
  apply cstr_at_of_drop mem s (t ++ (mem.drop f.off).drop f.width) f.off _ hs
  have := List.take_append_drop f.width (mem.drop f.off)
  simp only [get_field] at h
  rw [h] at this
  exact this.symm.trans (by rw [List.append_assoc, List.cons_append])

theorem octal_value_append (xs : List Nat) (d : Nat) :
    octal_value (xs ++ [d]) = 8 * octal_value xs + (d - 48) := by
  simp [octal_value, List.foldl_append]

theorem octal_value_fixed (n : Nat) : ∀ v : Nat, octal_value (octal_fixed n v) = v % 8 ^ n := by
  induction n with
  | zero => intro v; simp [octal_fixed, octal_value, Nat.mod_one]
  | succ k ih =>
    intro v
    rw [octal_fixed, octal_value_append, ih, pow_succ', Nat.mod_mul]
    omega

theorem octal_fixed_digits (n : Nat) : ∀ (v : Nat), ∀ d ∈ octal_fixed n v, 48 ≤ d ∧ d ≤ 55 := by
  induction n with
  | zero => intro v d hd; simp [octal_fixed] at hd
  | succ k ih =>
    intro v d hd
    simp only [octal_fixed, List.mem_append, List.mem_singleton] at hd
    rcases hd with hd | hd
    · exact ih _ d hd
    · omega

/-- Scanning the text `%011o` wrote yields the value again, read through an `int`. -/
theorem sscanf_octal_fixed (v : Nat) (hv : v < 2 ^ 32) :
    sscanf_octal (octal_fixed 11 v) = some (to_int32 v) := by
  have hdig := octal_fixed_digits 11 v
  obtain ⟨d, ds, hcons⟩ : ∃ d ds, octal_fixed 11 v = d :: ds := by
    cases h : octal_fixed 11 v with
    | nil => have := octal_fixed_length 11 v; rw [h] at this; simp at this
    | cons d ds => exact ⟨d, ds, rfl⟩
  have hd := hdig d (by rw [hcons]; exact List.mem_cons_self _ _)
  have hsp : is_space d = false := by
    simp only [is_space, Bool.or_eq_false_iff, decide_eq_false_iff_not, Bool.and_eq_false_iff]
    omega
  have h1 : (octal_fixed 11 v).dropWhile is_space = octal_fixed 11 v := by
    rw [hcons, List.dropWhile_cons_of_neg (by simp [hsp])]
  have h2 : (octal_fixed 11 v).head? = some d := by rw [hcons]; rfl
  have h3 : ¬ (some d = some 45 ∨ some d = some 43) := by
    simp only [Option.some.injEq]; omega
  have h9 : ¬ (some d = some (43 : Nat)) := by simp only [Option.some.injEq]; omega
  have h4 : (octal_fixed 11 v).takeWhile is_octal_digit = octal_fixed 11 v := by
    rw [List.takeWhile_eq_self_iff]
    intro x hx
    have := hdig x hx
    simp only [is_octal_digit, Bool.and_eq_true, decide_eq_true_eq]
    omega
  have h5 : octal_fixed 11 v ≠ [] := by rw [hcons]; simp
  have h6 : octal_value (octal_fixed 11 v) = v := by
    rw [octal_value_fixed]
    apply Nat.mod_eq_of_lt
    have : (2 : Nat) ^ 32 < 8 ^ 11 := by norm_num
    omega
  have h7 : ¬ (2 ^ 64 ≤ v) := by
    have : (2 : Nat) ^ 32 < 2 ^ 64 := by norm_num
    omega
  have h8 : ¬ (some d = some (45 : Nat)) := by simp only [Option.some.injEq]; omega
  simp only [sscanf_octal, h1, h2, h8, h9, or_self, if_false, h4, h5, h6, h7]

theorem fill_tar_header_success (env : Env) (fs : FS) (m : CStr)
    (h : (fill_tar_header env fs m).1 = 0) :
    ∃ d pw gr, fs m = some d ∧ env.getpwuid (env.stat m).st_uid = some pw ∧
      env.getgrgid (env.stat m).st_gid = some gr := by
  rcases hfs : fs m with _ | d
  · simp [fill_tar_header, hfs] at h
  · rcases hpw : env.getpwuid (env.stat m).st_uid with _ | pw
    · simp [fill_tar_header, hfs, hpw] at h
    · rcases hgr : env.getgrgid (env.stat m).st_gid with _ | gr
      · simp [fill_tar_header, hfs, hpw, hgr] at h
      · exact ⟨d, pw, gr, rfl, rfl, rfl⟩

theorem fill_tar_header_stores (env : Env) (fs : FS) (m d pw gr : CStr) (hd : fs m = some d)
    (hpw : env.getpwuid (env.stat m).st_uid = some pw)
    (hgr : env.getgrgid (env.stat m).st_gid = some gr) :
    ∃ chk : List Nat, chk.length = 8 ∧
      (fill_tar_header env fs m).2
        = store_all
            (store
              (store_all (store (memset 0 BLOCK) f_name.off (strncpy m 100))
                (stores_before_size env m pw gr))
              f_size.off (snprintf_octal 12 11 d.length))
            (stores_after_size env m chk) := by
  simp only [fill_tar_header, hd, hpw, hgr, compute_checksum]
  exact ⟨_, snprintf_octal_length_7 _, rfl⟩

theorem stores_before_size_bounds (env : Env) (m pw gr : CStr) :
    ∀ p ∈ stores_before_size env m pw gr,
      p.1 + p.2.length ≤ 512 ∧ f_name.off + f_name.width ≤ p.1 := by
  simp [stores_before_size, snprintf_octal_length_7, strncpy_length, f_name, f_mode, f_uid,
    f_uname, f_gid, f_gname]

theorem stores_after_size_bounds (env : Env) (m : CStr) (chk : List Nat) (hc : chk.length = 8) :
    ∀ p ∈ stores_after_size env m chk,
      (p.1 + p.2.length ≤ 512 ∧ f_name.off + f_name.width ≤ p.1)
        ∧ f_size.off + f_size.width ≤ p.1 := by
  simp [stores_after_size, snprintf_octal_length_7, snprintf_octal_length_11, strncpy_length,
    f_name, f_size, f_mtime, f_typeflag, f_magic, f_version, f_devmajor, f_devminor, f_chksum,
    memset, hc]

theorem memset_block_length : (memset 0 BLOCK).length = 512 := by
  rw [memset, BLOCK, List.length_replicate]

/-- After a successful `fill_tar_header` the name field holds what `strncpy` stored. -/
theorem fill_tar_header_name_field (env : Env) (fs : FS) (m : CStr)
    (h : (fill_tar_header env fs m).1 = 0) :
    get_field (fill_tar_header env fs m).2 f_name = strncpy m 100 := by
  obtain ⟨d, pw, gr, hd, hpw, hgr⟩ := fill_tar_header_success env fs m h
  obtain ⟨chk, hc, e⟩ := fill_tar_header_stores env fs m d pw gr hd hpw hgr
  have l1 : (store (memset 0 BLOCK) f_name.off (strncpy m 100)).length = 512 :=
    store_length_block _ _ _ memset_block_length (by simp [strncpy_length, f_name])
  have l2 := store_all_length (stores_before_size env m pw gr) _ l1
    (fun p hp => (stores_before_size_bounds env m pw gr p hp).1)
  have l3 : (store (store_all (store (memset 0 BLOCK) f_name.off (strncpy m 100))
      (stores_before_size env m pw gr)) f_size.off (snprintf_octal 12 11 d.length)).length
      = 512 :=
    store_length_block _ _ _ l2 (by simp [snprintf_octal_length_11, f_size])
  rw [e, store_all_keeps f_name _ _ l3
    (fun p hp => (stores_after_size_bounds env m chk hc p hp).1),
    get_field_store_keeps f_name _ _ _ (by simp [f_name, f_size]) (by rw [l2]; simp [f_size]),
    store_all_keeps f_name _ _ l1 (stores_before_size_bounds env m pw gr)]
  have := get_field_store_same (memset 0 BLOCK) (strncpy m 100) f_name.off (by simp [f_name])
  rw [strncpy_length] at this
  exact this

/-- After a successful `fill_tar_header` the size field holds the text that
`snprintf(header->size, 12, "%011o", (unsigned)st_size)` stored. -/
theorem fill_tar_header_size_field (env : Env) (fs : FS) (m : CStr) (d : List Nat)
    (hd : fs m = some d) (h : (fill_tar_header env fs m).1 = 0) :
    get_field (fill_tar_header env fs m).2 f_size = snprintf_octal 12 11 d.length := by
  obtain ⟨d1, pw, gr, hd1, hpw, hgr⟩ := fill_tar_header_success env fs m h
  have hdd : d1 = d := by rw [hd] at hd1; exact (Option.some.inj hd1).symm
  subst hdd
  obtain ⟨chk, hc, e⟩ := fill_tar_header_stores env fs m d1 pw gr hd hpw hgr
  have l1 : (store (memset 0 BLOCK) f_name.off (strncpy m 100)).length = 512 :=
    store_length_block _ _ _ memset_block_length (by simp [strncpy_length, f_name])
  have l2 := store_all_length (stores_before_size env m pw gr) _ l1
    (fun p hp => (stores_before_size_bounds env m pw gr p hp).1)
  have l3 : (store (store_all (store (memset 0 BLOCK) f_name.off (strncpy m 100))
      (stores_before_size env m pw gr)) f_size.off (snprintf_octal 12 11 d1.length)).length
      = 512 :=
    store_length_block _ _ _ l2 (by simp [snprintf_octal_length_11, f_size])
  rw [e, store_all_keeps f_size _ _ l3
    (fun p hp => ⟨(stores_after_size_bounds env m chk hc p hp).1.1,
      (stores_after_size_bounds env m chk hc p hp).2⟩)]
  have := get_field_store_same (store_all (store (memset 0 BLOCK) f_name.off (strncpy m 100))
      (stores_before_size env m pw gr)) (snprintf_octal 12 11 d1.length) f_size.off
      (by rw [l2]; simp [f_size])
  rw [snprintf_octal_length_11] at this
  exact this

theorem snprintf_octal_11_eq (v : Nat) :
    snprintf_octal 12 11 v = octal_fixed 11 (v % 2 ^ 32) ++ [0] := by
  rw [snprintf_octal, printf_octal_11, List.take_of_length_le]
  rw [octal_fixed_length]

/-- The text a scan finds in the size field of a successfully written header. -/
theorem fill_tar_header_size_text (env : Env) (fs : FS) (m : CStr) (d : List Nat)
    (hd : fs m = some d) (h : (fill_tar_header env fs m).1 = 0) :
    cstr_at (fill_tar_header env fs m).2 f_size.off
      = some (octal_fixed 11 (d.length % 2 ^ 32)) := by
  apply cstr_at_of_field _ _ [] f_size
  · rw [fill_tar_header_size_field env fs m d hd h, snprintf_octal_11_eq]
  · intro b hb
    have := octal_fixed_digits 11 _ b hb
    omega

/-- The name a scan finds in a successfully written header, for a name of at most 99
bytes. -/
theorem fill_tar_header_name_text (env : Env) (fs : FS) (m : CStr)
    (h : (fill_tar_header env fs m).1 = 0) (hlen : m.length ≤ 99) (hnz : ∀ b ∈ m, b ≠ 0) :
    cstr_at (fill_tar_header env fs m).2 f_name.off = some m := by
  apply cstr_at_of_field _ _ (List.replicate (99 - m.length) 0) f_name _ hnz
  rw [fill_tar_header_name_field env fs m h, strncpy, List.take_of_length_le (by omega)]
  have : 100 - m.length = (99 - m.length) + 1 := by omega
  rw [this, List.replicate_succ]

theorem to_int32_small (v : Nat) (h : v < 2 ^ 31) : to_int32 v = (v : Int) := by
  have h31 : (2 : Nat) ^ 31 = 2147483648 := by norm_num
  have h32 : (2 : Nat) ^ 32 = 4294967296 := by norm_num
  have e : v % 2 ^ 32 = v := Nat.mod_eq_of_lt (by omega)
  simp only [to_int32, e, h, if_true]

/-- A successfully encoded member with a name of 1 to 99 non-zero bytes and fewer than
2^31 bytes of content is well formed. -/
theorem stored_member_ok (env : Env) (fs : FS) (m : CStr)
    (h : (fill_tar_header env fs m).1 = 0) (h1 : 1 ≤ m.length) (h99 : m.length ≤ 99)
    (hnz : ∀ b ∈ m, b ≠ 0) (hsize : ((fs m).getD []).length < 2 ^ 31) :
    (stored_member env fs m).ok := by
  obtain ⟨d, pw, gr, hd, _, _⟩ := fill_tar_header_success env fs m h
  rw [hd, Option.getD_some] at hsize
  have h31 : (2 : Nat) ^ 31 = 2147483648 := by norm_num
  have h32 : (2 : Nat) ^ 32 = 4294967296 := by norm_num
  have e : d.length % 2 ^ 32 = d.length := Nat.mod_eq_of_lt (by omega)
  refine ⟨fill_tar_header_length env fs m, ?_, fill_tar_header_name_text env fs m h h99 hnz,
    octal_fixed 11 (d.length % 2 ^ 32), fill_tar_header_size_text env fs m d hd h, ?_⟩
  · intro hnil
    simp only [stored_member] at hnil
    rw [hnil] at h1; simp at h1
  · simp only [stored_member, hd, Option.getD_some]
    rw [e, sscanf_octal_fixed _ (by omega), to_int32_small _ hsize]

theorem archive_body_eq_members (env : Env) (fs : FS) (files : List CStr) :
    archive_body env fs files = members_bytes (files.map (stored_member env fs)) := by
  induction files with
  | nil => rfl
  | cons m rest ih =>
    simp only [archive_body, List.map_cons, members_bytes, ih, member_blocks, stored_member,
      List.append_assoc]

/-! ## Lemmas: the header scan of List -/

theorem fread_block (fs : FS) (archive_name : CStr) (pre blk rest old : List Nat)
    (hfs : fs archive_name = some (pre ++ blk ++ rest)) (hb : blk.length = 512)
    (ho : old.length ≤ 512) :
    fread fs ⟨archive_name, pre.length⟩ old BLOCK = (⟨archive_name, pre.length + 512⟩, blk, 512) := by
  have hr : read_bytes fs ⟨archive_name, pre.length⟩ BLOCK = blk := by
    simp only [read_bytes, hfs, Option.getD_some, List.append_assoc, List.drop_left, BLOCK]
    exact List.take_left' hb
  have hd : old.drop 512 = [] := List.drop_of_length_le ho
  simp only [fread, hr, hb, hd, List.append_nil]

theorem cstr_at_head (mem : List Nat) (off : Nat) (x : Nat) (xs : List Nat)
    (h : cstr_at mem off = some (x :: xs)) : (mem.drop off).head? = some x ∧ x ≠ 0 := by
  unfold cstr_at at h
  split at h
  · simp only [Option.some.injEq] at h
    cases hd : mem.drop off with
    | nil => rw [hd] at h; simp at h
    | cons y ys =>
      rw [hd] at h
      by_cases hy : y = 0
      · simp [List.takeWhile, hy] at h
      · simp [List.takeWhile, hy] at h
        simp only [List.head?_cons, Option.some.injEq]
        exact ⟨h.1, h.1 ▸ hy⟩
  · simp at h

theorem block_count_natCast (n : Nat) : block_count (n : Int) = (((n + 511) / 512 : Nat) : Int) := by
  have h1 : (n : Int).tmod 512 = ((n % 512 : Nat) : Int) := (Int.ofNat_tmod n 512).symm
  have h2 : (n : Int).tdiv 512 = ((n / 512 : Nat) : Int) := (Int.ofNat_tdiv n 512).symm
  simp only [block_count, h1, h2]
  split
  · next h =>
    have : n % 512 = 0 := by exact_mod_cast h
    congr 1; omega
  · next h =>
    have : n % 512 ≠ 0 := fun e => h (by rw [e]; rfl)
    have e : (n + 511) / 512 = n / 512 + 1 := by omega
    rw [e]; push_cast; rfl

theorem collect_names_cons (files : List CStr) (n : CStr) (rest : List CStr) :
    collect_names files (n :: rest)
      = collect_names
          (if file_list_contains files n = 0 then file_list_add files n else files) rest := by
  simp only [collect_names, List.foldl_cons]

/-- On an archive made of well-formed members and a footer, the scan of List visits
every member header in turn and stops at the first footer block. -/
theorem list_scan_members (fs : FS) (archive_name : CStr) (tail : List Nat) :
    ∀ (ms : List Member) (pre old_h : List Nat) (size : Option Int) (files : List CStr)
      (visited : List Nat) (fuel : Nat),
    fs archive_name = some (pre ++ members_bytes ms ++ List.replicate 1024 0 ++ tail) →
    (∀ m ∈ ms, m.ok ∧ m.content.length + 512 ≤ 2 ^ 31) → ms.length + 1 ≤ fuel →
    old_h.length ≤ 512 →
    get_archive_file_list_loop fuel fs
        (fread fs ⟨archive_name, pre.length⟩ old_h BLOCK).1
        (fread fs ⟨archive_name, pre.length⟩ old_h BLOCK).2.1 size files visited
      = Outcome.returned (collect_names files (ms.map Member.name),
          visited ++ next_offsets pre.length (ms.map (fun m => m.content.length))) := by
  intro ms
  induction ms with
  | nil =>
    intro pre old_h size files visited fuel hfs _ hfuel ho
    have hsplit : (List.replicate 1024 (0 : Nat)) = List.replicate 512 0 ++ List.replicate 512 0 := by
      rw [← List.replicate_add]
    have hfs1 : fs archive_name
        = some (pre ++ List.replicate 512 0 ++ (List.replicate 512 0 ++ tail)) := by
      rw [hfs, hsplit]; simp only [members_bytes, List.append_nil, List.append_assoc]
    rw [fread_block fs archive_name pre _ _ old_h hfs1 (List.length_replicate _ _) ho]
    obtain ⟨k, rfl⟩ : ∃ k, fuel = k + 1 := ⟨fuel - 1, by omega⟩
    have hz : ((List.replicate 512 (0 : Nat)).drop f_name.off).head? = some 0 := by
      rw [List.drop_replicate]; rfl
    simp only [get_archive_file_list_loop, hz, if_true, collect_names, List.map_nil,
      List.foldl_nil, next_offsets, List.append_nil]
  | cons m rest ih =>
    intro pre old_h size files visited fuel hfs hok hfuel ho
    obtain ⟨⟨hlen, hne, hname, text, htext, hscan⟩, hsize⟩ := hok m (List.mem_cons_self _ _)
    have hfs1 : fs archive_name = some (pre ++ m.header
        ++ (pad_to_block m.content ++ members_bytes rest ++ List.replicate 1024 0 ++ tail)) := by
      rw [hfs]; simp only [members_bytes, List.append_assoc]
    rw [fread_block fs archive_name pre _ _ old_h hfs1 hlen ho]
    obtain ⟨k, rfl⟩ : ∃ k, fuel = k + 1 := ⟨fuel - 1, by omega⟩
    obtain ⟨x, xs, hx⟩ : ∃ x xs, m.name = x :: xs := by
      cases hn : m.name with
      | nil => exact absurd hn hne
      | cons x xs => exact ⟨x, xs, rfl⟩
    obtain ⟨hhead, hx0⟩ := cstr_at_head m.header f_name.off x xs (hx ▸ hname)
    have hbc := block_count_natCast m.content.length
    have hpadlen := pad_to_block_length m.content
    have hrange : ¬ (block_count (m.content.length : Int) * 512 < -(2 ^ 31)
        ∨ 2 ^ 31 ≤ block_count (m.content.length : Int) * 512) := by
      rw [hbc]
      have h31 : (2 : Int) ^ 31 = 2147483648 := by norm_num
      rw [h31]
      omega
    have hseek : fseek_cur ⟨archive_name, pre.length + 512⟩
        (block_count (m.content.length : Int) * 512)
        = ⟨archive_name, (pre ++ m.header ++ pad_to_block m.content).length⟩ := by
      have hnn : (0 : Int) ≤ ((pre.length + 512 : Nat) : Int)
          + (((m.content.length + 511) / 512 : Nat) : Int) * 512 := by omega
      rw [fseek_cur, hbc]
      simp only [hnn, if_true, List.length_append, hlen, hpadlen]
      congr 1
      omega
    have hfs2 : fs archive_name = some ((pre ++ m.header ++ pad_to_block m.content)
        ++ members_bytes rest ++ List.replicate 1024 0 ++ tail) := by
      rw [hfs]; simp only [members_bytes, List.append_assoc]
    have hrec := ih (pre ++ m.header ++ pad_to_block m.content) m.header (some (m.content.length : Int))
      (if file_list_contains files m.name = 0 then file_list_add files m.name else files)
      (visited ++ [(pre ++ m.header ++ pad_to_block m.content).length]) k hfs2
      (fun y hy => hok y (List.mem_cons_of_mem _ hy))
      (by simp only [List.length_cons] at hfuel; omega) (le_of_eq hlen)
    simp only [get_archive_file_list_loop, hhead, hx0, if_false, htext, hscan, hname, hrange,
      hseek, List.map_cons, collect_names_cons, next_offsets]
    rw [hrec]
    simp only [List.length_append, hlen, hpadlen, List.append_assoc, List.singleton_append,
      Nat.add_assoc]

theorem collect_names_eq (names : List CStr) : ∀ acc : List CStr,
    collect_names acc names
      = acc ++ (first_occurrences names).filter (fun x => decide (x ∉ acc)) := by
  induction names with
  | nil => intro acc; simp [collect_names, first_occurrences]
  | cons n rest ih =>
    intro acc
    rw [collect_names_cons]
    by_cases hn : n ∈ acc
    · simp only [file_list_contains, hn, if_true, one_ne_zero, if_false]
      rw [ih acc]
      congr 1
      simp only [first_occurrences, List.filter_cons, hn, not_true_eq_false, decide_False,
        Bool.false_eq_true, if_false, List.filter_filter]
      apply List.filter_congr
      intro x _
      by_cases hx : x ∈ acc
      · simp [hx]
      · have : x ≠ n := fun e => hx (e ▸ hn)
        simp [hx, this]
    · simp only [file_list_contains, hn, if_false, if_true, file_list_add]
      rw [ih (acc ++ [n])]
      simp only [first_occurrences, List.filter_cons, hn, not_false_eq_true, decide_True,
        if_true, List.filter_filter, List.append_assoc, List.singleton_append]
      congr 2
      apply List.filter_congr
      intro x _
      by_cases hx : x ∈ acc <;> by_cases hxn : x = n <;> simp [hx, hxn]

/-- List on an archive made of well-formed members and a footer. -/
theorem list_run_members (fs : FS) (archive_name : CStr) (ms : List Member) (tail : List Nat)
    (files : List CStr) (fuel : Nat)
    (hfs : fs archive_name = some (members_bytes ms ++ List.replicate 1024 0 ++ tail))
    (hok : ∀ m ∈ ms, m.ok ∧ m.content.length + 512 ≤ 2 ^ 31) (hfuel : ms.length + 1 ≤ fuel) :
    get_archive_file_list_run fuel fs archive_name files
      = Outcome.returned (0, collect_names files (ms.map Member.name),
          header_offsets (ms.map (fun m => m.content.length))) := by
  have hopen : fopen_r fs archive_name = some ⟨archive_name, 0⟩ := by simp only [fopen_r, hfs]
  have h := list_scan_members fs archive_name tail ms [] [] none files [0] fuel
    (by rw [hfs]; simp only [List.nil_append]) hok hfuel (by simp)
  simp only [List.length_nil] at h
  simp only [get_archive_file_list_run, hopen, h, header_offsets, List.singleton_append]

theorem list_members (fs : FS) (archive_name : CStr) (ms : List Member) (tail : List Nat)
    (files : List CStr) (fuel : Nat)
    (hfs : fs archive_name = some (members_bytes ms ++ List.replicate 1024 0 ++ tail))
    (hok : ∀ m ∈ ms, m.ok ∧ m.content.length + 512 ≤ 2 ^ 31) (hfuel : ms.length + 1 ≤ fuel) :
    get_archive_file_list fuel fs archive_name files
      = Outcome.returned (0, collect_names files (ms.map Member.name)) := by
  simp only [get_archive_file_list, list_run_members fs archive_name ms tail files fuel hfs hok hfuel]

theorem collect_names_nil (names : List CStr) :
    collect_names [] names = first_occurrences names := by
  rw [collect_names_eq]
  simp

theorem mem_first_occurrences (names : List CStr) (x : CStr) :
    x ∈ first_occurrences names ↔ x ∈ names := by
  induction names with
  | nil => simp [first_occurrences]
  | cons n rest ih =>
    simp only [first_occurrences, List.mem_cons, List.mem_filter, ih, decide_eq_true_eq]
    by_cases h : x = n
    · simp [h]
    · simp [h]

theorem first_occurrences_nodup (names : List CStr) : (first_occurrences names).Nodup := by
  induction names with
  | nil => simp [first_occurrences]
  | cons n rest ih =>
    simp only [first_occurrences, List.nodup_cons, List.mem_filter, decide_eq_true_eq]
    exact ⟨fun h => h.2 rfl, ih.filter _⟩

/-- Closed form of what `create_archive` writes when every member opens. -/
theorem create_archive_spec (fuel : Nat) (env : Env) (fs : FS) (archive_name : CStr)
    (files : List CStr)
    (hopen : ∀ m ∈ files, fopen_r fs m ≠ none)
    (hself : archive_name ∉ files)
    (hfuel : ∀ m ∈ files, ((fs m).getD []).length / 512 + 2 ≤ fuel) :
    ∃ fs1, create_archive fuel env fs archive_name files = Outcome.returned (0, fs1) ∧
      fs1 archive_name = some (archive_body env fs files ++ List.replicate 1024 0) ∧
      ∀ p, p ≠ archive_name → fs1 p = fs p := by
  have hsame : ∀ m ∈ files, (fopen_w fs archive_name) m = fs m := by
    intro m hm
    have : m ≠ archive_name := fun e => hself (e ▸ hm)
    exact put_other _ _ _ _ this
  have hopen1 : ∀ m ∈ files, (fopen_w fs archive_name) m ≠ none := by
    intro m hm
    rw [hsame m hm]
    intro hnone
    exact hopen m hm (by simp [fopen_r, hnone])
  obtain ⟨fs1, e1, e2, e3⟩ := create_archive_loop_spec fuel env archive_name files
    (fopen_w fs archive_name) [] (put_same _ _ _) hopen1 hself
    (fun m hm => by rw [hsame m hm]; exact hfuel m hm)
  refine ⟨fs1, e1, ?_, ?_⟩
  · rw [e2, archive_body_congr env _ fs files hsame, List.nil_append]
  · intro p hp
    rw [e3 p hp]; exact put_other _ _ _ _ hp

theorem stored_members_ok (env : Env) (fs : FS) (files : List CStr)
    (hname : ∀ m ∈ files, 1 ≤ m.length ∧ m.length ≤ 99 ∧ ∀ b ∈ m, b ≠ 0)
    (henc : ∀ m ∈ files, (fill_tar_header env fs m).1 = 0)
    (hsize : ∀ m ∈ files, ((fs m).getD []).length + 512 ≤ 2 ^ 31) :
    ∀ e ∈ files.map (stored_member env fs), e.ok ∧ e.content.length + 512 ≤ 2 ^ 31 := by
  intro e he
  obtain ⟨m, hm, rfl⟩ := List.mem_map.mp he
  obtain ⟨h1, h99, hnz⟩ := hname m hm
  have hs := hsize m hm
  exact ⟨stored_member_ok env fs m (henc m hm) h1 h99 hnz (by omega), hs⟩

theorem stored_member_names (env : Env) (fs : FS) (files : List CStr) :
    (files.map (stored_member env fs)).map Member.name = files := by
  induction files with
  | nil => rfl
  | cons m rest ih => simp only [List.map_cons, ih, stored_member]

theorem stored_member_sizes (env : Env) (fs : FS) (files : List CStr) :
    (files.map (stored_member env fs)).map (fun m => m.content.length)
      = files.map (fun m => ((fs m).getD []).length) := by
  induction files with
  | nil => rfl
  | cons m rest ih => simp only [List.map_cons, ih, stored_member]

theorem fopen_r_of_encoded (env : Env) (fs : FS) (m : CStr)
    (h : (fill_tar_header env fs m).1 = 0) : fopen_r fs m ≠ none := by
  obtain ⟨d, _, _, hd, _, _⟩ := fill_tar_header_success env fs m h
  simp [fopen_r, hd]

/-- List on an archive that `create_archive` wrote from successfully encoded members. -/
theorem list_of_created_archive (fuel : Nat) (env : Env) (fs : FS) (archive_name : CStr)
    (files : List CStr)
    (hself : archive_name ∉ files)
    (hname : ∀ m ∈ files, 1 ≤ m.length ∧ m.length ≤ 99 ∧ ∀ b ∈ m, b ≠ 0)
    (henc : ∀ m ∈ files, (fill_tar_header env fs m).1 = 0)
    (hsize : ∀ m ∈ files, ((fs m).getD []).length + 512 ≤ 2 ^ 31)
    (hfuel : ∀ m ∈ files, ((fs m).getD []).length / 512 + 2 ≤ fuel)
    (hscan : files.length + 1 ≤ fuel) :
    ∃ fs1, create_archive fuel env fs archive_name files = Outcome.returned (0, fs1) ∧
      get_archive_file_list fuel fs1 archive_name []
        = Outcome.returned (0, first_occurrences files) ∧
      get_archive_file_list_run fuel fs1 archive_name []
        = Outcome.returned (0, first_occurrences files,
            header_offsets (files.map (fun m => ((fs m).getD []).length))) := by
  obtain ⟨fs1, e1, e2, _⟩ := create_archive_spec fuel env fs archive_name files
    (fun m hm => fopen_r_of_encoded env fs m (henc m hm)) hself hfuel
  have hfs : fs1 archive_name = some (members_bytes (files.map (stored_member env fs))
      ++ List.replicate 1024 0 ++ []) := by
    rw [e2, archive_body_eq_members, List.append_nil]
  have hok := stored_members_ok env fs files hname henc hsize
  have hlen : (files.map (stored_member env fs)).length + 1 ≤ fuel := by
    rw [List.length_map]; exact hscan
  refine ⟨fs1, e1, ?_, ?_⟩
  · rw [list_members fs1 archive_name _ [] [] fuel hfs hok hlen, stored_member_names,
      collect_names_nil]
  · rw [list_run_members fs1 archive_name _ [] [] fuel hfs hok hlen, stored_member_names,
      collect_names_nil, stored_member_sizes]


/-! ## Lemmas: append -/

theorem remove_trailing_bytes_spec (fs : FS) (archive_name : CStr) (old : List Nat)
    (h : fs archive_name = some old) :
    (remove_trailing_bytes fs archive_name 1024).2 archive_name = some (without_footer old) ∧
    (∀ p, p ≠ archive_name → (remove_trailing_bytes fs archive_name 1024).2 p = fs p) ∧
    ((remove_trailing_bytes fs archive_name 1024).1 = 0 ↔ 1024 ≤ old.length) := by
  simp only [remove_trailing_bytes, h, without_footer]
  by_cases hl : 1024 ≤ old.length
  · have h1 : ¬ ((old.length : Int) - ((1024 : Nat) : Int) < 0) := by omega
    have h2 : ((old.length : Int) - ((1024 : Nat) : Int)).toNat = old.length - 1024 := by omega
    simp only [h1, if_false, hl, if_true, h2, put_same, true_and, iff_true, and_true]
    intro p hp
    exact put_other _ _ _ _ hp
  · have h1 : (old.length : Int) - ((1024 : Nat) : Int) < 0 := by omega
    simp only [h1, if_true, hl, if_false, h, true_and, iff_false]
    refine ⟨fun _ _ => trivial, ?_⟩
    decide

/-- Closed form of what `append_files_to_archive` writes when the archive exists and
every member opens. -/
theorem append_spec (fuel : Nat) (env : Env) (fs : FS) (archive_name : CStr)
    (files : List CStr) (old : List Nat) (hold : fs archive_name = some old)
    (hopen : ∀ m ∈ files, fopen_r fs m ≠ none)
    (hself : archive_name ∉ files)
    (hfuel : ∀ m ∈ files, ((fs m).getD []).length / 512 + 2 ≤ fuel) :
    ∃ fs1, append_files_to_archive fuel env fs archive_name files
        = Outcome.returned (0, fs1) ∧
      fs1 archive_name
        = some (without_footer old ++ archive_body env fs files ++ List.replicate 1024 0) ∧
      ∀ p, p ≠ archive_name → fs1 p = fs p := by
  have hopen_a : fopen_r fs archive_name = some ⟨archive_name, 0⟩ := by
    simp only [fopen_r, hold]
  have hfa : fopen_a fs archive_name = fs := by simp only [fopen_a, hold]
  obtain ⟨r1, r2, _⟩ := remove_trailing_bytes_spec fs archive_name old hold
  have hsame : ∀ m ∈ files, (remove_trailing_bytes fs archive_name 1024).2 m = fs m := by
    intro m hm
    exact r2 m (fun e => hself (e ▸ hm))
  have hopen1 : ∀ m ∈ files, (remove_trailing_bytes fs archive_name 1024).2 m ≠ none := by
    intro m hm
    rw [hsame m hm]
    intro hnone
    exact hopen m hm (by simp [fopen_r, hnone])
  obtain ⟨fs1, e1, e2, e3⟩ := create_archive_loop_spec fuel env archive_name files
    (remove_trailing_bytes fs archive_name 1024).2 (without_footer old) r1 hopen1 hself
    (fun m hm => by rw [hsame m hm]; exact hfuel m hm)
  refine ⟨fs1, ?_, ?_, ?_⟩
  · simp only [append_files_to_archive, hopen_a, hfa, append_loop_eq, e1]
  · rw [e2, archive_body_congr env _ fs files hsame]
  · intro p hp
    rw [e3 p hp, r2 p hp]

theorem without_footer_append_footer (body : List Nat) :
    without_footer (body ++ List.replicate 1024 0) = body := by
  have h : 1024 ≤ (body ++ List.replicate 1024 0).length := by
    rw [List.length_append, List.length_replicate]; omega
  have e : (body ++ List.replicate 1024 0).length - 1024 = body.length := by
    rw [List.length_append, List.length_replicate]; omega
  rw [without_footer, if_pos h, e, List.take_left]

theorem members_bytes_append (xs ys : List Member) :
    members_bytes (xs ++ ys) = members_bytes xs ++ members_bytes ys := by
  induction xs with
  | nil => rfl
  | cons m rest ih =>
    show members_bytes (m :: (rest ++ ys)) = _
    simp only [members_bytes, ih, List.append_assoc]

theorem graft_same (other fs1 : FS) (name : CStr) : (other.graft name fs1) name = fs1 name := by
  simp [FS.graft]

theorem graft_other (other fs1 : FS) (name p : CStr) (h : p ≠ name) :
    (other.graft name fs1) p = other p := by
  simp [FS.graft, h]

theorem stored_member_congr (env : Env) (fs1 fs2 : FS) (m : CStr) (h : fs1 m = fs2 m) :
    stored_member env fs1 m = stored_member env fs2 m := by
  simp only [stored_member, fill_tar_header_congr env fs1 fs2 m h, h]

/-- Create followed by append leaves the members of both lists and one footer. -/
theorem create_then_append_spec (fuel : Nat) (env env2 : Env) (fs other : FS)
    (archive_name : CStr) (files more : List CStr)
    (hopen : ∀ m ∈ files, fopen_r fs m ≠ none) (hself : archive_name ∉ files)
    (hfuel : ∀ m ∈ files, ((fs m).getD []).length / 512 + 2 ≤ fuel)
    (hopen2 : ∀ m ∈ more, fopen_r other m ≠ none) (hself2 : archive_name ∉ more)
    (hfuel2 : ∀ m ∈ more, ((other m).getD []).length / 512 + 2 ≤ fuel) :
    ∃ fs1 fs3, create_archive fuel env fs archive_name files = Outcome.returned (0, fs1) ∧
      append_files_to_archive fuel env2 (other.graft archive_name fs1) archive_name more
        = Outcome.returned (0, fs3) ∧
      fs3 archive_name = some (archive_body env fs files ++ archive_body env2 other more
        ++ List.replicate 1024 0) ∧
      ∀ p, p ≠ archive_name → fs3 p = other p := by
  obtain ⟨fs1, e1, e2, _⟩ := create_archive_spec fuel env fs archive_name files hopen hself hfuel
  have hg : ∀ m ∈ more, (other.graft archive_name fs1) m = other m := by
    intro m hm
    exact graft_other _ _ _ _ (fun e => hself2 (e ▸ hm))
  have hold : (other.graft archive_name fs1) archive_name
      = some (archive_body env fs files ++ List.replicate 1024 0) := by
    rw [graft_same, e2]
  obtain ⟨fs3, g1, g2, g3⟩ := append_spec fuel env2 (other.graft archive_name fs1) archive_name
    more _ hold
    (fun m hm => by
      have := hopen2 m hm
      simp only [fopen_r, hg m hm] at this ⊢
      exact this)
    hself2 (fun m hm => by rw [hg m hm]; exact hfuel2 m hm)
  refine ⟨fs1, fs3, e1, g1, ?_, ?_⟩
  · rw [g2, without_footer_append_footer, archive_body_congr env2 _ other more hg]
  · intro p hp
    rw [g3 p hp, graft_other _ _ _ _ hp]

/-- Whatever the content loop reads, it appends whole blocks to the archive. -/
theorem copy_contents_blocks (fuel : Nat) : ∀ (fs : FS) (archive_name : CStr) (rf : FILE)
    (buf a : List Nat) (fs1 : FS), buf.length = 512 → fs archive_name = some a →
    copy_contents fuel fs archive_name rf buf = Outcome.returned fs1 →
    ∃ extra, fs1 archive_name = some (a ++ extra) ∧ extra.length % 512 = 0 := by
  induction fuel with
  | zero => intro fs archive_name rf buf a fs1 _ _ h; simp [copy_contents] at h
  | succ n ih =>
    intro fs archive_name rf buf a fs1 hb ha h
    simp only [copy_contents, fread] at h
    split at h
    · next hpos =>
      have hgot : (read_bytes fs rf MAX_MSG_LEN).length ≤ 512 := by
        simp only [read_bytes, MAX_MSG_LEN, List.length_take]; omega
      have hlen : ((read_bytes fs rf MAX_MSG_LEN
          ++ buf.drop (read_bytes fs rf MAX_MSG_LEN).length).set
            (read_bytes fs rf MAX_MSG_LEN).length 0).length = 512 := by
        rw [List.length_set, List.length_append, List.length_drop]; omega
      generalize ((read_bytes fs rf MAX_MSG_LEN
          ++ buf.drop (read_bytes fs rf MAX_MSG_LEN).length).set
            (read_bytes fs rf MAX_MSG_LEN).length 0) = blk at h hlen
      obtain ⟨extra, e1, e2⟩ := ih _ archive_name _ _ _ fs1
        (by rw [memset, MAX_MSG_LEN, List.length_replicate])
        (fwrite_same fs archive_name a blk ha) h
      refine ⟨blk ++ extra, by rw [e1, List.append_assoc], ?_⟩
      rw [List.length_append, hlen]; omega
    · simp only [Outcome.returned.injEq] at h
      subst h
      exact ⟨[], by rw [List.append_nil]; exact ha, rfl⟩

/-- Whatever the member loop meets, it appends whole blocks to the archive, and when it
returns 0 the last of them are the 1024 zero bytes of the footer. -/
theorem create_archive_loop_blocks (fuel : Nat) (env : Env) (archive_name : CStr)
    (files : List CStr) : ∀ (fs : FS) (a : List Nat) (r : Int) (fs1 : FS),
    fs archive_name = some a →
    create_archive_loop fuel env archive_name fs files = Outcome.returned (r, fs1) →
    ∃ extra, fs1 archive_name = some (a ++ extra) ∧ extra.length % 512 = 0 ∧
      (r = 0 → ∃ body, extra = body ++ List.replicate 1024 0) := by
  induction files with
  | nil =>
    intro fs a r fs1 ha h
    simp only [create_archive_loop, Outcome.returned.injEq, Prod.mk.injEq] at h
    obtain ⟨hr, hfs⟩ := h
    subst hfs
    refine ⟨List.replicate 1024 0, fwrite_same fs archive_name a _ ha, ?_, fun _ => ⟨[], rfl⟩⟩
    rw [List.length_replicate]
  | cons m rest ih =>
    intro fs a r fs1 ha h
    simp only [create_archive_loop] at h
    split at h
    · simp only [Outcome.returned.injEq, Prod.mk.injEq] at h
      obtain ⟨hr, hfs⟩ := h
      subst hfs
      refine ⟨[], by rw [List.append_nil]; exact ha, rfl, fun h0 => ?_⟩
      rw [← hr] at h0
      exact absurd h0 (by decide)
    · next rf _ =>
      split at h
      · next fs2 hcopy =>
        obtain ⟨x1, c1, c2⟩ := copy_contents_blocks fuel _ archive_name rf _ _ fs2
          (by rw [memset, MAX_MSG_LEN, List.length_replicate])
          (fwrite_same fs archive_name a _ ha) hcopy
        obtain ⟨x2, d1, d2, d3⟩ := ih fs2 _ r fs1 c1 h
        refine ⟨(fill_tar_header env fs m).2 ++ x1 ++ x2, ?_, ?_, ?_⟩
        · rw [d1]; simp only [List.append_assoc]
        · rw [List.length_append, List.length_append, fill_tar_header_length]; omega
        · intro h0
          obtain ⟨body, hb⟩ := d3 h0
          exact ⟨(fill_tar_header env fs m).2 ++ x1 ++ body, by rw [hb]; simp only [List.append_assoc]⟩
      · simp at h
      · simp at h

theorem without_footer_length (old : List Nat) :
    (without_footer old).length % 512 = old.length % 512 := by
  simp only [without_footer]
  split
  · rw [List.length_take]; omega
  · rfl

/-! ## Lemmas: List after a member of 2^31 bytes -/

theorem pad_to_block_aligned (d : List Nat) (h : d.length % 512 = 0) : pad_to_block d = d := by
  have e : (512 - d.length % 512) % 512 = 0 := by omega
  rw [pad_to_block, e, List.replicate_zero, List.append_nil]

theorem content_b_length (k : Nat) : (content_b k).length = 1024 + k := by
  simp only [content_b, block_b, List.length_append, List.length_cons, List.length_replicate]
  omega

/-- The scan of List on an archive whose first header has the size field of a member of
2^31 bytes: the size is read as -2^31, the seek is refused, and the first content block
is taken for a header. -/
theorem list_after_oversized (fs1 : FS) (archive_name : CStr) (hdr rest : List Nat)
    (text : CStr) (n : Nat)
    (hfs : fs1 archive_name = some (hdr ++ block_b ++ (List.replicate 512 0 ++ rest)))
    (hlen : hdr.length = 512)
    (hname : cstr_at hdr f_name.off = some [120])
    (htext : cstr_at hdr f_size.off = some text)
    (hscan : sscanf_octal text = some (-2147483648)) :
    get_archive_file_list (n + 1 + 1 + 1) fs1 archive_name []
      = Outcome.returned (0, [[120], [98]]) := by
  have hopen : fopen_r fs1 archive_name = some ⟨archive_name, 0⟩ := by
    simp only [fopen_r, hfs]
  have hfs0 : fs1 archive_name
      = some ([] ++ hdr ++ (block_b ++ (List.replicate 512 0 ++ rest))) := by
    rw [hfs]; simp only [List.nil_append, List.append_assoc]
  have r0 := fread_block fs1 archive_name [] hdr _ [] hfs0 hlen (by simp)
  have hfs1 : fs1 archive_name = some (hdr ++ block_b ++ (List.replicate 512 0 ++ rest)) := hfs
  have hbl : block_b.length = 512 := by
    simp only [block_b, List.length_cons, List.length_replicate]
  have r1 := fread_block fs1 archive_name hdr block_b _ hdr hfs1 hbl (le_of_eq hlen)
  have hfs2 : fs1 archive_name
      = some ((hdr ++ block_b) ++ List.replicate 512 0 ++ rest) := by
    rw [hfs]; simp only [List.append_assoc]
  have r2 := fread_block fs1 archive_name (hdr ++ block_b) (List.replicate 512 0) rest block_b
    hfs2 (List.length_replicate _ _) (le_of_eq hbl)
  simp only [List.length_nil, List.length_append, hlen, hbl] at r0 r1 r2
  obtain ⟨hhead, hx0⟩ := cstr_at_head hdr f_name.off 120 [] hname
  have hbc : block_count (-2147483648) * 512 = -2147483648 := by decide
  have hrange : ¬ ((-2147483648 : Int) < -(2 ^ 31) ∨ (2 : Int) ^ 31 ≤ -2147483648) := by decide
  have hseek1 : fseek_cur ⟨archive_name, 0 + 512⟩ (-2147483648) = ⟨archive_name, 0 + 512⟩ := by
    simp only [fseek_cur]; rfl
  have hseek2 : fseek_cur ⟨archive_name, 512 + 512⟩ (-2147483648)
      = ⟨archive_name, 512 + 512⟩ := by
    simp only [fseek_cur]; rfl
  have b1 : (block_b.drop f_name.off).head? = some 98 := by decide
  have b2 : cstr_at block_b f_size.off = some [] := by decide!
  have b3 : sscanf_octal [] = none := by decide
  have b4 : cstr_at block_b f_name.off = some [98] := by decide!
  have z1 : ((List.replicate 512 (0 : Nat)).drop f_name.off).head? = some 0 := by
    rw [List.drop_replicate]; rfl
  have c1 : file_list_contains [] [120] = 0 := by decide
  have c2 : file_list_contains (file_list_add [] [120]) [98] = 0 := by decide
  have n98 : ¬ ((98 : Nat) = 0) := by decide
  simp only [get_archive_file_list, get_archive_file_list_run, hopen, r0]
  rw [get_archive_file_list_loop]
  simp only [hhead, hx0, if_false, htext, hscan, hname, hbc, hrange, hseek1, r1, c1, if_true]
  rw [get_archive_file_list_loop]
  simp only [b1, b2, b3, b4, n98, if_false, hbc, hrange, hseek2, r2, c2, if_true]
  rw [get_archive_file_list_loop]
  simp only [z1, if_true, file_list_add, List.nil_append, List.singleton_append]

theorem fs_2GiB_x : fs_2GiB [120] = some (content_b (2 ^ 31 - 1024)) := by
  simp only [fs_2GiB, if_true]

theorem fs_2GiB_size : (content_b (2 ^ 31 - 1024)).length = 2147483648 := by
  rw [content_b_length]; decide

theorem fs_2GiB_encoded : (fill_tar_header env_ok fs_2GiB [120]).1 = 0 := by
  simp only [fill_tar_header, fs_2GiB_x, env_ok]

/-- List on an archive whose one member is the file "x" of 2^31 bytes. -/
theorem list_of_2GiB_member (fs1 : FS) (n : Nat)
    (h : fs1 [97] = some (archive_body env_ok fs_2GiB [[120]] ++ List.replicate 1024 0)) :
    get_archive_file_list (n + 1 + 1 + 1) fs1 [97] [] = Outcome.returned (0, [[120], [98]]) := by
  have hpad : pad_to_block (content_b (2 ^ 31 - 1024)) = content_b (2 ^ 31 - 1024) :=
    pad_to_block_aligned _ (by rw [fs_2GiB_size])
  have hfs : fs1 [97] = some ((fill_tar_header env_ok fs_2GiB [120]).2 ++ block_b
      ++ (List.replicate 512 0
        ++ (List.replicate (2 ^ 31 - 1024) 0 ++ List.replicate 1024 0))) := by
    rw [h]
    simp only [archive_body, member_blocks, fs_2GiB_x, Option.getD_some, hpad]
    simp only [content_b, List.append_assoc, List.append_nil]
  have htext := fill_tar_header_size_text env_ok fs_2GiB [120] _ fs_2GiB_x fs_2GiB_encoded
  rw [fs_2GiB_size] at htext
  have hmod : 2147483648 % 2 ^ 32 = 2147483648 := by decide
  rw [hmod] at htext
  have hscan : sscanf_octal (octal_fixed 11 2147483648) = some (-2147483648) := by
    rw [sscanf_octal_fixed 2147483648 (by decide)]
    decide
  exact list_after_oversized fs1 [97] _ _ _ n hfs (fill_tar_header_length _ _ _)
    (fill_tar_header_name_text env_ok fs_2GiB [120] fs_2GiB_encoded (by decide) (by decide))
    htext hscan

/-! ## Lemmas: the header scan of Extract -/

theorem path_components_plain : ∀ (name : CStr), 47 ∉ name → path_components name = [name] := by
  intro name
  induction name with
  | nil => intro _; rfl
  | cons b rest ih =>
    intro h
    have hb : ¬ b = 47 := fun e => h (e ▸ List.mem_cons_self _ _)
    have hr : 47 ∉ rest := fun hm => h (List.mem_cons_of_mem _ hm)
    simp only [path_components, hb, if_false, ih hr]

/-- A plain file name names itself. -/
theorem path_entry_plain (name : CStr) (h : plain_name name = true) :
    path_entry name = some name := by
  have h47 : 47 ∉ name := by
    simp only [plain_name, Bool.and_eq_true, decide_eq_true_eq] at h
    exact h.1.1.2
  unfold path_entry
  rw [path_components_plain name h47]
  simp [h]

/-- The loop over full blocks copies `512 * n` bytes of the archive to the new file. -/
theorem extract_full_blocks_spec (archive_name name : CStr) (data : List Nat)
    (hne : name ≠ archive_name) (n : Nat) : ∀ (fs : FS) (pos : Nat) (w buf : List Nat),
    fs archive_name = some data → fs name = some w → buf.length = 512 →
    pos + 512 * n ≤ data.length →
    (extract_full_blocks n fs ⟨archive_name, pos⟩ name buf).1 archive_name = some data ∧
    (extract_full_blocks n fs ⟨archive_name, pos⟩ name buf).1 name
      = some (w ++ (data.drop pos).take (512 * n)) ∧
    (∀ p, p ≠ name → (extract_full_blocks n fs ⟨archive_name, pos⟩ name buf).1 p = fs p) ∧
    (extract_full_blocks n fs ⟨archive_name, pos⟩ name buf).2.1
      = ⟨archive_name, pos + 512 * n⟩ ∧
    (extract_full_blocks n fs ⟨archive_name, pos⟩ name buf).2.2.length = 512 := by
  induction n with
  | zero =>
    intro fs pos w buf hd hw hb _
    simp only [extract_full_blocks, Nat.mul_zero, List.take_zero, List.append_nil, Nat.add_zero]
    exact ⟨hd, hw, fun _ _ => trivial, trivial, hb⟩
  | succ k ih =>
    intro fs pos w buf hd hw hb hpos
    have hgot : read_bytes fs ⟨archive_name, pos⟩ 512 = (data.drop pos).take 512 := by
      simp only [read_bytes, hd, Option.getD_some]
    have hgl : ((data.drop pos).take 512).length = 512 := by
      rw [List.length_take, List.length_drop]; omega
    have hdrop : buf.drop 512 = [] := List.drop_of_length_le (le_of_eq hb)
    have htake : ((data.drop pos).take 512).take 512 = (data.drop pos).take 512 :=
      List.take_of_length_le (le_of_eq hgl)
    simp only [extract_full_blocks, fread, hgot, hgl, hdrop, List.append_nil, htake]
    have h1 : (fwrite fs name ((data.drop pos).take 512)) archive_name = some data := by
      rw [fwrite_other _ _ _ _ (Ne.symm hne)]; exact hd
    have h2 := fwrite_same fs name w ((data.drop pos).take 512) hw
    obtain ⟨i1, i2, i3, i4, i5⟩ := ih (fwrite fs name ((data.drop pos).take 512)) (pos + 512)
      (w ++ (data.drop pos).take 512) ((data.drop pos).take 512) h1 h2 hgl (by omega)
    refine ⟨i1, ?_, ?_, ?_, i5⟩
    · rw [i2, List.append_assoc]
      congr 2
      have e : 512 * (k + 1) = 512 + 512 * k := by omega
      rw [e, List.take_add, List.drop_drop]
    · intro p hp
      rw [i3 p hp, fwrite_other _ _ _ _ hp]
    · rw [i4]; congr 1; omega

theorem extract_result_cons (fs : FS) (m : Member) (rest : List Member) :
    extract_result fs (m :: rest)
      = extract_result (fs.put m.name (written_content m.content)) rest := by
  simp only [extract_result, List.foldl_cons]

theorem extract_result_congr (ms : List Member) : ∀ (fs1 fs2 : FS),
    (∀ p, fs1 p = fs2 p) → ∀ p, extract_result fs1 ms p = extract_result fs2 ms p := by
  induction ms with
  | nil => intro fs1 fs2 h p; exact h p
  | cons m rest ih =>
    intro fs1 fs2 h p
    rw [extract_result_cons, extract_result_cons]
    apply ih
    intro q
    simp only [FS.put, h q]

/-- Copying `q` full blocks and then `r` bytes of a member's content writes out the first
`512 * q + r` bytes of the content and leaves the stream behind them. -/
theorem extract_member_step (fs : FS) (archive_name : CStr) (m : Member)
    (pre rest : List Nat) (q r : Nat)
    (hfs : fs archive_name = some (pre ++ m.header ++ (pad_to_block m.content ++ rest)))
    (hlen : m.header.length = 512) (hne : m.name ≠ archive_name)
    (hqr : 512 * q + r ≤ m.content.length) :
    ∃ fs2 f1 buf1,
      extract_full_blocks q (fopen_w fs m.name)
          ⟨archive_name, pre.length + 512⟩ m.name (memset 0 MAX_MSG_LEN) = (fs2, f1, buf1) ∧
      (fwrite fs2 m.name ((fread fs2 f1 buf1 r).2.1.take r)) archive_name = fs archive_name ∧
      (fwrite fs2 m.name ((fread fs2 f1 buf1 r).2.1.take r)) m.name
        = some (m.content.take (512 * q + r)) ∧
      (∀ p, p ≠ m.name → (fwrite fs2 m.name ((fread fs2 f1 buf1 r).2.1.take r)) p = fs p) ∧
      (fread fs2 f1 buf1 r).1 = ⟨archive_name, pre.length + 512 + (512 * q + r)⟩ := by
  have hdata1 : (fopen_w fs m.name) archive_name
      = some (pre ++ m.header ++ (pad_to_block m.content ++ rest)) := by
    rw [fopen_w, put_other _ _ _ _ (Ne.symm hne)]; exact hfs
  have hw : (fopen_w fs m.name) m.name = some [] := put_same _ _ _
  have hpadlen := pad_to_block_length m.content
  have hpos : pre.length + 512 + 512 * q
      ≤ (pre ++ m.header ++ (pad_to_block m.content ++ rest)).length := by
    simp only [List.length_append, hlen, hpadlen]; omega
  obtain ⟨a1, a2, a3, a4, a5⟩ := extract_full_blocks_spec archive_name m.name _ hne
    q (fopen_w fs m.name) (pre.length + 512) [] (memset 0 MAX_MSG_LEN)
    hdata1 hw (by rw [memset, MAX_MSG_LEN, List.length_replicate]) hpos
  have hdrop : (pre ++ m.header ++ (pad_to_block m.content ++ rest)).drop (pre.length + 512)
      = m.content ++ (List.replicate ((512 - m.content.length % 512) % 512) 0 ++ rest) := by
    have hl : (pre ++ m.header).length = pre.length + 512 := by
      rw [List.length_append, hlen]
    rw [List.drop_left' hl, pad_to_block, List.append_assoc]
  have htake : ((pre ++ m.header ++ (pad_to_block m.content ++ rest)).drop
      (pre.length + 512)).take (512 * q) = m.content.take (512 * q) := by
    rw [hdrop, List.take_append_of_le_length (by omega)]
  rw [htake, List.nil_append] at a2
  generalize hres : extract_full_blocks q (fopen_w fs m.name)
      ⟨archive_name, pre.length + 512⟩ m.name (memset 0 MAX_MSG_LEN) = res at a1 a2 a3 a4 a5
  obtain ⟨fs2, f1, buf1⟩ := res
  simp only at a1 a2 a3 a4 a5
  subst a4
  have hgot : read_bytes fs2 ⟨archive_name, pre.length + 512 + 512 * q⟩ r
      = (m.content.drop (512 * q)).take r := by
    simp only [read_bytes, a1, Option.getD_some]
    rw [← List.drop_drop, hdrop, List.drop_append_of_le_length (by omega),
      List.take_append_of_le_length (by rw [List.length_drop]; omega)]
  have hgl : ((m.content.drop (512 * q)).take r).length = r := by
    rw [List.length_take, List.length_drop]; omega
  refine ⟨fs2, _, buf1, rfl, ?_, ?_, ?_, ?_⟩
  · rw [fwrite_other _ _ _ _ (Ne.symm hne), a1, hfs]
  · simp only [fread, hgot]
    rw [List.take_left' hgl, fwrite_same _ _ _ _ a2, List.take_add]
  · intro p hp
    rw [fwrite_other _ _ _ _ hp, a3 p hp, fopen_w, put_other _ _ _ _ hp]
  · simp only [fread, hgot, hgl]
    congr 1
    omega

theorem written_content_eq (c : List Nat) :
    c.take (512 * ((c.length + 511) / 512 - 1) + c.length % 512) = written_content c := by
  unfold written_content
  split
  · have e : 512 * ((c.length + 511) / 512 - 1) + c.length % 512 = c.length - 512 := by omega
    rw [e]
  · have e : 512 * ((c.length + 511) / 512 - 1) + c.length % 512 = c.length := by omega
    rw [e, List.take_length]

/-- On an archive made of well-formed, non-empty members with plain file names and a
footer, the scan of Extract visits every member header in turn, writes every member out (without its last
512 bytes when its size is a multiple of 512), and stops at the first footer block. -/
theorem extract_scan_members (archive_name : CStr) (tail : List Nat) :
    ∀ (ms : List Member) (fs : FS) (pre old_h : List Nat) (visited : List Nat) (fuel : Nat),
    fs archive_name = some (pre ++ members_bytes ms ++ List.replicate 1024 0 ++ tail) →
    (∀ m ∈ ms, m.ok ∧ m.content.length ≠ 0 ∧ m.name ≠ archive_name ∧
      plain_name m.name = true) →
    ms.length + 1 ≤ fuel → old_h.length ≤ 512 →
    ∃ fs1, extract_loop fuel fs
        (fread fs ⟨archive_name, pre.length⟩ old_h BLOCK).1
        (fread fs ⟨archive_name, pre.length⟩ old_h BLOCK).2.1 visited
      = Outcome.returned (fs1,
          visited ++ next_offsets pre.length (ms.map (fun m => m.content.length))) ∧
      ∀ p, fs1 p = extract_result fs ms p := by
  intro ms
  induction ms with
  | nil =>
    intro fs pre old_h visited fuel hfs _ hfuel ho
    have hsplit : (List.replicate 1024 (0 : Nat)) = List.replicate 512 0 ++ List.replicate 512 0 := by
      rw [← List.replicate_add]
    have hfs1 : fs archive_name
        = some (pre ++ List.replicate 512 0 ++ (List.replicate 512 0 ++ tail)) := by
      rw [hfs, hsplit]; simp only [members_bytes, List.append_nil, List.append_assoc]
    rw [fread_block fs archive_name pre _ _ old_h hfs1 (List.length_replicate _ _) ho]
    obtain ⟨k, rfl⟩ : ∃ k, fuel = k + 1 := ⟨fuel - 1, by omega⟩
    have hz : ((List.replicate 512 (0 : Nat)).drop f_name.off).head? = some 0 := by
      rw [List.drop_replicate]; rfl
    refine ⟨fs, ?_, fun _ => rfl⟩
    simp only [extract_loop, hz, if_true, List.map_nil, next_offsets, List.append_nil]
  | cons m rest ih =>
    intro fs pre old_h visited fuel hfs hok hfuel ho
    obtain ⟨⟨hlen, hne, hname, text, htext, hscan⟩, hpos, hself, hplain⟩ :=
      hok m (List.mem_cons_self _ _)
    have hentry := path_entry_plain m.name hplain
    have hfs1 : fs archive_name = some (pre ++ m.header
        ++ (pad_to_block m.content ++ (members_bytes rest ++ List.replicate 1024 0 ++ tail))) := by
      rw [hfs]; simp only [members_bytes, List.append_assoc]
    rw [fread_block fs archive_name pre _ _ old_h hfs1 hlen ho]
    obtain ⟨k, rfl⟩ : ∃ k, fuel = k + 1 := ⟨fuel - 1, by omega⟩
    obtain ⟨x, xs, hx⟩ : ∃ x xs, m.name = x :: xs := by
      cases hn : m.name with
      | nil => exact absurd hn hne
      | cons x xs => exact ⟨x, xs, rfl⟩
    obtain ⟨hhead, hx0⟩ := cstr_at_head m.header f_name.off x xs (hx ▸ hname)
    have hpadlen := pad_to_block_length m.content
    have h1 : (m.content.length : Int).tmod 512 = ((m.content.length % 512 : Nat) : Int) :=
      (Int.ofNat_tmod _ 512).symm
    have hbc : (if ((m.content.length % 512 : Nat) : Int) = 0
        then (m.content.length : Int).tdiv 512 else (m.content.length : Int).tdiv 512 + 1)
        = (((m.content.length + 511) / 512 : Nat) : Int) := by
      have := block_count_natCast m.content.length
      simp only [block_count, h1] at this
      exact this
    have hq : ((((m.content.length + 511) / 512 : Nat) : Int) - 1).toNat
        = (m.content.length + 511) / 512 - 1 := by omega
    have hnonneg : ¬ (((m.content.length % 512 : Nat) : Int) < 0) := by omega
    have hlb : (((m.content.length % 512 : Nat) : Int)).toNat = m.content.length % 512 := by
      omega
    have hqr : 512 * ((m.content.length + 511) / 512 - 1) + m.content.length % 512
        ≤ m.content.length := by omega
    obtain ⟨fs2, f1, buf1, s1, s2, s3, s4, s5⟩ := extract_member_step fs archive_name m pre _
      ((m.content.length + 511) / 512 - 1) (m.content.length % 512) hfs1 hlen hself hqr
    rw [written_content_eq m.content] at s3
    have hseek : fseek_cur ⟨archive_name, pre.length + 512
          + (512 * ((m.content.length + 511) / 512 - 1) + m.content.length % 512)⟩
        (512 - ((m.content.length % 512 : Nat) : Int))
        = ⟨archive_name, (pre ++ m.header ++ pad_to_block m.content).length⟩ := by
      have hnn : (0 : Int) ≤ ((pre.length + 512
          + (512 * ((m.content.length + 511) / 512 - 1) + m.content.length % 512) : Nat) : Int)
          + (512 - ((m.content.length % 512 : Nat) : Int)) := by omega
      rw [fseek_cur]
      simp only [hnn, if_true, List.length_append, hlen, hpadlen]
      congr 1
      omega
    simp only [extract_loop, hhead, hx0, if_false, htext, hscan, hname, hentry, h1, hbc, hq,
      s1, hnonneg, hlb, s5, hseek]
    generalize hfs3 : fwrite fs2 m.name
      ((fread fs2 f1 buf1 (m.content.length % 512)).2.1.take (m.content.length % 512)) = fs3
      at s2 s3 s4
    have hfs3a : fs3 archive_name = some ((pre ++ m.header ++ pad_to_block m.content)
        ++ members_bytes rest ++ List.replicate 1024 0 ++ tail) := by
      rw [s2, hfs]; simp only [members_bytes, List.append_assoc]
    obtain ⟨fs4, r1, r2⟩ := ih fs3 (pre ++ m.header ++ pad_to_block m.content) m.header
      (visited ++ [(pre ++ m.header ++ pad_to_block m.content).length]) k hfs3a
      (fun y hy => hok y (List.mem_cons_of_mem _ hy))
      (by simp only [List.length_cons] at hfuel; omega) (le_of_eq hlen)
    refine ⟨fs4, ?_, ?_⟩
    · rw [r1]
      simp only [List.map_cons, next_offsets, List.length_append, hlen, hpadlen,
        List.append_assoc, List.singleton_append, Nat.add_assoc]
    · intro p
      rw [r2 p, extract_result_cons]
      apply extract_result_congr
      intro q
      by_cases hq : q = m.name
      · rw [hq, s3, put_same]
      · rw [s4 q hq, put_other _ _ _ _ hq]

/-- Extract on an archive made of well-formed, non-empty members with plain file names
and a footer. -/
theorem extract_run_members (fs : FS) (archive_name : CStr) (ms : List Member)
    (tail : List Nat) (fuel : Nat)
    (hfs : fs archive_name = some (members_bytes ms ++ List.replicate 1024 0 ++ tail))
    (hok : ∀ m ∈ ms, m.ok ∧ m.content.length ≠ 0 ∧ m.name ≠ archive_name ∧
      plain_name m.name = true)
    (hfuel : ms.length + 1 ≤ fuel) :
    ∃ fs1, extract_files_from_archive_run fuel fs archive_name
        = Outcome.returned (0, fs1, header_offsets (ms.map (fun m => m.content.length))) ∧
      extract_files_from_archive fuel fs archive_name = Outcome.returned (0, fs1) ∧
      ∀ p, fs1 p = extract_result fs ms p := by
  have hopen : fopen_r fs archive_name = some ⟨archive_name, 0⟩ := by simp only [fopen_r, hfs]
  obtain ⟨fs1, h1, h2⟩ := extract_scan_members archive_name tail ms fs [] [] [0] fuel
    (by rw [hfs]; simp only [List.nil_append]) hok hfuel (by simp)
  simp only [List.length_nil] at h1
  have hrun : extract_files_from_archive_run fuel fs archive_name
      = Outcome.returned (0, fs1, header_offsets (ms.map (fun m => m.content.length))) := by
    simp only [extract_files_from_archive_run, hopen, h1, header_offsets, List.singleton_append]
  refine ⟨fs1, hrun, ?_, h2⟩
  simp only [extract_files_from_archive, hrun]

theorem extract_result_append (xs ys : List Member) (fs : FS) :
    extract_result fs (xs ++ ys) = extract_result (extract_result fs xs) ys := by
  simp only [extract_result, List.foldl_append]

theorem extract_result_other (ms : List Member) : ∀ (fs : FS) (p : CStr),
    (∀ x ∈ ms, x.name ≠ p) → extract_result fs ms p = fs p := by
  induction ms with
  | nil => intro fs p _; rfl
  | cons m rest ih =>
    intro fs p h
    rw [extract_result_cons, ih _ p (fun x hx => h x (List.mem_cons_of_mem _ hx))]
    exact put_other _ _ _ _ (Ne.symm (h m (List.mem_cons_self _ _)))

/-- Of the members written out under one name, the last one stays. -/
theorem extract_result_last (before after : List Member) (m : Member) (fs : FS)
    (h : ∀ x ∈ after, x.name ≠ m.name) :
    extract_result fs (before ++ m :: after) m.name = some (written_content m.content) := by
  rw [extract_result_append, extract_result_cons, extract_result_other after _ _ h, put_same]

/-- The scan of Extract on an archive whose first header has the size field of a member
of 2^31 bytes: the size is read as -2^31, nothing is copied, one block is skipped, and
the second content block, here all zero, ends the scan. -/
theorem extract_after_oversized (fs : FS) (archive_name : CStr) (hdr block rest : List Nat)
    (text name : CStr) (n : Nat)
    (hfs : fs archive_name = some (hdr ++ block ++ (List.replicate 512 0 ++ rest)))
    (hblock : block.length = 512) (hlen : hdr.length = 512)
    (hname : cstr_at hdr f_name.off = some name) (hne : name ≠ [])
    (htext : cstr_at hdr f_size.off = some text)
    (hscan : sscanf_octal text = some (-2147483648))
    (hself : name ≠ archive_name) (hplain : plain_name name = true) :
    ∃ fs1, extract_files_from_archive (n + 1 + 1) fs archive_name = Outcome.returned (0, fs1) ∧
      fs1 name = some [] := by
  have hentry := path_entry_plain name hplain
  have hopen : fopen_r fs archive_name = some ⟨archive_name, 0⟩ := by
    simp only [fopen_r, hfs]
  have hfs0 : fs archive_name
      = some ([] ++ hdr ++ (block ++ (List.replicate 512 0 ++ rest))) := by
    rw [hfs]; simp only [List.nil_append, List.append_assoc]
  have r0 := fread_block fs archive_name [] hdr _ [] hfs0 hlen (by simp)
  obtain ⟨x, xs, hx⟩ : ∃ x xs, name = x :: xs := by
    cases hn : name with
    | nil => exact absurd hn hne
    | cons x xs => exact ⟨x, xs, rfl⟩
  obtain ⟨hhead, hx0⟩ := cstr_at_head hdr f_name.off x xs (hx ▸ hname)
  have t1 : (-2147483648 : Int).tmod 512 = 0 := by decide
  have t2 : ((-2147483648 : Int).tdiv 512 - 1).toNat = 0 := by decide
  have t3 : ¬ ((0 : Int) < 0) := by decide
  have t4 : (0 : Int).toNat = 0 := rfl
  have hfs3 : (fwrite (fopen_w fs name) name []) archive_name
      = some ((hdr ++ block) ++ List.replicate 512 0 ++ rest) := by
    rw [fwrite_other _ _ _ _ (Ne.symm hself), fopen_w, put_other _ _ _ _ (Ne.symm hself), hfs]
    simp only [List.append_assoc]
  have r2 := fread_block (fwrite (fopen_w fs name) name []) archive_name (hdr ++ block)
    (List.replicate 512 0) rest hdr hfs3 (List.length_replicate _ _) (le_of_eq hlen)
  simp only [List.length_nil, List.length_append, hlen, hblock] at r0 r2
  have hseek : fseek_cur ⟨archive_name, 0 + 512 + 0⟩ (512 - 0) = ⟨archive_name, 512 + 512⟩ := by
    simp only [fseek_cur]; rfl
  have z1 : ((List.replicate 512 (0 : Nat)).drop f_name.off).head? = some 0 := by
    rw [List.drop_replicate]; rfl
  have hr0 : fread (fopen_w fs name) ⟨archive_name, 0 + 512⟩ (memset 0 MAX_MSG_LEN) 0
      = (⟨archive_name, 0 + 512 + 0⟩, memset 0 MAX_MSG_LEN, 0) := by
    simp only [fread, read_bytes, List.take_zero, List.length_nil, List.drop_zero,
      List.nil_append]
  refine ⟨fwrite (fopen_w fs name) name [], ?_, ?_⟩
  · simp only [extract_files_from_archive, extract_files_from_archive_run, hopen, r0]
    rw [extract_loop]
    simp only [hhead, hx0, if_false, htext, hscan, hname, hentry, t1, t2, if_true,
      extract_full_blocks, t3, t4, hr0, List.take_zero, hseek, r2]
    rw [extract_loop]
    simp only [z1, if_true]
  · show fwrite (fs.put name []) name [] name = some []
    rw [fwrite_same _ _ [] [] (put_same _ _ _)]; rfl

/-- When the members of `before` open and the next member does not, the member loop
appends the members of `before` and returns -1, and no footer is written. -/
theorem create_archive_loop_missing (fuel : Nat) (env : Env) (archive_name missing : CStr)
    (after : List CStr) : ∀ (before : List CStr) (fs : FS) (a : List Nat),
    fs archive_name = some a → (∀ m ∈ before, fs m ≠ none) → archive_name ∉ before →
    fs missing = none →
    (∀ m ∈ before, ((fs m).getD []).length / 512 + 2 ≤ fuel) →
    ∃ fs1, create_archive_loop fuel env archive_name fs (before ++ missing :: after)
        = Outcome.returned (-1, fs1) ∧
      fs1 archive_name = some (a ++ archive_body env fs before) ∧
      ∀ p, p ≠ archive_name → fs1 p = fs p := by
  intro before
  induction before with
  | nil =>
    intro fs a ha _ _ hmiss _
    refine ⟨fs, ?_, ?_, fun _ _ => rfl⟩
    · simp only [List.nil_append, create_archive_loop, fopen_r, hmiss]
    · rw [ha]; simp only [archive_body, List.append_nil]
  | cons m rest ih =>
    intro fs a ha hopen hself hmiss hfuel
    have hm : m ≠ archive_name := fun e => hself (e ▸ List.mem_cons_self _ _)
    have hmissne : missing ≠ archive_name := fun e => by rw [e, ha] at hmiss; cases hmiss
    obtain ⟨d, hd⟩ := Option.ne_none_iff_exists'.mp (hopen m (List.mem_cons_self _ _))
    have hopen_r : fopen_r fs m = some ⟨m, 0⟩ := by simp [fopen_r, hd]
    simp only [List.cons_append, create_archive_loop, hopen_r]
    set hdr := (fill_tar_header env fs m).2 with hhdr
    have h1 : (fwrite fs archive_name hdr) m = some d := by
      rw [fwrite_other _ _ _ _ hm]; exact hd
    have h2 : (fwrite fs archive_name hdr) archive_name = some (a ++ hdr) :=
      fwrite_same _ _ _ _ ha
    have hf : (d.length - 0 + 511) / 512 + 1 ≤ fuel := by
      have := hfuel m (List.mem_cons_self _ _)
      rw [hd] at this
      simp only [Option.getD_some] at this
      omega
    obtain ⟨fs2, e1, e2, e3⟩ := copy_contents_spec fuel (fwrite fs archive_name hdr)
      archive_name m 0 d (a ++ hdr) hm h1 h2 hf
    rw [e1]
    simp only
    have same : ∀ x ∈ rest, fs2 x = fs x := by
      intro x hx
      have hx2 : x ≠ archive_name := fun e => hself (e ▸ List.mem_cons_of_mem _ hx)
      rw [e3 x hx2, fwrite_other _ _ _ _ hx2]
    obtain ⟨fs3, g1, g2, g3⟩ := ih fs2 _ e2
      (fun x hx => by rw [same x hx]; exact hopen x (List.mem_cons_of_mem _ hx))
      (fun hx => hself (List.mem_cons_of_mem _ hx))
      (by rw [e3 missing hmissne, fwrite_other _ _ _ _ hmissne]; exact hmiss)
      (fun x hx => by rw [same x hx]; exact hfuel x (List.mem_cons_of_mem _ hx))
    refine ⟨fs3, g1, ?_, ?_⟩
    · rw [g2, archive_body_congr env fs2 fs rest same]
      simp only [archive_body, member_blocks, hd, Option.getD_some, List.drop_zero,
        List.append_assoc, hhdr]
    · intro p hp
      rw [g3 p hp, e3 p hp, fwrite_other _ _ _ _ hp]

/-- Closed form of what `create_archive` leaves when a member cannot be opened. -/
theorem create_archive_missing (fuel : Nat) (env : Env) (fs : FS) (archive_name : CStr)
    (before after : List CStr) (missing : CStr)
    (hopen : ∀ m ∈ before, fopen_r fs m ≠ none) (hmiss : fopen_r fs missing = none)
    (hself : archive_name ∉ before ++ missing :: after)
    (hfuel : ∀ m ∈ before, ((fs m).getD []).length / 512 + 2 ≤ fuel) :
    ∃ fs1, create_archive fuel env fs archive_name (before ++ missing :: after)
        = Outcome.returned (-1, fs1) ∧
      fs1 archive_name = some (archive_body env fs before) ∧
      ∀ p, p ≠ archive_name → fs1 p = fs p := by
  have hb : archive_name ∉ before := fun h => hself (List.mem_append_left _ h)
  have hmne : missing ≠ archive_name := fun e =>
    hself (List.mem_append_right _ (e ▸ List.mem_cons_self _ _))
  have hsame : ∀ m ∈ before, (fopen_w fs archive_name) m = fs m := by
    intro m hm
    exact put_other _ _ _ _ (fun e => hb (e ▸ hm))
  have hmiss1 : fs missing = none := by
    cases h : fs missing with
    | none => rfl
    | some d => simp [fopen_r, h] at hmiss
  obtain ⟨fs1, e1, e2, e3⟩ := create_archive_loop_missing fuel env archive_name missing after
    before (fopen_w fs archive_name) [] (put_same _ _ _)
    (fun m hm => by
      rw [hsame m hm]
      intro hnone
      exact hopen m hm (by simp [fopen_r, hnone]))
    hb (by rw [fopen_w, put_other _ _ _ _ hmne]; exact hmiss1)
    (fun m hm => by rw [hsame m hm]; exact hfuel m hm)
  refine ⟨fs1, e1, ?_, ?_⟩
  · rw [e2, archive_body_congr env _ fs before hsame, List.nil_append]
  · intro p hp
    rw [e3 p hp]; exact put_other _ _ _ _ hp

/-- A list with a member that does not open splits at the first such member. -/
theorem first_unopened (fs : FS) : ∀ files : List CStr, (∃ m ∈ files, fopen_r fs m = none) →
    ∃ before missing after, files = before ++ missing :: after ∧
      (∀ m ∈ before, fopen_r fs m ≠ none) ∧ fopen_r fs missing = none := by
  intro files
  induction files with
  | nil => intro h; obtain ⟨m, hm, _⟩ := h; cases hm
  | cons x rest ih =>
    intro h
    by_cases hx : fopen_r fs x = none
    · exact ⟨[], x, rest, rfl, fun _ hm => absurd hm (List.not_mem_nil _), hx⟩
    · obtain ⟨m, hm, hnone⟩ := h
      have hmr : m ∈ rest := by
        rcases List.mem_cons.mp hm with e | e
        · exact absurd (e ▸ hnone) hx
        · exact e
      obtain ⟨before, missing, after, e1, e2, e3⟩ := ih ⟨m, hmr, hnone⟩
      refine ⟨x :: before, missing, after, by rw [e1]; rfl, ?_, e3⟩
      intro y hy
      rcases List.mem_cons.mp hy with e | e
      · rw [e]; exact hx
      · exact e2 y e

/-! ## Lemmas: Append against Create -/

theorem archive_body_append (env : Env) (fs : FS) (xs ys : List CStr) :
    archive_body env fs (xs ++ ys) = archive_body env fs xs ++ archive_body env fs ys := by
  induction xs with
  | nil => rfl
  | cons m rest ih =>
    rw [List.cons_append]
    show member_blocks env fs m ++ archive_body env fs (rest ++ ys) = _
    rw [ih]
    simp only [archive_body, List.append_assoc]

/-- Grafting the archive of `fs1` onto `fs` gives `fs1` when the two agree elsewhere. -/
theorem graft_eq_self (fs fs1 : FS) (name : CStr) (h : ∀ p, p ≠ name → fs1 p = fs p) :
    fs.graft name fs1 = fs1 := by
  funext p
  by_cases hp : p = name
  · rw [hp, graft_same]
  · rw [graft_other _ _ _ _ hp, h p hp]

/-! ## Lemmas: the offsets visited after a member of 2^31 bytes -/

/-- The size field of the header of "x" of 2^31 bytes reads back as -2^31. -/
theorem size_text_of_2GiB_member :
    ∃ text, cstr_at (fill_tar_header env_ok fs_2GiB [120]).2 f_size.off = some text ∧
      sscanf_octal text = some (-2147483648) := by
  have htext := fill_tar_header_size_text env_ok fs_2GiB [120] _ fs_2GiB_x fs_2GiB_encoded
  rw [fs_2GiB_size] at htext
  have hmod : 2147483648 % 2 ^ 32 = 2147483648 := by decide
  rw [hmod] at htext
  refine ⟨_, htext, ?_⟩
  rw [sscanf_octal_fixed 2147483648 (by decide)]
  decide

/-- A list splits at the last occurrence of any of its entries. -/
theorem last_occurrence (m : CStr) : ∀ files : List CStr, m ∈ files →
    ∃ before after, files = before ++ m :: after ∧ m ∉ after := by
  intro files
  induction files with
  | nil => intro h; cases h
  | cons x rest ih =>
    intro h
    by_cases hr : m ∈ rest
    · obtain ⟨before, after, e, hn⟩ := ih hr
      exact ⟨x :: before, after, by rw [e]; rfl, hn⟩
    · rcases List.mem_cons.mp h with e | e
      · exact ⟨[], rest, by rw [e]; rfl, hr⟩
      · exact absurd e hr

/-- Create followed by Extract in a directory that holds only the archive: when the
archive and the members have plain file names, and every member is encoded successfully,
has a name of 1 to 99 bytes and a size below 2^31 that is not a multiple of 512, both
return 0, every member comes back with its original bytes, and nothing else is created. -/
theorem restricted_round_trip (fuel : Nat) (env : Env) (fs : FS) (archive_name : CStr)
    (files : List CStr)
    (_harch : plain_name archive_name = true)
    (hself : archive_name ∉ files)
    (hplain : ∀ m ∈ files, plain_name m = true)
    (hname : ∀ m ∈ files, 1 ≤ m.length ∧ m.length ≤ 99 ∧ ∀ b ∈ m, b ≠ 0)
    (henc : ∀ m ∈ files, (fill_tar_header env fs m).1 = 0)
    (hsize : ∀ m ∈ files, ((fs m).getD []).length % 512 ≠ 0 ∧ ((fs m).getD []).length < 2 ^ 31)
    (hfuel : ∀ m ∈ files, ((fs m).getD []).length / 512 + 2 ≤ fuel)
    (hscan : files.length + 1 ≤ fuel) :
    ∃ fs1 fs2, create_archive fuel env fs archive_name files = Outcome.returned (0, fs1) ∧
      extract_files_from_archive fuel (empty_dir_with archive_name fs1) archive_name
        = Outcome.returned (0, fs2) ∧
      (∀ m ∈ files, fs2 m = fs m) ∧
      fs2 archive_name = fs1 archive_name ∧
      (∀ p, p ∉ files → p ≠ archive_name → fs2 p = none) := by
  obtain ⟨fs1, e1, e2, _⟩ := create_archive_spec fuel env fs archive_name files
    (fun m hm => fopen_r_of_encoded env fs m (henc m hm)) hself hfuel
  have hfs : (empty_dir_with archive_name fs1) archive_name
      = some (members_bytes (files.map (stored_member env fs)) ++ List.replicate 1024 0 ++ []) := by
    rw [empty_dir_with, graft_same, e2, archive_body_eq_members, List.append_nil]
  have hok : ∀ e ∈ files.map (stored_member env fs),
      e.ok ∧ e.content.length ≠ 0 ∧ e.name ≠ archive_name ∧ plain_name e.name = true := by
    intro e he
    obtain ⟨m, hm, rfl⟩ := List.mem_map.mp he
    obtain ⟨h1, h99, hnz⟩ := hname m hm
    refine ⟨stored_member_ok env fs m (henc m hm) h1 h99 hnz (hsize m hm).2, ?_, ?_, hplain m hm⟩
    · have := (hsize m hm).1
      show ((fs m).getD []).length ≠ 0
      omega
    · exact fun e => hself (e ▸ hm)
  obtain ⟨fs2, _, r2, r3⟩ := extract_run_members (empty_dir_with archive_name fs1) archive_name
    (files.map (stored_member env fs)) [] fuel hfs hok (by rw [List.length_map]; exact hscan)
  refine ⟨fs1, fs2, e1, r2, ?_, ?_, ?_⟩
  · intro m hm
    obtain ⟨before, after, hsplit, hlast⟩ := last_occurrence m files hm
    obtain ⟨d, _, _, hd, _⟩ := fill_tar_header_success env fs m (henc m hm)
    have hmap : files.map (stored_member env fs)
        = before.map (stored_member env fs)
          ++ stored_member env fs m :: after.map (stored_member env fs) := by
      rw [hsplit, List.map_append, List.map_cons]
    have hw : written_content ((fs m).getD []) = (fs m).getD [] := by
      rw [written_content, if_neg (hsize m hm).1]
    have := extract_result_last (before.map (stored_member env fs))
      (after.map (stored_member env fs)) (stored_member env fs m)
      (empty_dir_with archive_name fs1)
      (by
        intro x hx
        obtain ⟨y, hy, rfl⟩ := List.mem_map.mp hx
        exact fun e => hlast (by
          have e' : y = m := e
          exact e' ▸ hy))
    rw [← hmap] at this
    rw [r3 m]
    show extract_result _ _ (stored_member env fs m).name = _
    rw [this]
    show some (written_content ((fs m).getD [])) = fs m
    rw [hw, hd, Option.getD_some]
  · rw [r3 archive_name, extract_result_other]
    · exact graft_same _ _ _
    · intro x hx
      obtain ⟨y, hy, rfl⟩ := List.mem_map.mp hx
      exact fun e => hself (by
        have e' : y = archive_name := e
        exact e' ▸ hy)
  · intro p hp hpa
    rw [r3 p, extract_result_other]
    · exact graft_other _ _ _ _ hpa
    · intro x hx
      obtain ⟨y, hy, rfl⟩ := List.mem_map.mp hx
      exact fun e => hp (by
        have e' : y = p := e
        exact e' ▸ hy)

/-! ## Lemmas: the checksum field -/

theorem compute_checksum_eq (h : List Nat) :
    compute_checksum h
      = store (store h f_chksum.off (memset 32 8)) f_chksum.off (snprintf_octal 8 7 (char_sum h)) :=
  rfl

/-- A store over the place of an earlier store of the same length replaces it. -/
theorem store_store_same (obj v w : List Nat) (off : Nat) (hl : v.length = w.length)
    (h : off + v.length ≤ obj.length) :
    store (store obj off v) off w = store obj off w := by
  have h1 : (obj.take off).length = off := by rw [List.length_take]; omega
  have e1 : (obj.take off ++ v ++ obj.drop (off + v.length)).take off = obj.take off := by
    rw [List.append_assoc, List.take_left' h1]
  have e2 : (obj.take off ++ v ++ obj.drop (off + v.length)).drop (off + w.length)
      = obj.drop (off + w.length) := by
    rw [List.append_assoc, ← List.drop_drop, List.drop_left' h1, ← hl, List.drop_left]
  simp only [store, e1, e2]

/-- The sum over a header does not depend on what its checksum field holds. -/
theorem char_sum_compute_checksum (h : List Nat) (hl : h.length = 512) :
    char_sum (compute_checksum h) = char_sum h := by
  have hb : (store h f_chksum.off (memset 32 8)).length = 512 := by
    rw [store_length] <;> simp only [memset, f_chksum, hl, List.length_replicate]; omega
  have e1 : store (compute_checksum h) f_chksum.off (memset 32 8)
      = store h f_chksum.off (memset 32 8) := by
    rw [compute_checksum_eq,
      store_store_same _ _ _ _ (by rw [snprintf_octal_length_7]; rfl)
        (by rw [snprintf_octal_length_7, hb]; decide),
      store_store_same _ _ _ _ rfl (by rw [hl]; decide)]
  rw [char_sum, e1]
  rfl

/-- The checksum field after `compute_checksum`. -/
theorem compute_checksum_field (h : List Nat) (hl : h.length = 512) :
    get_field (compute_checksum h) f_chksum = snprintf_octal 8 7 (char_sum h) := by
  have hb : (store h f_chksum.off (memset 32 8)).length = 512 := by
    rw [store_length] <;> simp only [memset, f_chksum, hl, List.length_replicate]; omega
  have := get_field_store_same (store h f_chksum.off (memset 32 8))
    (snprintf_octal 8 7 (char_sum h)) f_chksum.off (by rw [hb]; decide)
  rw [snprintf_octal_length_7] at this
  exact this

/-- A successful `fill_tar_header` ends with `compute_checksum` on a full block. -/
theorem fill_tar_header_checksummed (env : Env) (fs : FS) (m : CStr)
    (h : (fill_tar_header env fs m).1 = 0) :
    ∃ h13 : List Nat, h13.length = 512 ∧ (fill_tar_header env fs m).2 = compute_checksum h13 := by
  obtain ⟨d, pw, gr, hd, hpw, hgr⟩ := fill_tar_header_success env fs m h
  have z : (memset 0 BLOCK).length = 512 := by rw [memset, BLOCK, List.length_replicate]
  have s7 := snprintf_octal_length_7
  have s11 := snprintf_octal_length_11
  have sc := strncpy_length
  simp only [fill_tar_header, hd, hpw, hgr]
  refine ⟨_, ?_, rfl⟩
  repeat' (first | apply store_length_block | exact z)
  all_goals simp [s7, s11, sc, f_name, f_mode, f_uid, f_gid, f_uname, f_gname, f_size,
    f_mtime, f_typeflag, f_magic, f_version, f_devmajor, f_devminor]

/-- The digits of a number split into the high and the low ones. -/
theorem octal_fixed_add (a : Nat) : ∀ (b v : Nat),
    octal_fixed (a + b) v = octal_fixed a (v / 8 ^ b) ++ octal_fixed b v := by
  intro b
  induction b with
  | zero => intro v; simp [octal_fixed]
  | succ k ih =>
    intro v
    have e : a + (k + 1) = (a + k) + 1 := by omega
    rw [e, octal_fixed, ih (v / 8), octal_fixed, Nat.div_div_eq_div_mul, List.append_assoc]
    congr 2
    rw [pow_succ, Nat.mul_comm]

/-- Below 8^7 the text `%07o` prints is the seven low digits. -/
theorem printf_octal_7_small (v : Nat) (hv : v < 8 ^ 7) : printf_octal 7 v = octal_fixed 7 v := by
  have hmod : v % 2 ^ 32 = v := Nat.mod_eq_of_lt (lt_trans hv (by decide))
  have hsplit : octal_fixed 11 v = octal_fixed 4 0 ++ octal_fixed 7 v := by
    have := octal_fixed_add 4 7 v
    rw [Nat.div_eq_of_lt hv] at this
    exact this
  have h4 : (octal_fixed 4 0).length = 4 := octal_fixed_length 4 0
  simp only [printf_octal, hmod, hsplit]
  have e : 11 - 7 = 4 := rfl
  rw [e, List.take_left' h4, List.drop_left' h4]
  rfl

/-- The bytes `snprintf(dst, 8, "%07o", v)` stores: seven octal digits and a terminator. -/
theorem snprintf_octal_7_digits (v : Nat) :
    ∃ digits : List Nat, snprintf_octal 8 7 v = digits ++ [0] ∧ digits.length = 7 ∧
      (∀ d ∈ digits, 48 ≤ d ∧ d ≤ 55) ∧ (v < 8 ^ 7 → digits = octal_fixed 7 v) := by
  have hlen : 7 ≤ (printf_octal 7 v).length := by
    simp only [printf_octal, List.length_append, List.length_drop, octal_fixed_length]
    omega
  refine ⟨(printf_octal 7 v).take 7, rfl, ?_, ?_, ?_⟩
  · rw [List.length_take]; omega
  · intro d hd
    have hd1 := List.mem_of_mem_take hd
    simp only [printf_octal, List.mem_append] at hd1
    rcases hd1 with h | h
    · exact octal_fixed_digits 11 _ d
        (List.mem_of_mem_take (List.dropWhile_subset _ h))
    · exact octal_fixed_digits 11 _ d (List.mem_of_mem_drop h)
  · intro hv
    rw [printf_octal_7_small v hv]
    exact List.take_of_length_le (le_of_eq (octal_fixed_length 7 v))

/-! ## Lemmas: the index of the terminator in the copy loops -/

/-- The instrumented content loop leaves the file system `copy_contents` leaves. -/
theorem copy_contents_run_fs (fuel : Nat) : ∀ (fs : FS) (archive_name : CStr) (rf : FILE)
    (buf stored : List Nat),
    without_record (copy_contents_run fuel fs archive_name rf buf stored)
      = copy_contents fuel fs archive_name rf buf := by
  induction fuel with
  | zero => intro fs archive_name rf buf stored; rfl
  | succ n ih =>
    intro fs archive_name rf buf stored
    simp only [copy_contents_run, copy_contents]
    split
    · exact ih _ _ _ _ _
    · rfl

theorem chunk_sizes_zero : chunk_sizes 0 = [] := by
  decide

theorem chunk_sizes_short (n : Nat) (h0 : 0 < n) (h : n < 512) : chunk_sizes n = [n] := by
  have e1 : n / 512 = 0 := Nat.div_eq_of_lt h
  have e2 : n % 512 = n := Nat.mod_eq_of_lt h
  have e3 : ¬ n = 0 := by omega
  simp only [chunk_sizes, e1, e2, e3, if_false, List.replicate_zero, List.nil_append]

theorem chunk_sizes_full (n : Nat) (h : 512 ≤ n) :
    chunk_sizes n = 512 :: chunk_sizes (n - 512) := by
  have e1 : n / 512 = (n - 512) / 512 + 1 := by omega
  have e2 : n % 512 = (n - 512) % 512 := by omega
  simp only [chunk_sizes, e1, e2, List.replicate_succ, List.cons_append]

/-- The indices at which the content loop stores the terminator are the chunk sizes of
what is left of the source. -/
theorem copy_contents_run_spec (fuel : Nat) : ∀ (fs : FS) (archive_name src : CStr)
    (pos : Nat) (d stored : List Nat), src ≠ archive_name → fs src = some d →
    (d.length - pos + 511) / 512 + 1 ≤ fuel →
    ∃ fs1, copy_contents_run fuel fs archive_name ⟨src, pos⟩ (memset 0 MAX_MSG_LEN) stored
      = Outcome.returned (fs1, stored ++ chunk_sizes (d.length - pos)) := by
  induction fuel with
  | zero => intro fs archive_name src pos d stored _ _ h; omega
  | succ n ih =>
    intro fs archive_name src pos d stored hne hsrc hfuel
    have hread : read_bytes fs ⟨src, pos⟩ MAX_MSG_LEN = (d.drop pos).take 512 := by
      simp [read_bytes, hsrc, MAX_MSG_LEN]
    have hlen : ((d.drop pos).take 512).length = min 512 (d.length - pos) := by simp
    simp only [copy_contents_run, fread, hread]
    by_cases hz : 0 < ((d.drop pos).take 512).length
    · simp only [hz, if_true]
      generalize hblk : ((d.drop pos).take 512
        ++ (memset 0 MAX_MSG_LEN).drop ((d.drop pos).take 512).length).set
          ((d.drop pos).take 512).length 0 = blk
      have h1 : (fwrite fs archive_name blk) src = some d := by
        rw [fwrite_other _ _ _ _ hne]; exact hsrc
      have hf : (d.length - (pos + ((d.drop pos).take 512).length) + 511) / 512 + 1 ≤ n := by
        rw [hlen]; rw [hlen] at hz
        omega
      obtain ⟨fs1, e1⟩ := ih (fwrite fs archive_name blk) archive_name src
        (pos + ((d.drop pos).take 512).length) d (stored ++ [((d.drop pos).take 512).length])
        hne h1 hf
      refine ⟨fs1, ?_⟩
      rw [hlen] at hz
      have hcs : min 512 (d.length - pos)
          :: chunk_sizes (d.length - (pos + min 512 (d.length - pos)))
          = chunk_sizes (d.length - pos) := by
        by_cases hlong : 512 ≤ d.length - pos
        · have e : min 512 (d.length - pos) = 512 := by omega
          have e2 : d.length - (pos + 512) = d.length - pos - 512 := by omega
          rw [e, chunk_sizes_full _ hlong, e2]
        · have e : min 512 (d.length - pos) = d.length - pos := by omega
          have e0 : d.length - (pos + (d.length - pos)) = 0 := by omega
          rw [e, e0, chunk_sizes_zero, chunk_sizes_short _ (by omega) (by omega)]
      rw [e1, List.append_assoc, List.singleton_append, hlen, hcs]
    · simp only [hz, if_false]
      refine ⟨fs, ?_⟩
      have e0 : d.length - pos = 0 := by
        rw [hlen] at hz
        omega
      rw [e0, chunk_sizes_zero, List.append_nil]

/-- For a source of 512 bytes or more the first index at which the content loop stores
the terminator is 512, one past the last element of the buffer. -/
theorem copy_contents_run_full_chunk (fuel : Nat) (fs : FS) (archive_name src : CStr)
    (d : List Nat) (hne : src ≠ archive_name) (hsrc : fs src = some d)
    (hlong : 512 ≤ d.length) (hfuel : d.length / 512 + 2 ≤ fuel) :
    ∃ fs1, copy_contents_run fuel fs archive_name ⟨src, 0⟩ (memset 0 MAX_MSG_LEN) []
      = Outcome.returned (fs1, 512 :: chunk_sizes (d.length - 512)) := by
  obtain ⟨fs1, e⟩ := copy_contents_run_spec fuel fs archive_name src 0 d [] hne hsrc
    (by omega)
  refine ⟨fs1, ?_⟩
  rw [e, List.nil_append, Nat.sub_zero, chunk_sizes_full _ hlong]

/-! ## Lemmas: the header scans on an archive without a footer -/

/-- A read at or past the end of the file obtains nothing and leaves the object alone. -/
theorem fread_eof (fs : FS) (archive_name : CStr) (data buf : List Nat) (pos n : Nat)
    (hfs : fs archive_name = some data) (hpos : data.length ≤ pos) :
    fread fs ⟨archive_name, pos⟩ buf n = (⟨archive_name, pos⟩, buf, 0) := by
  have hr : read_bytes fs ⟨archive_name, pos⟩ n = [] := by
    simp only [read_bytes, hfs, Option.getD_some, List.drop_of_length_le hpos, List.take_nil]
  simp only [fread, hr, List.length_nil, Nat.add_zero, List.drop_zero, List.nil_append]

/-- One round of the scan of List over a well-formed member. -/
theorem list_member_step (fs : FS) (archive_name : CStr) (m : Member) (pre rest old_h : List Nat)
    (size : Option Int) (files : List CStr) (visited : List Nat) (k : Nat)
    (hfs : fs archive_name = some (pre ++ m.header ++ (pad_to_block m.content ++ rest)))
    (hok : m.ok) (hsize : m.content.length + 512 ≤ 2 ^ 31) (ho : old_h.length ≤ 512) :
    get_archive_file_list_loop (k + 1) fs
        (fread fs ⟨archive_name, pre.length⟩ old_h BLOCK).1
        (fread fs ⟨archive_name, pre.length⟩ old_h BLOCK).2.1 size files visited
      = get_archive_file_list_loop k fs
          (fread fs ⟨archive_name, (pre ++ m.header ++ pad_to_block m.content).length⟩
            m.header BLOCK).1
          (fread fs ⟨archive_name, (pre ++ m.header ++ pad_to_block m.content).length⟩
            m.header BLOCK).2.1
          (some (m.content.length : Int))
          (if file_list_contains files m.name = 0 then file_list_add files m.name else files)
          (visited ++ [(pre ++ m.header ++ pad_to_block m.content).length]) := by
  obtain ⟨hlen, hne, hname, text, htext, hscan⟩ := hok
  rw [fread_block fs archive_name pre _ _ old_h hfs hlen ho]
  obtain ⟨x, xs, hx⟩ : ∃ x xs, m.name = x :: xs := by
    cases hn : m.name with
    | nil => exact absurd hn hne
    | cons x xs => exact ⟨x, xs, rfl⟩
  obtain ⟨hhead, hx0⟩ := cstr_at_head m.header f_name.off x xs (hx ▸ hname)
  have hbc := block_count_natCast m.content.length
  have hpadlen := pad_to_block_length m.content
  have hrange : ¬ (block_count (m.content.length : Int) * 512 < -(2 ^ 31)
      ∨ 2 ^ 31 ≤ block_count (m.content.length : Int) * 512) := by
    rw [hbc]
    have h31 : (2 : Int) ^ 31 = 2147483648 := by norm_num
    rw [h31]
    omega
  have hseek : fseek_cur ⟨archive_name, pre.length + 512⟩
      (block_count (m.content.length : Int) * 512)
      = ⟨archive_name, (pre ++ m.header ++ pad_to_block m.content).length⟩ := by
    have hnn : (0 : Int) ≤ ((pre.length + 512 : Nat) : Int)
        + (((m.content.length + 511) / 512 : Nat) : Int) * 512 := by omega
    rw [fseek_cur, hbc]
    simp only [hnn, if_true, List.length_append, hlen, hpadlen]
    congr 1
    omega
  simp only [get_archive_file_list_loop, hhead, hx0, if_false, htext, hscan, hname, hrange,
    hseek]

/-- Once the stream is at or past the end of the file and the header object holds a
well-formed header, the scan of List goes round without end. -/
theorem list_loop_eof (fs : FS) (archive_name : CStr) (data : List Nat) (m : Member)
    (hfs : fs archive_name = some data) (hok : m.ok)
    (hsize : m.content.length + 512 ≤ 2 ^ 31) (fuel : Nat) :
    ∀ (pos : Nat) (size : Option Int) (files : List CStr) (visited : List Nat),
    data.length ≤ pos →
    get_archive_file_list_loop fuel fs ⟨archive_name, pos⟩ m.header size files visited
      = Outcome.running := by
  obtain ⟨hlen, hne, hname, text, htext, hscan⟩ := hok
  obtain ⟨x, xs, hx⟩ : ∃ x xs, m.name = x :: xs := by
    cases hn : m.name with
    | nil => exact absurd hn hne
    | cons x xs => exact ⟨x, xs, rfl⟩
  obtain ⟨hhead, hx0⟩ := cstr_at_head m.header f_name.off x xs (hx ▸ hname)
  have hbc := block_count_natCast m.content.length
  have hrange : ¬ (block_count (m.content.length : Int) * 512 < -(2 ^ 31)
      ∨ 2 ^ 31 ≤ block_count (m.content.length : Int) * 512) := by
    rw [hbc]
    have h31 : (2 : Int) ^ 31 = 2147483648 := by norm_num
    rw [h31]
    omega
  induction fuel with
  | zero => intro pos size files visited _; rfl
  | succ k ih =>
    intro pos size files visited hpos
    have hseek : fseek_cur ⟨archive_name, pos⟩ (block_count (m.content.length : Int) * 512)
        = ⟨archive_name, pos + 512 * ((m.content.length + 511) / 512)⟩ := by
      have hnn : (0 : Int) ≤ ((pos : Nat) : Int)
          + (((m.content.length + 511) / 512 : Nat) : Int) * 512 := by omega
      rw [fseek_cur, hbc]
      simp only [hnn, if_true]
      congr 1
      omega
    have hread := fread_eof fs archive_name data m.header
      (pos + 512 * ((m.content.length + 511) / 512)) BLOCK hfs (by omega)
    simp only [get_archive_file_list_loop, hhead, hx0, if_false, htext, hscan, hname, hrange,
      hseek, hread]
    exact ih _ _ _ _ (by omega)

/-- On an archive made of one or more well-formed members and no footer, the scan of
List uses up any number of rounds. -/
theorem list_scan_footerless (fs : FS) (archive_name : CStr) :
    ∀ (ms : List Member) (pre old_h : List Nat) (size : Option Int) (files : List CStr)
      (visited : List Nat) (fuel : Nat),
    ms ≠ [] → fs archive_name = some (pre ++ members_bytes ms) →
    (∀ m ∈ ms, m.ok ∧ m.content.length + 512 ≤ 2 ^ 31) → old_h.length ≤ 512 →
    get_archive_file_list_loop fuel fs
        (fread fs ⟨archive_name, pre.length⟩ old_h BLOCK).1
        (fread fs ⟨archive_name, pre.length⟩ old_h BLOCK).2.1 size files visited
      = Outcome.running := by
  intro ms
  induction ms with
  | nil => intro _ _ _ _ _ _ h; exact absurd rfl h
  | cons m rest ih =>
    intro pre old_h size files visited fuel _ hfs hok ho
    obtain ⟨hmok, hmsize⟩ := hok m (List.mem_cons_self _ _)
    cases fuel with
    | zero => rfl
    | succ k =>
      have hfs1 : fs archive_name
          = some (pre ++ m.header ++ (pad_to_block m.content ++ members_bytes rest)) := by
        rw [hfs]; simp only [members_bytes, List.append_assoc]
      rw [list_member_step fs archive_name m pre _ old_h size files visited k hfs1 hmok hmsize ho]
      cases hrest : rest with
      | nil =>
        have hfs2 : fs archive_name = some (pre ++ m.header ++ pad_to_block m.content) := by
          rw [hfs1, hrest]; simp only [members_bytes, List.append_nil, List.append_assoc]
        rw [fread_eof fs archive_name _ m.header _ BLOCK hfs2 (le_refl _)]
        exact list_loop_eof fs archive_name _ m hfs2 hmok hmsize k _ _ _ _ (le_refl _)
      | cons m2 rest2 =>
        have hfs2 : fs archive_name
            = some ((pre ++ m.header ++ pad_to_block m.content) ++ members_bytes rest) := by
          rw [hfs1]; simp only [List.append_assoc]
        have := ih (pre ++ m.header ++ pad_to_block m.content) m.header
          (some (m.content.length : Int))
          (if file_list_contains files m.name = 0 then file_list_add files m.name else files)
          (visited ++ [(pre ++ m.header ++ pad_to_block m.content).length]) k
          (by rw [hrest]; exact List.cons_ne_nil _ _) hfs2
          (fun y hy => hok y (List.mem_cons_of_mem _ hy)) (le_of_eq hmok.1)
        exact this

/-- At or past the end of the archive the loop over full blocks reads nothing: the stream
stays where it is and the archive is as it was. -/
theorem extract_full_blocks_eof (archive_name name : CStr) (data : List Nat) (pos : Nat)
    (hne : name ≠ archive_name) (hpos : data.length ≤ pos) (n : Nat) :
    ∀ (fs : FS) (buf : List Nat), fs archive_name = some data →
    ∃ fs2 buf2, extract_full_blocks n fs ⟨archive_name, pos⟩ name buf
        = (fs2, ⟨archive_name, pos⟩, buf2) ∧
      fs2 archive_name = some data := by
  induction n with
  | zero => intro fs buf hd; exact ⟨fs, buf, rfl, hd⟩
  | succ k ih =>
    intro fs buf hd
    simp only [extract_full_blocks, fread_eof fs archive_name data buf pos 512 hd hpos]
    exact ih (fwrite fs name (buf.take 512)) buf
      (by rw [fwrite_other _ _ _ _ (Ne.symm hne)]; exact hd)

/-- One round of the scan of Extract over a well-formed, non-empty member with a plain
file name. -/
theorem extract_loop_member (fs : FS) (archive_name : CStr) (m : Member)
    (pre rest old_h visited : List Nat) (k : Nat)
    (hfs : fs archive_name = some (pre ++ m.header ++ (pad_to_block m.content ++ rest)))
    (hok : m.ok) (hpos : m.content.length ≠ 0) (hself : m.name ≠ archive_name)
    (hplain : plain_name m.name = true) (ho : old_h.length ≤ 512) :
    ∃ fs3, fs3 archive_name = fs archive_name ∧
      extract_loop (k + 1) fs
          (fread fs ⟨archive_name, pre.length⟩ old_h BLOCK).1
          (fread fs ⟨archive_name, pre.length⟩ old_h BLOCK).2.1 visited
        = extract_loop k fs3
            (fread fs3 ⟨archive_name, (pre ++ m.header ++ pad_to_block m.content).length⟩
              m.header BLOCK).1
            (fread fs3 ⟨archive_name, (pre ++ m.header ++ pad_to_block m.content).length⟩
              m.header BLOCK).2.1
            (visited ++ [(pre ++ m.header ++ pad_to_block m.content).length]) := by
  obtain ⟨hlen, hne, hname, text, htext, hscan⟩ := hok
  rw [fread_block fs archive_name pre _ _ old_h hfs hlen ho]
  obtain ⟨x, xs, hx⟩ : ∃ x xs, m.name = x :: xs := by
    cases hn : m.name with
    | nil => exact absurd hn hne
    | cons x xs => exact ⟨x, xs, rfl⟩
  obtain ⟨hhead, hx0⟩ := cstr_at_head m.header f_name.off x xs (hx ▸ hname)
  have hpadlen := pad_to_block_length m.content
  have h1 : (m.content.length : Int).tmod 512 = ((m.content.length % 512 : Nat) : Int) :=
    (Int.ofNat_tmod _ 512).symm
  have hbc : (if ((m.content.length % 512 : Nat) : Int) = 0
      then (m.content.length : Int).tdiv 512 else (m.content.length : Int).tdiv 512 + 1)
      = (((m.content.length + 511) / 512 : Nat) : Int) := by
    have := block_count_natCast m.content.length
    simp only [block_count, h1] at this
    exact this
  have hq : ((((m.content.length + 511) / 512 : Nat) : Int) - 1).toNat
      = (m.content.length + 511) / 512 - 1 := by omega
  have hnonneg : ¬ (((m.content.length % 512 : Nat) : Int) < 0) := by omega
  have hlb : (((m.content.length % 512 : Nat) : Int)).toNat = m.content.length % 512 := by
    omega
  have hqr : 512 * ((m.content.length + 511) / 512 - 1) + m.content.length % 512
      ≤ m.content.length := by omega
  obtain ⟨fs2, f1, buf1, s1, s2, _, _, s5⟩ := extract_member_step fs archive_name m pre _
    ((m.content.length + 511) / 512 - 1) (m.content.length % 512) hfs hlen hself hqr
  have hseek : fseek_cur ⟨archive_name, pre.length + 512
        + (512 * ((m.content.length + 511) / 512 - 1) + m.content.length % 512)⟩
      (512 - ((m.content.length % 512 : Nat) : Int))
      = ⟨archive_name, (pre ++ m.header ++ pad_to_block m.content).length⟩ := by
    have hnn : (0 : Int) ≤ ((pre.length + 512
        + (512 * ((m.content.length + 511) / 512 - 1) + m.content.length % 512) : Nat) : Int)
        + (512 - ((m.content.length % 512 : Nat) : Int)) := by omega
    rw [fseek_cur]
    simp only [hnn, if_true, List.length_append, hlen, hpadlen]
    congr 1
    omega
  have hentry := path_entry_plain m.name hplain
  refine ⟨fwrite fs2 m.name
    ((fread fs2 f1 buf1 (m.content.length % 512)).2.1.take (m.content.length % 512)), s2, ?_⟩
  simp only [extract_loop, hhead, hx0, if_false, htext, hscan, hname, hentry, h1, hbc, hq,
    s1, hnonneg, hlb, s5, hseek]

/-- Once the stream is at or past the end of the archive and the header object holds a
well-formed header with a plain file name, the scan of Extract goes round without end. -/
theorem extract_loop_eof (archive_name : CStr) (data : List Nat) (m : Member)
    (hok : m.ok) (hself : m.name ≠ archive_name) (hplain : plain_name m.name = true)
    (fuel : Nat) :
    ∀ (fs : FS) (pos : Nat) (visited : List Nat),
    fs archive_name = some data → data.length ≤ pos →
    extract_loop fuel fs ⟨archive_name, pos⟩ m.header visited = Outcome.running := by
  obtain ⟨hlen, hne, hname, text, htext, hscan⟩ := hok
  obtain ⟨x, xs, hx⟩ : ∃ x xs, m.name = x :: xs := by
    cases hn : m.name with
    | nil => exact absurd hn hne
    | cons x xs => exact ⟨x, xs, rfl⟩
  obtain ⟨hhead, hx0⟩ := cstr_at_head m.header f_name.off x xs (hx ▸ hname)
  have h1 : (m.content.length : Int).tmod 512 = ((m.content.length % 512 : Nat) : Int) :=
    (Int.ofNat_tmod _ 512).symm
  have hbc : (if ((m.content.length % 512 : Nat) : Int) = 0
      then (m.content.length : Int).tdiv 512 else (m.content.length : Int).tdiv 512 + 1)
      = (((m.content.length + 511) / 512 : Nat) : Int) := by
    have := block_count_natCast m.content.length
    simp only [block_count, h1] at this
    exact this
  have hq : ((((m.content.length + 511) / 512 : Nat) : Int) - 1).toNat
      = (m.content.length + 511) / 512 - 1 := by omega
  have hnonneg : ¬ (((m.content.length % 512 : Nat) : Int) < 0) := by omega
  have hlb : (((m.content.length % 512 : Nat) : Int)).toNat = m.content.length % 512 := by
    omega
  have hentry := path_entry_plain m.name hplain
  induction fuel with
  | zero => intro fs pos visited _ _; rfl
  | succ k ih =>
    intro fs pos visited hfs hpos
    obtain ⟨fs2, buf2, s1, s2⟩ := extract_full_blocks_eof archive_name m.name data pos hself
      hpos ((m.content.length + 511) / 512 - 1) (fopen_w fs m.name) (memset 0 MAX_MSG_LEN)
      (by rw [fopen_w, put_other _ _ _ _ (Ne.symm hself)]; exact hfs)
    have hread1 := fread_eof fs2 archive_name data buf2 pos (m.content.length % 512) s2 hpos
    have hfs3 : (fwrite fs2 m.name (buf2.take (m.content.length % 512))) archive_name
        = some data := by
      rw [fwrite_other _ _ _ _ (Ne.symm hself)]; exact s2
    have hseek : fseek_cur ⟨archive_name, pos⟩ (512 - ((m.content.length % 512 : Nat) : Int))
        = ⟨archive_name, pos + (512 - m.content.length % 512)⟩ := by
      have hnn : (0 : Int) ≤ ((pos : Nat) : Int)
          + (512 - ((m.content.length % 512 : Nat) : Int)) := by omega
      rw [fseek_cur]
      simp only [hnn, if_true]
      congr 1
      omega
    have hread2 := fread_eof (fwrite fs2 m.name (buf2.take (m.content.length % 512)))
      archive_name data m.header (pos + (512 - m.content.length % 512)) BLOCK hfs3 (by omega)
    simp only [extract_loop, hhead, hx0, if_false, htext, hscan, hname, hentry, h1, hbc, hq,
      s1, hnonneg, hlb, hread1, hseek, hread2]
    exact ih _ _ _ hfs3 (by omega)

/-- On an archive made of one or more well-formed, non-empty members with plain file
names and no footer, the scan of Extract uses up any number of rounds. -/
theorem extract_scan_footerless (archive_name : CStr) :
    ∀ (ms : List Member) (fs : FS) (pre old_h : List Nat) (visited : List Nat) (fuel : Nat),
    ms ≠ [] → fs archive_name = some (pre ++ members_bytes ms) →
    (∀ m ∈ ms, m.ok ∧ m.content.length ≠ 0 ∧ m.name ≠ archive_name ∧
      plain_name m.name = true) → old_h.length ≤ 512 →
    extract_loop fuel fs
        (fread fs ⟨archive_name, pre.length⟩ old_h BLOCK).1
        (fread fs ⟨archive_name, pre.length⟩ old_h BLOCK).2.1 visited
      = Outcome.running := by
  intro ms
  induction ms with
  | nil => intro _ _ _ _ _ h; exact absurd rfl h
  | cons m rest ih =>
    intro fs pre old_h visited fuel _ hfs hok ho
    obtain ⟨hmok, hmpos, hmself, hmplain⟩ := hok m (List.mem_cons_self _ _)
    cases fuel with
    | zero => rfl
    | succ k =>
      have hfs1 : fs archive_name
          = some (pre ++ m.header ++ (pad_to_block m.content ++ members_bytes rest)) := by
        rw [hfs]; simp only [members_bytes, List.append_assoc]
      obtain ⟨fs3, e1, e2⟩ := extract_loop_member fs archive_name m pre _ old_h visited k hfs1
        hmok hmpos hmself hmplain ho
      rw [e2]
      cases hrest : rest with
      | nil =>
        have hfs2 : fs3 archive_name = some (pre ++ m.header ++ pad_to_block m.content) := by
          rw [e1, hfs1, hrest]; simp only [members_bytes, List.append_nil, List.append_assoc]
        rw [fread_eof fs3 archive_name _ m.header _ BLOCK hfs2 (le_refl _)]
        exact extract_loop_eof archive_name _ m hmok hmself hmplain k fs3 _ _ hfs2 (le_refl _)
      | cons m2 rest2 =>
        have hfs2 : fs3 archive_name
            = some ((pre ++ m.header ++ pad_to_block m.content) ++ members_bytes rest) := by
          rw [e1, hfs1]; simp only [List.append_assoc]
        exact ih fs3 (pre ++ m.header ++ pad_to_block m.content) m.header
          (visited ++ [(pre ++ m.header ++ pad_to_block m.content).length]) k
          (by rw [hrest]; exact List.cons_ne_nil _ _) hfs2
          (fun y hy => hok y (List.mem_cons_of_mem _ hy)) (le_of_eq hmok.1)

/-- The size field of the header of a member of 2^31 bytes reads back as -2^31. -/
theorem size_text_of_2GiB (env : Env) (fs : FS) (m : CStr) (d : List Nat)
    (hd : fs m = some d) (henc : (fill_tar_header env fs m).1 = 0)
    (hlen : d.length = 2147483648) :
    ∃ text, cstr_at (fill_tar_header env fs m).2 f_size.off = some text ∧
      sscanf_octal text = some (-2147483648) := by
  have htext := fill_tar_header_size_text env fs m d hd henc
  rw [hlen] at htext
  have hmod : 2147483648 % 2 ^ 32 = 2147483648 := by decide
  rw [hmod] at htext
  refine ⟨_, htext, ?_⟩
  rw [sscanf_octal_fixed 2147483648 (by decide)]
  decide

/-- The scan of List on an archive whose first header has the size field of a member of
2^31 bytes and whose next block is all zero: the seek over the content is refused, the
zero block is taken for a header, and the scan stops. -/
theorem list_after_oversized_zeros (fs1 : FS) (archive_name : CStr) (hdr rest : List Nat)
    (text name : CStr) (n : Nat)
    (hfs : fs1 archive_name = some (hdr ++ List.replicate 512 0 ++ rest))
    (hlen : hdr.length = 512)
    (hname : cstr_at hdr f_name.off = some name) (hne : name ≠ [])
    (htext : cstr_at hdr f_size.off = some text)
    (hscan : sscanf_octal text = some (-2147483648)) :
    get_archive_file_list (n + 1 + 1) fs1 archive_name [] = Outcome.returned (0, [name]) := by
  have hopen : fopen_r fs1 archive_name = some ⟨archive_name, 0⟩ := by
    simp only [fopen_r, hfs]
  have hfs0 : fs1 archive_name = some ([] ++ hdr ++ (List.replicate 512 0 ++ rest)) := by
    rw [hfs]; simp only [List.nil_append, List.append_assoc]
  have r0 := fread_block fs1 archive_name [] hdr _ [] hfs0 hlen (by simp)
  have r1 := fread_block fs1 archive_name hdr (List.replicate 512 0) rest hdr hfs
    (List.length_replicate _ _) (le_of_eq hlen)
  simp only [List.length_nil, hlen] at r0 r1
  obtain ⟨x, xs, hx⟩ : ∃ x xs, name = x :: xs := by
    cases hn : name with
    | nil => exact absurd hn hne
    | cons x xs => exact ⟨x, xs, rfl⟩
  obtain ⟨hhead, hx0⟩ := cstr_at_head hdr f_name.off x xs (hx ▸ hname)
  have hbc : block_count (-2147483648) * 512 = -2147483648 := by decide
  have hrange : ¬ ((-2147483648 : Int) < -(2 ^ 31) ∨ (2 : Int) ^ 31 ≤ -2147483648) := by decide
  have hseek1 : fseek_cur ⟨archive_name, 0 + 512⟩ (-2147483648) = ⟨archive_name, 0 + 512⟩ := by
    simp only [fseek_cur]; rfl
  have z1 : ((List.replicate 512 (0 : Nat)).drop f_name.off).head? = some 0 := by
    rw [List.drop_replicate]; rfl
  have c1 : file_list_contains [] name = 0 := by
    simp only [file_list_contains, List.not_mem_nil, if_false]
  simp only [get_archive_file_list, get_archive_file_list_run, hopen, r0]
  rw [get_archive_file_list_loop]
  simp only [hhead, hx0, if_false, htext, hscan, hname, hbc, hrange, hseek1, r1, c1, if_true]
  rw [get_archive_file_list_loop]
  simp only [z1, if_true, file_list_add, List.nil_append]

theorem fs_2GiB_zeros_x : fs_2GiB_zeros [120] = some (List.replicate (2 ^ 31) 0) := by
  simp only [fs_2GiB_zeros, if_true]

theorem fs_2GiB_zeros_encoded : (fill_tar_header env_ok fs_2GiB_zeros [120]).1 = 0 := by
  simp only [fill_tar_header, fs_2GiB_zeros_x, env_ok]

/-- The body of the archive of "x" of 2^31 zero bytes: the header and the content. -/
theorem body_of_2GiB_zeros :
    archive_body env_ok fs_2GiB_zeros [[120]]
      = (fill_tar_header env_ok fs_2GiB_zeros [120]).2 ++ List.replicate 512 0
        ++ (List.replicate 512 0 ++ List.replicate (2 ^ 31 - 1024) 0) := by
  have hl : (List.replicate (2 ^ 31) (0 : Nat)).length = 2 ^ 31 := List.length_replicate _ _
  have hpad : pad_to_block (List.replicate (2 ^ 31) 0) = List.replicate (2 ^ 31) 0 :=
    pad_to_block_aligned _ (by rw [hl]; decide)
  have e : 512 + (512 + (2 ^ 31 - 1024)) = 2 ^ 31 := by decide
  have hsplit : List.replicate 512 (0 : Nat)
      ++ (List.replicate 512 0 ++ List.replicate (2 ^ 31 - 1024) 0)
      = List.replicate (2 ^ 31) 0 := by
    rw [← List.replicate_add, ← List.replicate_add, e]
  simp only [archive_body, member_blocks, fs_2GiB_zeros_x, Option.getD_some, hpad,
    List.append_nil, List.append_assoc, hsplit]

/-- One round of the scan of Extract over a well-formed member whose name cannot be
opened for writing: the null stream is used unchecked. -/
theorem extract_loop_unopened (fs : FS) (archive_name : CStr) (m : Member)
    (pre rest old_h visited : List Nat) (k : Nat)
    (hfs : fs archive_name = some (pre ++ m.header ++ rest))
    (hok : m.ok) (hentry : path_entry m.name = none) (ho : old_h.length ≤ 512) :
    extract_loop (k + 1) fs
        (fread fs ⟨archive_name, pre.length⟩ old_h BLOCK).1
        (fread fs ⟨archive_name, pre.length⟩ old_h BLOCK).2.1 visited
      = Outcome.undefined := by
  obtain ⟨hlen, hne, hname, text, htext, hscan⟩ := hok
  rw [fread_block fs archive_name pre _ _ old_h hfs hlen ho]
  obtain ⟨x, xs, hx⟩ : ∃ x xs, m.name = x :: xs := by
    cases hn : m.name with
    | nil => exact absurd hn hne
    | cons x xs => exact ⟨x, xs, rfl⟩
  obtain ⟨hhead, hx0⟩ := cstr_at_head m.header f_name.off x xs (hx ▸ hname)
  simp only [extract_loop, hhead, hx0, if_false, htext, hscan, hname, hentry]

/-- On an archive made of one or more well-formed, non-empty members and no footer, where
every member name is a plain file name other than the archive's or cannot be opened at
all, the scan of Extract never returns: it either uses up any number of rounds or runs
into the unchecked null stream. -/
theorem extract_scan_footerless_any (archive_name : CStr) :
    ∀ (ms : List Member) (fs : FS) (pre old_h : List Nat) (visited : List Nat) (fuel : Nat),
    ms ≠ [] → fs archive_name = some (pre ++ members_bytes ms) →
    (∀ m ∈ ms, m.ok ∧ m.content.length ≠ 0 ∧
      (path_entry m.name = none ∨ (m.name ≠ archive_name ∧ plain_name m.name = true))) →
    old_h.length ≤ 512 →
    extract_loop fuel fs
        (fread fs ⟨archive_name, pre.length⟩ old_h BLOCK).1
        (fread fs ⟨archive_name, pre.length⟩ old_h BLOCK).2.1 visited = Outcome.running ∨
    extract_loop fuel fs
        (fread fs ⟨archive_name, pre.length⟩ old_h BLOCK).1
        (fread fs ⟨archive_name, pre.length⟩ old_h BLOCK).2.1 visited = Outcome.undefined := by
  intro ms
  induction ms with
  | nil => intro _ _ _ _ _ h; exact absurd rfl h
  | cons m rest ih =>
    intro fs pre old_h visited fuel _ hfs hok ho
    obtain ⟨hmok, hmpos, hmname⟩ := hok m (List.mem_cons_self _ _)
    cases fuel with
    | zero => exact Or.inl rfl
    | succ k =>
      have hfs1 : fs archive_name
          = some (pre ++ m.header ++ (pad_to_block m.content ++ members_bytes rest)) := by
        rw [hfs]; simp only [members_bytes, List.append_assoc]
      rcases hmname with hnone | ⟨hmself, hmplain⟩
      · exact Or.inr (extract_loop_unopened fs archive_name m pre _ old_h visited k hfs1 hmok
          hnone ho)
      · obtain ⟨fs3, e1, e2⟩ := extract_loop_member fs archive_name m pre _ old_h visited k hfs1
          hmok hmpos hmself hmplain ho
        rw [e2]
        cases hrest : rest with
        | nil =>
          have hfs2 : fs3 archive_name = some (pre ++ m.header ++ pad_to_block m.content) := by
            rw [e1, hfs1, hrest]; simp only [members_bytes, List.append_nil, List.append_assoc]
          rw [fread_eof fs3 archive_name _ m.header _ BLOCK hfs2 (le_refl _)]
          exact Or.inl (extract_loop_eof archive_name _ m hmok hmself hmplain k fs3 _ _ hfs2
            (le_refl _))
        | cons m2 rest2 =>
          have hfs2 : fs3 archive_name
              = some ((pre ++ m.header ++ pad_to_block m.content) ++ members_bytes rest) := by
            rw [e1, hfs1]; simp only [List.append_assoc]
          exact ih fs3 (pre ++ m.header ++ pad_to_block m.content) m.header
            (visited ++ [(pre ++ m.header ++ pad_to_block m.content).length]) k
            (by rw [hrest]; exact List.cons_ne_nil _ _) hfs2
            (fun y hy => hok y (List.mem_cons_of_mem _ hy)) (le_of_eq hmok.1)

/-! ## Lemmas: the update mode of the command line -/

/-- In update mode, once the listing has returned and a requested name is not among the
names it found, `main` prints the not-present message and exits with status 1 without
calling `append_files_to_archive`. -/
theorem update_after_list (fuel : Nat) (env : Env) (fs : FS)
    (prog flag archive : CStr) (files : List CStr) (r : Int) (names : List CStr)
    (hlist : get_archive_file_list fuel fs archive [] = Outcome.returned (r, names))
    (hmiss : ∃ n ∈ files, n ∉ names) :
    ∃ run, main fuel env fs (prog :: [45, 117] :: flag :: archive :: files)
        = Outcome.returned run ∧
      run.status = 1 ∧ run.stdout = [Printed.not_present] ∧ Call.append ∉ run.calls ∧
      run.fs = fs := by
  have hfiles : ∀ (l acc : List CStr), l.foldl file_list_add acc = acc ++ l := by
    intro l
    induction l with
    | nil => intro acc; simp
    | cons x rest ih => intro acc; simp [List.foldl_cons, ih, file_list_add]
  have hsub : file_list_is_subset files names = 0 := by
    obtain ⟨n, hn, hnot⟩ := hmiss
    have : ¬ ∀ name ∈ files, name ∈ names := fun hall => hnot (hall n hn)
    simp only [file_list_is_subset, this, if_false]
  have hlen : ¬ (prog :: [45, 117] :: flag :: archive :: files).length < 4 := by
    simp only [List.length_cons]; omega
  have hc : ¬ (([45, 117] : CStr) = [45, 99]) := by decide
  have ha : ¬ (([45, 117] : CStr) = [45, 97]) := by decide
  have ht : ¬ (([45, 117] : CStr) = [45, 116]) := by decide
  have hcalls : Call.append ∉ [Call.list] := by decide
  refine ⟨⟨1, [Printed.not_present], fs, [Call.list]⟩, ?_, rfl, rfl, hcalls, rfl⟩
  simp only [main, hlen, if_false, List.getD_cons_succ, List.getD_cons_zero, List.drop_succ_cons,
    List.drop_zero, hfiles, List.nil_append, hlist, hsub, if_true, hc, ha, ht]

/-- In update mode `main` is still running for as long as the listing is. -/
theorem update_while_list_runs (fuel : Nat) (env : Env) (fs : FS)
    (prog flag archive : CStr) (files : List CStr)
    (hlist : get_archive_file_list fuel fs archive [] = Outcome.running) :
    main fuel env fs (prog :: [45, 117] :: flag :: archive :: files) = Outcome.running := by
  have hlen : ¬ (prog :: [45, 117] :: flag :: archive :: files).length < 4 := by
    simp only [List.length_cons]; omega
  have hc : ¬ (([45, 117] : CStr) = [45, 99]) := by decide
  have ha : ¬ (([45, 117] : CStr) = [45, 97]) := by decide
  have ht : ¬ (([45, 117] : CStr) = [45, 116]) := by decide
  simp only [main, hlen, if_false, List.getD_cons_succ, List.getD_cons_zero, hlist, if_true,
    hc, ha, ht]

/-- The members "a.txt" of the concrete archives are well-formed. -/
theorem member_one_two_ok : member_one.ok ∧ member_two.ok :=
  ⟨stored_member_ok env_ok _ a_txt (by decide!) (by decide) (by decide) (by decide) (by decide),
   stored_member_ok env_ok _ a_txt (by decide!) (by decide) (by decide) (by decide) (by decide)⟩

/-! ## The claims -/

/-- C1 (the code at the failing input): the member "x" holds 512 bytes; `create_archive`
returns 0, `extract_files_from_archive` run on the archive in an empty directory
returns 0, and the file it leaves under "x" is empty. For comparison, a member "y" of
2 bytes comes back whole. -/
theorem C1_round_trip_loses_full_last_block :
    fs_x512 [120] = some (List.replicate 512 65) ∧
    status_and_file (create_archive 3 env_ok fs_x512 [97] [[120]]) [120]
      = Outcome.returned (0, some (List.replicate 512 65)) ∧
    status_and_file (create_then_extract 3 env_ok fs_x512 [97] [[120]]) [120]
      = Outcome.returned (0, some []) ∧
    status_and_file (create_then_extract 3 env_ok fs_xy [97] [[121]]) [121]
      = Outcome.returned (0, some [66, 67]) := by
  decide!

/-- C2: when every member of the list can be opened (the empty list included) and the
archive is not one of its own members, `create_archive` returns 0 and the archive holds,
per member in list order, the 512-byte header and the content zero-padded to the next
multiple of 512, then 1024 zero bytes; its length is the sum of
`512 + 512 * ceil(size / 512)` over the members plus 1024. -/
theorem C2_create_archive_layout (fuel : Nat) (env : Env) (fs : FS) (archive_name : CStr)
    (files : List CStr)
    (hopen : ∀ m ∈ files, fopen_r fs m ≠ none)
    (hself : archive_name ∉ files)
    (hfuel : ∀ m ∈ files, ((fs m).getD []).length / 512 + 2 ≤ fuel) :
    ∃ fs1, create_archive fuel env fs archive_name files = Outcome.returned (0, fs1) ∧
      fs1 archive_name = some (archive_body env fs files ++ List.replicate 1024 0) ∧
      (∀ m ∈ files, (fill_tar_header env fs m).2.length = 512 ∧
        (pad_to_block ((fs m).getD [])).length
          = 512 * ((((fs m).getD []).length + 511) / 512)) ∧
      (archive_body env fs files ++ List.replicate 1024 0).length
        = (files.map (fun m => 512 + 512 * ((((fs m).getD []).length + 511) / 512))).sum
          + 1024 := by
  obtain ⟨fs1, e1, e2, _⟩ := create_archive_spec fuel env fs archive_name files hopen hself hfuel
  refine ⟨fs1, e1, e2, ?_, ?_⟩
  · intro m _
    exact ⟨fill_tar_header_length env fs m, pad_to_block_length _⟩
  · rw [List.length_append, archive_body_length, List.length_replicate]

/-- C2, at one member "x" of 600 bytes, where the archive "a" comes out 2560 bytes long,
and at the empty list, where it comes out 1024 bytes long. -/
theorem C2_create_archive_layout_witness :
    ((∀ m ∈ [[120]], fopen_r fs_x600 m ≠ none) ∧ [97] ∉ [[120]] ∧
      ∃ fs1, create_archive 3 env_ok fs_x600 [97] [[120]] = Outcome.returned (0, fs1) ∧
        (fs1 [97]).map List.length = some 2560) ∧
    ∃ fs0, create_archive 0 env_ok fs_x600 [97] [] = Outcome.returned (0, fs0) ∧
      (fs0 [97]).map List.length = some 1024 := by
  refine ⟨⟨by decide, by decide, ?_⟩, ?_⟩
  · obtain ⟨fs1, e1, e2, _, e4⟩ := C2_create_archive_layout 3 env_ok fs_x600 [97] [[120]]
      (by decide) (by decide)
      (by simp only [fs_x600, List.mem_singleton, forall_eq, if_true, Option.getD_some,
        List.length_replicate]; decide)
    refine ⟨fs1, e1, ?_⟩
    rw [e2, Option.map_some', e4]
    simp only [fs_x600, List.map_cons, List.map_nil, if_true, Option.getD_some,
      List.length_replicate, List.sum_cons, List.sum_nil]
    rfl
  · obtain ⟨fs0, e1, e2, _, e4⟩ := C2_create_archive_layout 0 env_ok fs_x600 [97] []
      (by decide) (by decide) (by decide)
    refine ⟨fs0, e1, ?_⟩
    rw [e2, Option.map_some', e4]
    rfl

/-- C3 (refutation as stated): the member "x" holds 2^31 bytes, the first "b" and the
others zero, and is encoded successfully. `create_archive` returns 0, and on the
archive `get_archive_file_list` returns 0 with the list "x", "b" where the claim has the
list "x": the size is read back through an `int` as -2^31, the seek over the content is
refused, and the first content block is taken for a header. -/
theorem C3_list_after_member_of_2GiB :
    (fs_2GiB [120]).map List.length = some (2 ^ 31) ∧
    (fill_tar_header env_ok fs_2GiB [120]).1 = 0 ∧
    (∃ fs1, create_archive 4194306 env_ok fs_2GiB [97] [[120]] = Outcome.returned (0, fs1) ∧
      get_archive_file_list 3 fs1 [97] [] = Outcome.returned (0, [[120], [98]])) ∧
    first_occurrences [[120]] ≠ [[120], [98]] := by
  refine ⟨?_, fs_2GiB_encoded, ?_, by decide⟩
  · rw [fs_2GiB_x, Option.map_some', fs_2GiB_size]; rfl
  · obtain ⟨fs1, e1, e2, _⟩ := create_archive_spec 4194306 env_ok fs_2GiB [97] [[120]]
      (fun m hm => fopen_r_of_encoded env_ok fs_2GiB m
        (by rw [List.mem_singleton.mp hm]; exact fs_2GiB_encoded))
      (by decide)
      (fun m hm => by
        rw [List.mem_singleton.mp hm, fs_2GiB_x, Option.getD_some, fs_2GiB_size])
    exact ⟨fs1, e1, list_of_2GiB_member fs1 0 e2⟩

/-- C3 (as amended): for members with names of 1 to 99 non-zero bytes, each encoded
successfully by `fill_tar_header` and at most 2^31 - 512 bytes long, `create_archive`
returns 0 and `get_archive_file_list`, called on the archive with an empty list, returns
0 with exactly the member names, later duplicates removed, in first-occurrence order; the
headers it reads lie at the offsets of the member headers in turn, each
`512 + 512 * ceil(size / 512)` after the one before, the first footer block last. -/
theorem C3_list_of_created_archive (fuel : Nat) (env : Env) (fs : FS) (archive_name : CStr)
    (files : List CStr)
    (hself : archive_name ∉ files)
    (hname : ∀ m ∈ files, 1 ≤ m.length ∧ m.length ≤ 99 ∧ ∀ b ∈ m, b ≠ 0)
    (henc : ∀ m ∈ files, (fill_tar_header env fs m).1 = 0)
    (hsize : ∀ m ∈ files, ((fs m).getD []).length + 512 ≤ 2 ^ 31)
    (hfuel : ∀ m ∈ files, ((fs m).getD []).length / 512 + 2 ≤ fuel)
    (hscan : files.length + 1 ≤ fuel) :
    ∃ fs1, create_archive fuel env fs archive_name files = Outcome.returned (0, fs1) ∧
      get_archive_file_list fuel fs1 archive_name []
        = Outcome.returned (0, first_occurrences files) ∧
      get_archive_file_list_run fuel fs1 archive_name []
        = Outcome.returned (0, first_occurrences files,
            header_offsets (files.map (fun m => ((fs m).getD []).length))) := by
  obtain ⟨fs1, e1, e2, _⟩ := create_archive_spec fuel env fs archive_name files
    (fun m hm => fopen_r_of_encoded env fs m (henc m hm)) hself hfuel
  have hfs : fs1 archive_name = some (members_bytes (files.map (stored_member env fs))
      ++ List.replicate 1024 0 ++ []) := by
    rw [e2, archive_body_eq_members, List.append_nil]
  have hok := stored_members_ok env fs files hname henc hsize
  have hlen : (files.map (stored_member env fs)).length + 1 ≤ fuel := by
    rw [List.length_map]; exact hscan
  refine ⟨fs1, e1, ?_, ?_⟩
  · rw [list_members fs1 archive_name _ [] [] fuel hfs hok hlen, stored_member_names,
      collect_names_nil]
  · rw [list_run_members fs1 archive_name _ [] [] fuel hfs hok hlen, stored_member_names,
      collect_names_nil, stored_member_sizes]

/-- C3, at the members "x", "y", "x" again: the list comes out as "x", "y". -/
theorem C3_list_of_created_archive_witness :
    ∃ fs1, create_archive 4 env_ok fs_xy [97] [[120], [121], [120]]
        = Outcome.returned (0, fs1) ∧
      get_archive_file_list 4 fs1 [97] []
        = Outcome.returned (0, first_occurrences [[120], [121], [120]]) ∧
      get_archive_file_list_run 4 fs1 [97] []
        = Outcome.returned (0, first_occurrences [[120], [121], [120]],
            header_offsets ([[120], [121], [120]].map (fun m => ((fs_xy m).getD []).length))) :=
  C3_list_of_created_archive 4 env_ok fs_xy [97] [[120], [121], [120]]
    (by decide) (by decide) (by decide!) (by decide!) (by decide!) (by decide)

/-- C4 (refutation as stated): the existing file "a" of 1025 bytes is cut to 1 byte by
`remove_trailing_bytes`, `append_files_to_archive` with no members returns 0, and the
resulting file is 1025 bytes long, which is not a multiple of 512. -/
theorem C4_append_to_unaligned_file :
    ∃ fs1 data, append_files_to_archive 1 env_ok fs_odd [97] [] = Outcome.returned (0, fs1) ∧
      fs1 [97] = some data ∧ data.length = 1025 ∧ data.length % 512 ≠ 0 := by
  obtain ⟨fs1, e1, e2, _⟩ := append_spec 1 env_ok fs_odd [97] [] (List.replicate 1025 7)
    (by simp only [fs_odd, if_true]) (by decide) (by decide) (by decide)
  refine ⟨fs1, _, e1, e2, ?_, ?_⟩
  · simp only [without_footer, archive_body, List.length_append, List.length_replicate,
      List.length_take, List.length_nil]
    decide
  · simp only [without_footer, archive_body, List.length_append, List.length_replicate,
      List.length_take, List.length_nil]
    decide

/-- C4 (as amended): in an archive file that results from a `create_archive` call that
returns 0, or from an `append_files_to_archive` call that returns 0 on a file whose
length before the call was a multiple of 512, the last 1024 bytes are all zero and the
length is a multiple of 512. -/
theorem C4_footer_invariant (fuel : Nat) (env : Env) (fs fs1 : FS) (archive_name : CStr)
    (files : List CStr)
    (h : create_archive fuel env fs archive_name files = Outcome.returned (0, fs1) ∨
      (∃ old, fs archive_name = some old ∧ old.length % 512 = 0 ∧
        append_files_to_archive fuel env fs archive_name files = Outcome.returned (0, fs1))) :
    ∃ data, fs1 archive_name = some data ∧ 1024 ≤ data.length ∧
      data.drop (data.length - 1024) = List.replicate 1024 0 ∧ data.length % 512 = 0 := by
  have key : ∀ (a : List Nat) (fs0 : FS), fs0 archive_name = some a → a.length % 512 = 0 →
      create_archive_loop fuel env archive_name fs0 files = Outcome.returned (0, fs1) →
      ∃ data, fs1 archive_name = some data ∧ 1024 ≤ data.length ∧
        data.drop (data.length - 1024) = List.replicate 1024 0 ∧ data.length % 512 = 0 := by
    intro a fs0 ha hmod hret
    obtain ⟨extra, e1, e2, e3⟩ := create_archive_loop_blocks fuel env archive_name files fs0 a 0
      fs1 ha hret
    obtain ⟨body, hb⟩ := e3 rfl
    subst hb
    rw [List.length_append, List.length_replicate] at e2
    refine ⟨_, e1, ?_, ?_, ?_⟩
    · simp only [List.length_append, List.length_replicate]; omega
    · have hl : (a ++ (body ++ List.replicate 1024 0)).length - 1024 = (a ++ body).length := by
        simp only [List.length_append, List.length_replicate]; omega
      rw [hl, ← List.append_assoc, List.drop_left]
    · simp only [List.length_append, List.length_replicate]; omega
  rcases h with h | ⟨old, hold, hmod, h⟩
  · exact key [] (fopen_w fs archive_name) (put_same _ _ _) rfl h
  · have hopen_a : fopen_r fs archive_name = some ⟨archive_name, 0⟩ := by
      simp only [fopen_r, hold]
    have hfa : fopen_a fs archive_name = fs := by simp only [fopen_a, hold]
    simp only [append_files_to_archive, hopen_a, hfa, append_loop_eq] at h
    exact key (without_footer old) _ (remove_trailing_bytes_spec fs archive_name old hold).1
      (by rw [without_footer_length]; exact hmod) h

/-- C4, at the archive "a" created from "x" of 600 bytes. -/
theorem C4_footer_invariant_witness :
    ∃ fs1, create_archive 3 env_ok fs_x600 [97] [[120]] = Outcome.returned (0, fs1) ∧
      ∃ data, fs1 [97] = some data ∧ 1024 ≤ data.length ∧
        data.drop (data.length - 1024) = List.replicate 1024 0 ∧ data.length % 512 = 0 := by
  obtain ⟨fs1, e1, _, _⟩ := create_archive_spec 3 env_ok fs_x600 [97] [[120]]
    (by decide) (by decide)
    (by simp only [fs_x600, List.mem_singleton, forall_eq, if_true, Option.getD_some,
      List.length_replicate]; decide)
  exact ⟨fs1, e1, C4_footer_invariant 3 env_ok fs_x600 fs1 [97] [[120]] (Or.inl e1)⟩

/-- C5 (the code at the failing input): for the file named by the bytes 0xC3 0xA9
`fill_tar_header` returns 0, the checksum field reads 3845 and the unsigned sum of the
header bytes with the checksum field taken as spaces is 4357, which is 2 * 256 more. For
comparison, for the file named "y" the field and the unsigned sum are both 4114. -/
theorem C5_checksum_of_high_bytes :
    (fill_tar_header env_ok fs_accent [195, 169]).1 = 0 ∧
    stored_checksum (fill_tar_header env_ok fs_accent [195, 169]).2 = some 3845 ∧
    unsigned_checksum (fill_tar_header env_ok fs_accent [195, 169]).2 = 4357 ∧
    stored_checksum (fill_tar_header env_ok fs_xy [121]).2 = some 4114 ∧
    unsigned_checksum (fill_tar_header env_ok fs_xy [121]).2 = 4114 := by
  decide!

/-- C6 (refutation as stated): the archive "arc" holds the members "a.txt" with "one" and
"a.txt" with "two!" and no footer, and the update of "y", which is not in it, is
requested. The listing that `main` runs first never ends on that archive, so for every
bound on the number of rounds `main` is still running: it prints nothing and does not
exit. -/
theorem C6_update_on_footerless_archive :
    fs_footerless arc = some (members_bytes [member_one, member_two]) ∧
    [121] ∉ [member_one.name, member_two.name] ∧
    ∀ fuel, main fuel env_ok fs_footerless ([109] :: [45, 117] :: [45, 102] :: arc :: [[121]])
      = Outcome.running := by
  have hfs : fs_footerless arc = some (members_bytes [member_one, member_two]) := by
    simp only [fs_footerless, if_true]
  refine ⟨hfs, by decide, ?_⟩
  intro fuel
  apply update_while_list_runs
  have hopen : fopen_r fs_footerless arc = some ⟨arc, 0⟩ := by simp only [fopen_r, hfs]
  have := list_scan_footerless fs_footerless arc [member_one, member_two] [] [] none [] [0] fuel
    (by simp) (by rw [hfs]; rfl)
    (by
      intro x hx
      simp only [List.mem_cons, List.mem_singleton, List.not_mem_nil, or_false] at hx
      rcases hx with rfl | rfl
      · exact ⟨member_one_two_ok.1, by decide⟩
      · exact ⟨member_one_two_ok.2, by decide⟩)
    (by simp)
  simp only [List.length_nil] at this
  simp only [get_archive_file_list, get_archive_file_list_run, hopen, this]

/-- C6 (as amended): let the archive consist of well-formed members, each of at most
2^31 - 512 bytes, followed by a footer, and let some requested name not be among the
member names. Then the listing returns the member names, and `main` in update mode (`-u`)
exits with status 1 after printing the not-present message and nothing else, never calls
`append_files_to_archive`, and leaves the file system, the archive included, as it was. -/
theorem C6_update_precondition (fuel : Nat) (env : Env) (fs : FS)
    (prog flag archive : CStr) (files : List CStr) (ms : List Member) (tail : List Nat)
    (hfs : fs archive = some (members_bytes ms ++ List.replicate 1024 0 ++ tail))
    (hok : ∀ m ∈ ms, m.ok ∧ m.content.length + 512 ≤ 2 ^ 31)
    (hfuel : ms.length + 1 ≤ fuel)
    (hmiss : ∃ n ∈ files, n ∉ ms.map Member.name) :
    get_archive_file_list fuel fs archive []
      = Outcome.returned (0, first_occurrences (ms.map Member.name)) ∧
    ∃ run, main fuel env fs (prog :: [45, 117] :: flag :: archive :: files)
        = Outcome.returned run ∧
      run.status = 1 ∧ run.stdout = [Printed.not_present] ∧ Call.append ∉ run.calls ∧
      run.fs = fs := by
  have hlist : get_archive_file_list fuel fs archive []
      = Outcome.returned (0, first_occurrences (ms.map Member.name)) := by
    rw [list_members fs archive ms tail [] fuel hfs hok hfuel, collect_names_nil]
  refine ⟨hlist, update_after_list fuel env fs prog flag archive files 0 _ hlist ?_⟩
  obtain ⟨n, hn, hnot⟩ := hmiss
  exact ⟨n, hn, fun h => hnot ((mem_first_occurrences _ n).mp h)⟩

/-- C6, at the archive "arc" of the members "a.txt" with "one" and "a.txt" with "two!"
followed by a footer, and the request to update "y", which the archive does not hold. -/
theorem C6_update_precondition_witness :
    fs_dup arc = some (members_bytes [member_one, member_two] ++ List.replicate 1024 0 ++ []) ∧
    (∃ n ∈ [[121]], n ∉ [member_one, member_two].map Member.name) ∧
    get_archive_file_list 3 fs_dup arc []
      = Outcome.returned (0, first_occurrences ([member_one, member_two].map Member.name)) ∧
    ∃ run, main 3 env_ok fs_dup ([109] :: [45, 117] :: [45, 102] :: arc :: [[121]])
        = Outcome.returned run ∧
      run.status = 1 ∧ run.stdout = [Printed.not_present] ∧ Call.append ∉ run.calls ∧
      run.fs = fs_dup := by
  have hfs : fs_dup arc
      = some (members_bytes [member_one, member_two] ++ List.replicate 1024 0 ++ []) := by
    simp only [fs_dup, if_true, List.append_nil]
  have hmiss : ∃ n ∈ [[121]], n ∉ [member_one, member_two].map Member.name := by decide
  exact ⟨hfs, hmiss,
    C6_update_precondition 3 env_ok fs_dup [109] [45, 102] arc [[121]]
      [member_one, member_two] [] hfs
      (by
        intro x hx
        simp only [List.mem_cons, List.mem_singleton, List.not_mem_nil, or_false] at hx
        rcases hx with rfl | rfl
        · exact ⟨member_one_two_ok.1, by decide⟩
        · exact ⟨member_one_two_ok.2, by decide⟩)
      (by decide) hmiss⟩

/-- C7 (refutation as stated): an archive is created from no members and the member "x"
of 2^31 bytes, the first "b" and the others zero, is appended to it. Both calls return
0, and `get_archive_file_list` returns 0 with the list "x", "b" where the claim has the
list "x". -/
theorem C7_list_after_appended_member_of_2GiB :
    (∃ fs1 fs3, create_archive 4194306 env_ok fs_2GiB [97] [] = Outcome.returned (0, fs1) ∧
      append_files_to_archive 4194306 env_ok (fs_2GiB.graft [97] fs1) [97] [[120]]
        = Outcome.returned (0, fs3) ∧
      get_archive_file_list 3 fs3 [97] [] = Outcome.returned (0, [[120], [98]])) ∧
    first_occurrences ([] ++ [[120]]) ≠ [[120], [98]] := by
  refine ⟨?_, by decide⟩
  obtain ⟨fs1, fs3, e1, e2, e3, _⟩ := create_then_append_spec 4194306 env_ok env_ok fs_2GiB
    fs_2GiB [97] [] [[120]] (by decide) (by decide) (by decide)
    (fun m hm => fopen_r_of_encoded env_ok fs_2GiB m
      (by rw [List.mem_singleton.mp hm]; exact fs_2GiB_encoded))
    (by decide)
    (fun m hm => by
      rw [List.mem_singleton.mp hm, fs_2GiB_x, Option.getD_some, fs_2GiB_size])
  refine ⟨fs1, fs3, e1, e2, list_of_2GiB_member fs3 0 ?_⟩
  rw [e3]; rfl

/-- C7 (as amended): let an archive be created from the members `files` and let the
members `more` then be appended to it, every member of either list having a name of 1 to
99 non-zero bytes, a successfully encoded header and at most 2^31 - 512 bytes of content.
Both calls return 0, and `get_archive_file_list`, called with an empty list, returns 0
with the names of `files` followed by `more` in first-occurrence order: every name of
either list is in the result, and each exactly once. -/
theorem C7_append_then_list (fuel : Nat) (env env2 : Env) (fs other : FS)
    (archive_name : CStr) (files more : List CStr)
    (hself : archive_name ∉ files)
    (hname : ∀ m ∈ files, 1 ≤ m.length ∧ m.length ≤ 99 ∧ ∀ b ∈ m, b ≠ 0)
    (henc : ∀ m ∈ files, (fill_tar_header env fs m).1 = 0)
    (hsize : ∀ m ∈ files, ((fs m).getD []).length + 512 ≤ 2 ^ 31)
    (hfuel : ∀ m ∈ files, ((fs m).getD []).length / 512 + 2 ≤ fuel)
    (hself2 : archive_name ∉ more)
    (hname2 : ∀ m ∈ more, 1 ≤ m.length ∧ m.length ≤ 99 ∧ ∀ b ∈ m, b ≠ 0)
    (henc2 : ∀ m ∈ more, (fill_tar_header env2 other m).1 = 0)
    (hsize2 : ∀ m ∈ more, ((other m).getD []).length + 512 ≤ 2 ^ 31)
    (hfuel2 : ∀ m ∈ more, ((other m).getD []).length / 512 + 2 ≤ fuel)
    (hscan : files.length + more.length + 1 ≤ fuel) :
    ∃ fs1 fs3 names,
      create_archive fuel env fs archive_name files = Outcome.returned (0, fs1) ∧
      append_files_to_archive fuel env2 (other.graft archive_name fs1) archive_name more
        = Outcome.returned (0, fs3) ∧
      get_archive_file_list fuel fs3 archive_name [] = Outcome.returned (0, names) ∧
      names = first_occurrences (files ++ more) ∧
      (∀ n, n ∈ names ↔ n ∈ files ∨ n ∈ more) ∧ names.Nodup := by
  obtain ⟨fs1, fs3, e1, e2, e3, _⟩ := create_then_append_spec fuel env env2 fs other
    archive_name files more (fun m hm => fopen_r_of_encoded env fs m (henc m hm)) hself hfuel
    (fun m hm => fopen_r_of_encoded env2 other m (henc2 m hm)) hself2 hfuel2
  have hfs : fs3 archive_name = some (members_bytes
      (files.map (stored_member env fs) ++ more.map (stored_member env2 other))
      ++ List.replicate 1024 0 ++ []) := by
    rw [e3, archive_body_eq_members, archive_body_eq_members, members_bytes_append,
      List.append_nil]
  have hok : ∀ e ∈ files.map (stored_member env fs) ++ more.map (stored_member env2 other),
      e.ok ∧ e.content.length + 512 ≤ 2 ^ 31 := by
    intro e he
    rcases List.mem_append.mp he with h | h
    · exact stored_members_ok env fs files hname henc hsize e h
    · exact stored_members_ok env2 other more hname2 henc2 hsize2 e h
  have hlen : (files.map (stored_member env fs) ++ more.map (stored_member env2 other)).length
      + 1 ≤ fuel := by
    rw [List.length_append, List.length_map, List.length_map]; exact hscan
  refine ⟨fs1, fs3, first_occurrences (files ++ more), e1, e2, ?_, rfl, ?_,
    first_occurrences_nodup _⟩
  · rw [list_members fs3 archive_name _ [] [] fuel hfs hok hlen, List.map_append,
      stored_member_names, stored_member_names, collect_names_nil]
  · intro n
    rw [mem_first_occurrences, List.mem_append]

/-- C7, at an archive created from "x" to which "y" and "x" are appended. -/
theorem C7_append_then_list_witness :
    ∃ fs1 fs3 names,
      create_archive 4 env_ok fs_xy [97] [[120]] = Outcome.returned (0, fs1) ∧
      append_files_to_archive 4 env_ok (fs_xy.graft [97] fs1) [97] [[121], [120]]
        = Outcome.returned (0, fs3) ∧
      get_archive_file_list 4 fs3 [97] [] = Outcome.returned (0, names) ∧
      names = first_occurrences ([[120]] ++ [[121], [120]]) ∧
      (∀ n, n ∈ names ↔ n ∈ [[120]] ∨ n ∈ [[121], [120]]) ∧ names.Nodup :=
  C7_append_then_list 4 env_ok env_ok fs_xy fs_xy [97] [[120]] [[121], [120]]
    (by decide) (by decide) (by decide!) (by decide!) (by decide!)
    (by decide) (by decide) (by decide!) (by decide!) (by decide!) (by decide)

/-- C9: when the archive path cannot be opened for reading, `append_files_to_archive`
returns -1 for every member list and leaves the file system as it was: the archive
path still does not exist and nothing has been written. -/
theorem C9_append_never_creates (fuel : Nat) (env : Env) (fs : FS) (archive_name : CStr)
    (files : List CStr) (h : fopen_r fs archive_name = none) :
    append_files_to_archive fuel env fs archive_name files = Outcome.returned (-1, fs) ∧
      fs archive_name = none := by
  constructor
  · simp only [append_files_to_archive, h]
  · cases hfs : fs archive_name with
    | none => rfl
    | some d => simp [fopen_r, hfs] at h

/-- C9, at a file system without the archive "a" and the member list "x". -/
theorem C9_append_never_creates_witness :
    fopen_r fs_x600 [97] = none ∧
    append_files_to_archive 3 env_ok fs_x600 [97] [[120]] = Outcome.returned (-1, fs_x600) ∧
      fs_x600 [97] = none :=
  ⟨by decide, C9_append_never_creates 3 env_ok fs_x600 [97] [[120]] (by decide)⟩

/-- C10 (the code at the failing input): on the existing archive "a" of 3 bytes
`remove_trailing_bytes` fails with -1, and `append_files_to_archive` with the member "y"
nevertheless returns 0, leaving the 3 bytes followed by the member and a footer. -/
theorem C10_append_on_short_archive :
    (remove_trailing_bytes fs_short [97] 1024).1 = -1 ∧
    ∃ fs1, append_files_to_archive 3 env_ok fs_short [97] [[121]]
        = Outcome.returned (0, fs1) ∧
      fs1 [97] = some ([1, 2, 3] ++ archive_body env_ok fs_short [[121]]
        ++ List.replicate 1024 0) := by
  refine ⟨by decide, ?_⟩
  obtain ⟨fs1, e1, e2, _⟩ := append_spec 3 env_ok fs_short [97] [[121]] [1, 2, 3]
    (by decide) (by decide) (by decide) (by decide)
  exact ⟨fs1, e1, e2⟩

/-- C11 (the code at the failing input): no user id has a name, so `fill_tar_header`
returns -1 for the existing member "y". `create_archive` nevertheless returns 0 and the
archive holds a 512-byte block for "y" (the header as the failed call left it: the name is
there, the size field is still zero), its content block and a footer; and
`append_files_to_archive` on an archive that holds a footer does the same. -/
theorem C11_failed_encode_is_written :
    (fill_tar_header env_no_owner fs_xy [121]).1 = -1 ∧
    (fill_tar_header env_no_owner fs_footer_only [121]).1 = -1 ∧
    (∃ fs1, create_archive 3 env_no_owner fs_xy [97] [[121]] = Outcome.returned (0, fs1) ∧
      fs1 [97] = some ((fill_tar_header env_no_owner fs_xy [121]).2
        ++ pad_to_block [66, 67] ++ List.replicate 1024 0)) ∧
    (∃ fs2, append_files_to_archive 3 env_no_owner fs_footer_only [97] [[121]]
        = Outcome.returned (0, fs2) ∧
      fs2 [97] = some ((fill_tar_header env_no_owner fs_footer_only [121]).2
        ++ pad_to_block [66, 67] ++ List.replicate 1024 0)) ∧
    (fill_tar_header env_no_owner fs_xy [121]).2.length = 512 ∧
    get_field (fill_tar_header env_no_owner fs_xy [121]).2 f_name = strncpy [121] 100 ∧
    get_field (fill_tar_header env_no_owner fs_xy [121]).2 f_size = List.replicate 12 0 := by
  refine ⟨by decide, by decide, ?_, ?_, fill_tar_header_length _ _ _, by decide!, by decide!⟩
  · obtain ⟨fs1, e1, e2, _⟩ := create_archive_spec 3 env_no_owner fs_xy [97] [[121]]
      (by decide) (by decide) (by decide)
    refine ⟨fs1, e1, ?_⟩
    rw [e2]
    simp only [archive_body, member_blocks, fs_xy, List.append_nil]
    rfl
  · obtain ⟨fs2, e1, e2, _⟩ := append_spec 3 env_no_owner fs_footer_only [97] [[121]]
      (List.replicate 1024 0) (by simp only [fs_footer_only, if_true]) (by decide) (by decide)
      (by decide)
    refine ⟨fs2, e1, ?_⟩
    rw [e2]
    simp only [archive_body, member_blocks, fs_footer_only, without_footer,
      List.length_replicate, List.append_nil]
    rfl

/-- C12: let the archive not be one of its own members. When the list splits into members
`before` that all open, a member `missing` that cannot be opened for reading, and the
members `after`, `create_archive` returns -1 and the archive file holds exactly the headers
and padded contents of `before` in order, with no footer and nothing for `missing` or
`after`; other files are as they were. And `create_archive` returns -1 only when the list
has such a first member that cannot be opened. -/
theorem C12_create_with_missing_source (fuel : Nat) (env : Env) (fs : FS) (archive_name : CStr)
    (files : List CStr)
    (hself : archive_name ∉ files)
    (hfuel : ∀ m ∈ files, ((fs m).getD []).length / 512 + 2 ≤ fuel) :
    (∀ before missing after, files = before ++ missing :: after →
      (∀ m ∈ before, fopen_r fs m ≠ none) → fopen_r fs missing = none →
      ∃ fs1, create_archive fuel env fs archive_name files = Outcome.returned (-1, fs1) ∧
        fs1 archive_name = some (archive_body env fs before) ∧
        ∀ p, p ≠ archive_name → fs1 p = fs p) ∧
    (∀ fs1, create_archive fuel env fs archive_name files = Outcome.returned (-1, fs1) →
      ∃ before missing after, files = before ++ missing :: after ∧
        (∀ m ∈ before, fopen_r fs m ≠ none) ∧ fopen_r fs missing = none) := by
  constructor
  · intro before missing after hsplit hopen hmiss
    subst hsplit
    exact create_archive_missing fuel env fs archive_name before after missing hopen hmiss hself
      (fun m hm => hfuel m (List.mem_append_left _ hm))
  · intro fs1 hret
    by_cases hall : ∀ m ∈ files, fopen_r fs m ≠ none
    · obtain ⟨fs2, e1, _⟩ := create_archive_spec fuel env fs archive_name files hall hself hfuel
      rw [e1] at hret
      simp only [Outcome.returned.injEq, Prod.mk.injEq] at hret
      exact absurd hret.1 (by decide)
    · apply first_unopened
      by_contra hno
      apply hall
      intro m hm hnone
      exact hno ⟨m, hm, hnone⟩

/-- C12, at the members "x", "z", "y", of which "z" does not exist: the archive is left
with the header and the two content blocks of "x", 1536 bytes. -/
theorem C12_create_with_missing_source_witness :
    [97] ∉ [[120], [122], [121]] ∧ fopen_r fs_xy [122] = none ∧
    ∃ fs1, create_archive 3 env_ok fs_xy [97] [[120], [122], [121]]
        = Outcome.returned (-1, fs1) ∧
      fs1 [97] = some (archive_body env_ok fs_xy [[120]]) ∧
      (archive_body env_ok fs_xy [[120]]).length = 1536 := by
  refine ⟨by decide, by decide, ?_⟩
  obtain ⟨fs1, e1, e2, _⟩ := (C12_create_with_missing_source 3 env_ok fs_xy [97]
    [[120], [122], [121]] (by decide) (by decide!)).1 [[120]] [122] [[121]] rfl (by decide)
    (by decide)
  refine ⟨fs1, e1, e2, ?_⟩
  rw [archive_body_length]
  simp only [fs_xy, List.map_cons, List.map_nil, if_true, Option.getD_some,
      List.length_replicate, List.sum_cons, List.sum_nil]
  rfl

/-- C14 (the code at the failing input): the archive "arc" holds one member "x" whose
content is one block of 512 bytes and whose size field decodes to 512.
`extract_files_from_archive` returns 0 and the file it leaves under "x" is empty: the
final write copies `512 % 512 = 0` bytes, not 512. -/
theorem C14_final_write_of_full_block :
    member_x512.name = [120] ∧
    member_x512.content = List.replicate 512 65 ∧
    (cstr_at member_x512.header f_size.off).bind sscanf_octal = some 512 ∧
    fs_arc_x512 arc = some (member_x512.header ++ List.replicate 512 65
      ++ List.replicate 1024 0) ∧
    status_and_file (extract_files_from_archive 2 fs_arc_x512 arc) [120]
      = Outcome.returned (0, some []) := by
  decide!

/-- C15 (the code at the failing input): the member "y" exists and holds 2 bytes, and no
user id has a name, so `fill_tar_header` returns -1 for it. `create_archive` returns 0
all the same, having written the header without a size, and `extract_files_from_archive`
run on that archive in an empty directory finds no number in the size field and goes on
with `size` never assigned: the member's 2 bytes are not reproduced. For comparison, with
the owner's name known the same member comes back whole. -/
theorem C15_round_trip_after_failed_encode :
    fs_xy [121] = some [66, 67] ∧
    (fill_tar_header env_no_owner fs_xy [121]).1 = -1 ∧
    cstr_at (fill_tar_header env_no_owner fs_xy [121]).2 f_size.off = some [] ∧
    sscanf_octal [] = none ∧
    status_and_file (create_archive 3 env_no_owner fs_xy [97] [[121]]) [121]
      = Outcome.returned (0, some [66, 67]) ∧
    status_and_file (create_then_extract 3 env_no_owner fs_xy [97] [[121]]) [121]
      = Outcome.undefined ∧
    status_and_file (create_then_extract 3 env_ok fs_xy [97] [[121]]) [121]
      = Outcome.returned (0, some [66, 67]) := by
  decide!

/-- C16 (refutation as stated), at two lengths below 8^11. For the member "x" of 2^31
bytes the size field holds the 11 octal digits of 2^31 and a terminator, and the integer
`sscanf` stores into the `int` is -2^31. For the member "x" of 2^32 bytes the size field
holds eleven zeros and a terminator, which is not the octal text of 2^32: the length
passes through a cast to `unsigned`. -/
theorem C16_size_field_of_large_members :
    ((content_b (2 ^ 31 - 1024)).length = 2 ^ 31 ∧ 2 ^ 31 < 8 ^ 11 ∧
      fs_2GiB [120] = some (content_b (2 ^ 31 - 1024)) ∧
      (fill_tar_header env_ok fs_2GiB [120]).1 = 0 ∧
      get_field (fill_tar_header env_ok fs_2GiB [120]).2 f_size
        = octal_fixed 11 (2 ^ 31) ++ [0] ∧
      (cstr_at (fill_tar_header env_ok fs_2GiB [120]).2 f_size.off).bind sscanf_octal
        = some (-2147483648)) ∧
    ((content_b (2 ^ 32 - 1024)).length = 2 ^ 32 ∧ 2 ^ 32 < 8 ^ 11 ∧
      fs_4GiB [120] = some (content_b (2 ^ 32 - 1024)) ∧
      (fill_tar_header env_ok fs_4GiB [120]).1 = 0 ∧
      get_field (fill_tar_header env_ok fs_4GiB [120]).2 f_size
        = octal_fixed 11 0 ++ [0] ∧
      octal_fixed 11 0 ≠ octal_fixed 11 (2 ^ 32)) := by
  have h4x : fs_4GiB [120] = some (content_b (2 ^ 32 - 1024)) := by
    simp only [fs_4GiB, if_true]
  have h4len : (content_b (2 ^ 32 - 1024)).length = 2 ^ 32 := by
    rw [content_b_length]; decide
  have h4enc : (fill_tar_header env_ok fs_4GiB [120]).1 = 0 := by
    simp only [fill_tar_header, h4x, env_ok]
  have h2len : (content_b (2 ^ 31 - 1024)).length = 2 ^ 31 := by
    rw [content_b_length]; decide
  refine ⟨⟨h2len, by decide, fs_2GiB_x, fs_2GiB_encoded, ?_, ?_⟩,
    ⟨h4len, by decide, h4x, h4enc, ?_, by decide⟩⟩
  · rw [fill_tar_header_size_field env_ok fs_2GiB [120] _ fs_2GiB_x fs_2GiB_encoded,
      snprintf_octal_11_eq, h2len]
    rfl
  · obtain ⟨text, htext, hscan⟩ := size_text_of_2GiB_member
    rw [htext, Option.some_bind, hscan]
  · rw [fill_tar_header_size_field env_ok fs_4GiB [120] _ h4x h4enc,
      snprintf_octal_11_eq, h4len]
    rfl

/-- C16 (as amended): when `fill_tar_header` succeeds on a member of `s` bytes, then for
`s < 2^32` the 12-byte size field holds the 11-digit zero-padded octal text of `s`
followed by a terminator, and for `s < 2^31` the integer that `sscanf` with `%o`, as
called by `get_archive_file_list` and `extract_files_from_archive`, reads from the field
into the `int` equals `s`. -/
theorem C16_size_field_round_trip (env : Env) (fs : FS) (m : CStr) (d : List Nat)
    (hd : fs m = some d) (henc : (fill_tar_header env fs m).1 = 0)
    (h32 : d.length < 2 ^ 32) :
    get_field (fill_tar_header env fs m).2 f_size = octal_fixed 11 d.length ++ [0] ∧
    (d.length < 2 ^ 31 →
      cstr_at (fill_tar_header env fs m).2 f_size.off = some (octal_fixed 11 d.length) ∧
      sscanf_octal (octal_fixed 11 d.length) = some (d.length : Int)) := by
  have hmod : d.length % 2 ^ 32 = d.length := Nat.mod_eq_of_lt h32
  refine ⟨?_, ?_⟩
  · rw [fill_tar_header_size_field env fs m d hd henc, snprintf_octal_11_eq, hmod]
  · intro h31
    have := fill_tar_header_size_text env fs m d hd henc
    rw [hmod] at this
    exact ⟨this, by rw [sscanf_octal_fixed d.length h32, to_int32_small d.length h31]⟩

/-- C16, at the member "x" of 600 bytes: the field holds "00000001130" and a terminator,
and 600 is read back. -/
theorem C16_size_field_round_trip_witness :
    get_field (fill_tar_header env_ok fs_x600 [120]).2 f_size
      = [48, 48, 48, 48, 48, 48, 48, 49, 49, 51, 48, 0] ∧
    (cstr_at (fill_tar_header env_ok fs_x600 [120]).2 f_size.off).bind sscanf_octal
      = some 600 := by
  have hx : fs_x600 [120] = some (List.replicate 600 65) := by simp only [fs_x600, if_true]
  have hl : (List.replicate 600 65).length = 600 := List.length_replicate _ _
  obtain ⟨h1, h2⟩ := C16_size_field_round_trip env_ok fs_x600 [120] (List.replicate 600 65) hx
    (by simp only [fill_tar_header, hx, env_ok]) (by rw [hl]; decide)
  obtain ⟨h3, h4⟩ := h2 (by rw [hl]; decide)
  rw [hl] at h1 h3 h4
  refine ⟨by rw [h1]; rfl, ?_⟩
  rw [h3, Option.some_bind, h4]
  rfl

/-- C17 (refutation as stated): for the member "y" the checksum is 4114, octal 10022, and
the checksum field holds the seven digits "0010022" followed by a terminator, as
`snprintf(header->chksum, 8, "%07o", sum)` writes them. With six digits and a terminator
the field would start with "010022" and a zero byte; its seventh byte is the digit "2". -/
theorem C17_checksum_field_has_seven_digits :
    (fill_tar_header env_ok fs_xy [121]).1 = 0 ∧
    char_sum (fill_tar_header env_ok fs_xy [121]).2 = 4114 ∧
    get_field (fill_tar_header env_ok fs_xy [121]).2 f_chksum
      = [48, 48, 49, 48, 48, 50, 50, 0] ∧
    octal_fixed 7 4114 ++ [0] = [48, 48, 49, 48, 48, 50, 50, 0] ∧
    octal_fixed 6 4114 ++ [0] = [48, 49, 48, 48, 50, 50, 0] ∧
    (get_field (fill_tar_header env_ok fs_xy [121]).2 f_chksum).take 7
      ≠ octal_fixed 6 4114 ++ [0] := by
  decide!

/-- C17 (as amended): for every header that `fill_tar_header` fills successfully, the
8-byte checksum field holds exactly 7 octal digits followed by a terminator byte; they
are the zero-padded octal text of the sum `compute_checksum` forms over the header
whenever that sum is below 8^7. -/
theorem C17_checksum_field_format (env : Env) (fs : FS) (m : CStr)
    (henc : (fill_tar_header env fs m).1 = 0) :
    ∃ digits : List Nat,
      get_field (fill_tar_header env fs m).2 f_chksum = digits ++ [0] ∧
      digits.length = 7 ∧ (∀ d ∈ digits, 48 ≤ d ∧ d ≤ 55) ∧
      (char_sum (fill_tar_header env fs m).2 < 8 ^ 7 →
        digits = octal_fixed 7 (char_sum (fill_tar_header env fs m).2)) := by
  obtain ⟨h13, hl, e⟩ := fill_tar_header_checksummed env fs m henc
  obtain ⟨digits, d1, d2, d3, d4⟩ := snprintf_octal_7_digits (char_sum h13)
  refine ⟨digits, ?_, d2, d3, ?_⟩
  · rw [e, compute_checksum_field h13 hl, d1]
  · rw [e, char_sum_compute_checksum h13 hl]
    exact d4

/-- C17, at the member "x" of 600 bytes. -/
theorem C17_checksum_field_format_witness :
    (fill_tar_header env_ok fs_x600 [120]).1 = 0 ∧
    ∃ digits : List Nat,
      get_field (fill_tar_header env_ok fs_x600 [120]).2 f_chksum = digits ++ [0] ∧
      digits.length = 7 ∧ (∀ d ∈ digits, 48 ≤ d ∧ d ≤ 55) ∧
      (char_sum (fill_tar_header env_ok fs_x600 [120]).2 < 8 ^ 7 →
        digits = octal_fixed 7 (char_sum (fill_tar_header env_ok fs_x600 [120]).2)) :=
  have henc : (fill_tar_header env_ok fs_x600 [120]).1 = 0 := by
    simp only [fill_tar_header, fs_x600, if_true, env_ok]
  ⟨henc, C17_checksum_field_format env_ok fs_x600 [120] henc⟩

/-- C18: let every member of the lists `A` and `B` open, and let the archive be in neither
list. `create_archive` with `A` returns 0; `append_files_to_archive` with `B`, run on the
file system the creation leaves, returns 0; `create_archive` with `A` followed by `B`
returns 0; and the two archives hold the same bytes, as does every other file. -/
theorem C18_append_agrees_with_create (fuel : Nat) (env : Env) (fs : FS) (archive_name : CStr)
    (A B : List CStr)
    (hopenA : ∀ m ∈ A, fopen_r fs m ≠ none) (hopenB : ∀ m ∈ B, fopen_r fs m ≠ none)
    (hselfA : archive_name ∉ A) (hselfB : archive_name ∉ B)
    (hfuelA : ∀ m ∈ A, ((fs m).getD []).length / 512 + 2 ≤ fuel)
    (hfuelB : ∀ m ∈ B, ((fs m).getD []).length / 512 + 2 ≤ fuel) :
    ∃ fs1 fs2 fs3 data,
      create_archive fuel env fs archive_name A = Outcome.returned (0, fs1) ∧
      append_files_to_archive fuel env fs1 archive_name B = Outcome.returned (0, fs2) ∧
      create_archive fuel env fs archive_name (A ++ B) = Outcome.returned (0, fs3) ∧
      fs2 archive_name = some data ∧ fs3 archive_name = some data ∧
      ∀ p, fs2 p = fs3 p := by
  obtain ⟨fs1, fs2, e1, e2, e3, e4⟩ := create_then_append_spec fuel env env fs fs archive_name
    A B hopenA hselfA hfuelA hopenB hselfB hfuelB
  obtain ⟨fs1b, c1, _, c3⟩ := create_archive_spec fuel env fs archive_name A hopenA hselfA hfuelA
  rw [e1] at c1
  simp only [Outcome.returned.injEq, Prod.mk.injEq, true_and] at c1
  subst c1
  rw [graft_eq_self fs fs1 archive_name c3] at e2
  obtain ⟨fs3, g1, g2, g3⟩ := create_archive_spec fuel env fs archive_name (A ++ B)
    (fun m hm => (List.mem_append.mp hm).elim (hopenA m) (hopenB m))
    (fun h => (List.mem_append.mp h).elim hselfA hselfB)
    (fun m hm => (List.mem_append.mp hm).elim (hfuelA m) (hfuelB m))
  have hbody : fs3 archive_name = some (archive_body env fs A ++ archive_body env fs B
      ++ List.replicate 1024 0) := by
    rw [g2, archive_body_append]
  refine ⟨fs1, fs2, fs3, _, e1, e2, g1, e3, hbody, ?_⟩
  intro p
  by_cases hp : p = archive_name
  · rw [hp, e3, hbody]
  · rw [e4 p hp, g3 p hp]

/-- C18, at the lists "x" and "y", "x": both ways give the same archive. -/
theorem C18_append_agrees_with_create_witness :
    ∃ fs1 fs2 fs3 data,
      create_archive 3 env_ok fs_xy [97] [[120]] = Outcome.returned (0, fs1) ∧
      append_files_to_archive 3 env_ok fs1 [97] [[121], [120]] = Outcome.returned (0, fs2) ∧
      create_archive 3 env_ok fs_xy [97] ([[120]] ++ [[121], [120]])
        = Outcome.returned (0, fs3) ∧
      fs2 [97] = some data ∧ fs3 [97] = some data ∧ ∀ p, fs2 p = fs3 p :=
  C18_append_agrees_with_create 3 env_ok fs_xy [97] [[120]] [[121], [120]]
    (by decide) (by decide) (by decide) (by decide) (by decide!) (by decide!)

/-- C19 (the code at the failing input): `create_archive` copies the member "x" of 600
bytes. The content loop, started as `create_archive` starts it after the header is
written, reads a first chunk of 512 bytes and stores the terminator at `buf[512]`, then a
chunk of 88 bytes with the terminator at `buf[88]`; the buffer has 512 elements, so 512 is
not a valid index. -/
theorem C19_terminator_index_of_full_chunk :
    fopen_r fs_x600 [120] = some ⟨[120], 0⟩ ∧
    (∃ fs1, copy_contents_run 3
        (fwrite (fopen_w fs_x600 [97]) [97] (fill_tar_header env_ok fs_x600 [120]).2) [97]
        ⟨[120], 0⟩ (memset 0 MAX_MSG_LEN) []
      = Outcome.returned (fs1, [512, 88])) ∧
    (memset 0 MAX_MSG_LEN).length = 512 ∧ ¬ (512 < (memset 0 MAX_MSG_LEN).length) := by
  have hl : (memset 0 MAX_MSG_LEN).length = 512 := by
    rw [memset, MAX_MSG_LEN, List.length_replicate]
  refine ⟨by decide, ?_, hl, by rw [hl]; exact Nat.lt_irrefl 512⟩
  have hx : (fwrite (fopen_w fs_x600 [97]) [97] (fill_tar_header env_ok fs_x600 [120]).2) [120]
      = some (List.replicate 600 65) := by
    rw [fwrite_other _ _ _ _ (by decide), fopen_w, put_other _ _ _ _ (by decide)]
    simp only [fs_x600, if_true]
  obtain ⟨fs1, e⟩ := copy_contents_run_spec 3 _ [97] [120] 0 (List.replicate 600 65) [] (by decide)
    hx (by rw [List.length_replicate])
  refine ⟨fs1, ?_⟩
  rw [e, List.length_replicate]
  rfl

/-- C20 (refutation as stated): `create_archive` is given the member "x" of 2^31 zero
bytes and the member "z", which does not exist. It returns -1 and leaves the header and
the content of "x" without a footer. On that archive `get_archive_file_list` returns 0
with the list "x", and `extract_files_from_archive` returns 0: the size is read back
through an `int` as -2^31, the content is not skipped, and a block of content, all zero,
ends the scan. -/
theorem C20_scan_stops_after_member_of_2GiB :
    (fill_tar_header env_ok fs_2GiB_zeros [120]).1 = 0 ∧
    ∃ fs1, create_archive 4194306 env_ok fs_2GiB_zeros [97] [[120], [122]]
        = Outcome.returned (-1, fs1) ∧
      fs1 [97] = some ((fill_tar_header env_ok fs_2GiB_zeros [120]).2
        ++ pad_to_block (List.replicate (2 ^ 31) 0)) ∧
      get_archive_file_list 2 fs1 [97] [] = Outcome.returned (0, [[120]]) ∧
      ∃ fs2, extract_files_from_archive 2 fs1 [97] = Outcome.returned (0, fs2) := by
  refine ⟨fs_2GiB_zeros_encoded, ?_⟩
  obtain ⟨fs1, e1, e2, _⟩ := create_archive_missing 4194306 env_ok fs_2GiB_zeros [97]
    [[120]] [] [122]
    (fun m hm => fopen_r_of_encoded env_ok fs_2GiB_zeros m
      (by rw [List.mem_singleton.mp hm]; exact fs_2GiB_zeros_encoded))
    (by simp only [fopen_r, fs_2GiB_zeros]; rfl)
    (by decide)
    (fun m hm => by
      rw [List.mem_singleton.mp hm, fs_2GiB_zeros_x, Option.getD_some, List.length_replicate]
      decide)
  have hbody : fs1 [97] = some ((fill_tar_header env_ok fs_2GiB_zeros [120]).2
      ++ pad_to_block (List.replicate (2 ^ 31) 0)) := by
    rw [e2]
    simp only [archive_body, member_blocks, fs_2GiB_zeros_x, Option.getD_some, List.append_nil]
  have hfs : fs1 [97] = some ((fill_tar_header env_ok fs_2GiB_zeros [120]).2
      ++ List.replicate 512 0 ++ (List.replicate 512 0 ++ List.replicate (2 ^ 31 - 1024) 0)) := by
    rw [e2, body_of_2GiB_zeros]
  obtain ⟨text, htext, hscan⟩ := size_text_of_2GiB env_ok fs_2GiB_zeros [120] _
    fs_2GiB_zeros_x fs_2GiB_zeros_encoded (by rw [List.length_replicate]; decide)
  have hname := fill_tar_header_name_text env_ok fs_2GiB_zeros [120] fs_2GiB_zeros_encoded
    (by decide) (by decide)
  refine ⟨fs1, e1, hbody, ?_, ?_⟩
  · exact list_after_oversized_zeros fs1 [97] _ _ _ [120] 0 hfs (fill_tar_header_length _ _ _)
      hname (by decide) htext hscan
  · obtain ⟨fs2, x1, _⟩ := extract_after_oversized fs1 [97] _ (List.replicate 512 0) _ _ [120] 0
      hfs (List.length_replicate _ _) (fill_tar_header_length _ _ _) hname (by decide) htext
      hscan (by decide) (by decide)
    exact ⟨fs2, x1⟩

/-- C20 (as amended): on an archive that consists of one or more well-formed members, each
of at most 2^31 - 512 bytes, and no footer, the scan of `get_archive_file_list` never
reaches its stop condition: whatever the bound on the number of rounds, the loop is still
running when the bound is used up. For `extract_files_from_archive`, let in addition the
archive path be a plain file name, no member be empty, and every member name either be a
plain file name other than the archive's or be a path that cannot be opened for writing:
Extract never returns, and when all member names are plain file names its loop, too, is
still running when the bound is used up. -/
theorem C20_scan_of_footerless_archive (fs : FS) (archive_name : CStr) (ms : List Member)
    (files : List CStr) (fuel : Nat)
    (hne : ms ≠ []) (hfs : fs archive_name = some (members_bytes ms))
    (hok : ∀ m ∈ ms, m.ok ∧ m.content.length + 512 ≤ 2 ^ 31) :
    get_archive_file_list fuel fs archive_name files = Outcome.running ∧
    (plain_name archive_name = true →
      (∀ m ∈ ms, m.content.length ≠ 0 ∧
        (path_entry m.name = none ∨ (m.name ≠ archive_name ∧ plain_name m.name = true))) →
      (∀ r, extract_files_from_archive fuel fs archive_name ≠ Outcome.returned r) ∧
      ((∀ m ∈ ms, plain_name m.name = true) →
        extract_files_from_archive fuel fs archive_name = Outcome.running)) := by
  have hopen : fopen_r fs archive_name = some ⟨archive_name, 0⟩ := by simp only [fopen_r, hfs]
  have hfs0 : fs archive_name = some ([] ++ members_bytes ms) := by rw [hfs]; rfl
  constructor
  · have := list_scan_footerless fs archive_name ms [] [] none files [0] fuel hne hfs0 hok
      (by simp)
    simp only [List.length_nil] at this
    simp only [get_archive_file_list, get_archive_file_list_run, hopen, this]
  · intro _ hx
    constructor
    · intro r
      have := extract_scan_footerless_any archive_name ms fs [] [] [0] fuel hne hfs0
        (fun m hm => ⟨(hok m hm).1, (hx m hm).1, (hx m hm).2⟩) (by simp)
      simp only [List.length_nil] at this
      rcases this with h | h
      · simp only [extract_files_from_archive, extract_files_from_archive_run, hopen, h]
        exact fun e => Outcome.noConfusion e
      · simp only [extract_files_from_archive, extract_files_from_archive_run, hopen, h]
        exact fun e => Outcome.noConfusion e
    · intro hp
      have hself : ∀ m ∈ ms, m.name ≠ archive_name := by
        intro m hm
        rcases (hx m hm).2 with hnone | ⟨h, _⟩
        · rw [path_entry_plain m.name (hp m hm)] at hnone
          cases hnone
        · exact h
      have := extract_scan_footerless archive_name ms fs [] [] [0] fuel hne hfs0
        (fun m hm => ⟨(hok m hm).1, (hx m hm).1, hself m hm, hp m hm⟩) (by simp)
      simp only [List.length_nil] at this
      simp only [extract_files_from_archive, extract_files_from_archive_run, hopen, this]

/-- C20, at the archive "arc" that holds the members "a.txt" with "one" and "a.txt" with
"two!" and no footer, with a bound of 1000 rounds. -/
theorem C20_scan_of_footerless_archive_witness :
    fs_footerless arc = some (members_bytes [member_one, member_two]) ∧
    get_archive_file_list 1000 fs_footerless arc [] = Outcome.running ∧
    (∀ r, extract_files_from_archive 1000 fs_footerless arc ≠ Outcome.returned r) ∧
    extract_files_from_archive 1000 fs_footerless arc = Outcome.running := by
  have hok1 : member_one.ok :=
    stored_member_ok env_ok _ a_txt (by decide!) (by decide) (by decide) (by decide) (by decide)
  have hok2 : member_two.ok :=
    stored_member_ok env_ok _ a_txt (by decide!) (by decide) (by decide) (by decide) (by decide)
  have hfs : fs_footerless arc = some (members_bytes [member_one, member_two]) := by
    simp only [fs_footerless, if_true]
  obtain ⟨h1, h2⟩ := C20_scan_of_footerless_archive fs_footerless arc [member_one, member_two]
    [] 1000 (by simp) hfs
    (by
      intro x hx
      simp only [List.mem_cons, List.mem_singleton, List.not_mem_nil, or_false] at hx
      rcases hx with rfl | rfl
      · exact ⟨hok1, by decide⟩
      · exact ⟨hok2, by decide⟩)
  obtain ⟨h3, h4⟩ := h2 (by decide) (by
    intro x hx
    simp only [List.mem_cons, List.mem_singleton, List.not_mem_nil, or_false] at hx
    rcases hx with rfl | rfl
    · exact ⟨by decide, Or.inr ⟨by decide, by decide⟩⟩
    · exact ⟨by decide, Or.inr ⟨by decide, by decide⟩⟩)
  refine ⟨hfs, h1, h3, h4 ?_⟩
  intro x hx
  simp only [List.mem_cons, List.mem_singleton, List.not_mem_nil, or_false] at hx
  rcases hx with rfl | rfl
  · decide
  · decide

end Minitar
